import Mathlib

/-!
# Verification of the chat-to-html core

Shallow embedding of the chat-to-html pipeline (vendor decoders, decoder
registry, segmenter, markup renderer) and proofs of the specified
properties.  Text is modelled as `List Char`; JavaScript values produced by
`JSON.parse` are modelled by the inductive type `Json` below (numbers are
restricted to integers, which covers every numeric field the pipeline
reads — token counters).  JavaScript exceptions (`JSON.parse` failures and
the type errors the decoders can hit on non-conforming records) are
modelled with `Except`.
-/

set_option maxRecDepth 100000

/-- Text, modelled as a list of characters. -/
abbrev Str := List Char

/-- Coerce a Lean string literal to our character-list text type. -/
def cs (s : String) : Str := s.data

/-- JavaScript whitespace recognised by `String.prototype.trim`
(the forms that occur in JSONL logs). -/
def isJsWs (c : Char) : Bool :=
  c = ' ' || c = '\t' || c = '\n' || c = '\r' || c = '\x0b' || c = '\x0c'

/-- `s.trim()`: strip leading and trailing whitespace. -/
def jsTrim (s : Str) : Str :=
  ((s.dropWhile isJsWs).reverse.dropWhile isJsWs).reverse

/-- `s.split('\n')`. -/
def splitNl (s : Str) : List Str :=
  s.splitOn '\n'

mutual

/-- JSON values as produced by `JSON.parse`.  Object fields keep their
source order.  Numbers are modelled as integers.  (Arrays and objects are
mutual inductives rather than `List`-nested ones so that all recursive
functions below are structural and evaluate inside the kernel.) -/
inductive Json where
  | null : Json
  | bool (b : Bool) : Json
  | num (n : Int) : Json
  | str (s : Str) : Json
  | arr (elems : JsonList) : Json
  | obj (fields : JsonFields) : Json

/-- The element list of a JSON array. -/
inductive JsonList where
  | nil : JsonList
  | cons (head : Json) (tail : JsonList) : JsonList

/-- The field list of a JSON object. -/
inductive JsonFields where
  | nil : JsonFields
  | cons (key : Str) (val : Json) (tail : JsonFields) : JsonFields

end

/-- The elements of a JSON array as a `List`. -/
def JsonList.toList : JsonList → List Json
  | .nil => []
  | .cons x xs => x :: JsonList.toList xs

/-- Build a JSON array payload from a `List`. -/
def JsonList.ofList : List Json → JsonList
  | [] => .nil
  | x :: xs => .cons x (JsonList.ofList xs)

/-- The fields of a JSON object as a `List` of pairs. -/
def JsonFields.toList : JsonFields → List (Str × Json)
  | .nil => []
  | .cons k v fs => (k, v) :: JsonFields.toList fs

/-- Build a JSON object payload from a `List` of pairs. -/
def JsonFields.ofList : List (Str × Json) → JsonFields
  | [] => .nil
  | (k, v) :: fs => .cons k v (JsonFields.ofList fs)

/-- Shorthand for a JSON array value. -/
def jarr (xs : List Json) : Json :=
  .arr (JsonList.ofList xs)

/-- Shorthand for a JSON object value. -/
def jobj (fs : List (Str × Json)) : Json :=
  .obj (JsonFields.ofList fs)

mutual

/-- Structural equality of JSON values, used to model JavaScript `!==`
comparisons on record fields.  (JS compares objects by reference; the
decoders only ever compare fields that are strings in conforming logs, for
which structural equality is the JS behaviour.) -/
def Json.beq : Json → Json → Bool
  | .null, .null => true
  | .bool a, .bool b => a = b
  | .num a, .num b => a = b
  | .str a, .str b => a = b
  | .arr xs, .arr ys => JsonList.beq xs ys
  | .obj fs, .obj gs => JsonFields.beq fs gs
  | _, _ => false

/-- Elementwise `Json.beq`. -/
def JsonList.beq : JsonList → JsonList → Bool
  | .nil, .nil => true
  | .cons x xs, .cons y ys => Json.beq x y && JsonList.beq xs ys
  | _, _ => false

/-- Fieldwise `Json.beq`. -/
def JsonFields.beq : JsonFields → JsonFields → Bool
  | .nil, .nil => true
  | .cons k v fs, .cons k' v' gs => k = k' && Json.beq v v' && JsonFields.beq fs gs
  | _, _ => false

end

namespace Json

/-- `!==` on possibly-absent values (`undefined !== undefined` is false). -/
def bne (a b : Option Json) : Bool :=
  match a, b with
  | none, none => false
  | some x, some y => !(Json.beq x y)
  | _, _ => true

/-- Property access `v.k` on a JSON value: defined for objects, `undefined`
(`none`) otherwise.  Duplicate keys: the last binding wins, matching
`JSON.parse`.  (`null.k` throws in JS; every access the decoders perform on
a possibly-`null` value is guarded, so `none` is an adequate model.) -/
def getField (v : Json) (k : Str) : Option Json :=
  match v with
  | .obj fields => ((JsonFields.toList fields).reverse.find? (fun p => p.1 = k)).map (·.2)
  | _ => none

/-- Optional-chaining access `v?.k` on a possibly-absent value. -/
def getFieldOpt (v : Option Json) (k : Str) : Option Json :=
  match v with
  | some j => j.getField k
  | none => none

/-- JavaScript truthiness of a JSON value. -/
def truthy (v : Json) : Bool :=
  match v with
  | .null => false
  | .bool b => b
  | .num n => n ≠ 0
  | .str s => s ≠ []
  | .arr _ => true
  | .obj _ => true

/-- Truthiness of a possibly-absent value (`undefined` is falsy). -/
def truthyOpt (v : Option Json) : Bool :=
  match v with
  | some j => truthy j
  | none => false

/-- The decimal rendering of an integer (as JavaScript prints it). -/
def intToStr (n : Int) : Str :=
  (toString n).data

end Json

mutual

/-- `String(v)` conversion used by template literals, and (via
`JsonList.joinStr`) `Array.prototype.toString`. -/
def Json.jsToString : Json → Str
  | .null => cs "null"
  | .bool b => if b then cs "true" else cs "false"
  | .num n => Json.intToStr n
  | .str s => s
  | .arr elems => JsonList.joinStr elems
  | .obj _ => cs "[object Object]"

/-- `Array.prototype.join(',')`: elements converted with `String(·)`,
except `null` elements, which render empty. -/
def JsonList.joinStr : JsonList → Str
  | .nil => []
  | .cons .null .nil => []
  | .cons x .nil => Json.jsToString x
  | .cons .null rest => ',' :: JsonList.joinStr rest
  | .cons x rest => Json.jsToString x ++ [','] ++ JsonList.joinStr rest

end

/-- `String(v)` where `v` may be `undefined`. -/
def Json.optToString (v : Option Json) : Str :=
  match v with
  | some j => Json.jsToString j
  | none => cs "undefined"

/-! ## JSON.parse

A parser for JSON text, modelling `JSON.parse`.  Number literals are
restricted to integers (a fraction or exponent makes the parse fail);
every numeric field the pipeline reads is a token counter, which is
integral in the logs. -/

/-- One JSON-whitespace character (`space`, `tab`, `newline`, `return`). -/
def isJsonWs (c : Char) : Bool :=
  c = ' ' || c = '\t' || c = '\n' || c = '\r'

/-- Skip JSON whitespace. -/
def skipWs (s : Str) : Str :=
  s.dropWhile isJsonWs

/-- Value of one hexadecimal digit. -/
def hexVal (c : Char) : Option Nat :=
  let n := c.toNat
  if 48 ≤ n ∧ n ≤ 57 then some (n - 48)
  else if 97 ≤ n ∧ n ≤ 102 then some (n - 87)
  else if 65 ≤ n ∧ n ≤ 70 then some (n - 55)
  else none

/-- Parse the characters of a JSON string literal after the opening quote;
returns the decoded characters and the rest of the input.  Raw control
characters are rejected, as `JSON.parse` does. -/
def parseStrChars : Str → Option (Str × Str)
  | [] => none
  | '"' :: rest => some ([], rest)
  | '\\' :: rest =>
    match rest with
    | '"' :: r => (parseStrChars r).map (fun p => ('"' :: p.1, p.2))
    | '\\' :: r => (parseStrChars r).map (fun p => ('\\' :: p.1, p.2))
    | '/' :: r => (parseStrChars r).map (fun p => ('/' :: p.1, p.2))
    | 'b' :: r => (parseStrChars r).map (fun p => ('\x08' :: p.1, p.2))
    | 'f' :: r => (parseStrChars r).map (fun p => ('\x0c' :: p.1, p.2))
    | 'n' :: r => (parseStrChars r).map (fun p => ('\n' :: p.1, p.2))
    | 'r' :: r => (parseStrChars r).map (fun p => ('\r' :: p.1, p.2))
    | 't' :: r => (parseStrChars r).map (fun p => ('\t' :: p.1, p.2))
    | 'u' :: h₁ :: h₂ :: h₃ :: h₄ :: r =>
      match hexVal h₁, hexVal h₂, hexVal h₃, hexVal h₄ with
      | some a, some b, some c, some d =>
        let n := ((a * 16 + b) * 16 + c) * 16 + d
        (parseStrChars r).map (fun p => (Char.ofNat n :: p.1, p.2))
      | _, _, _, _ => none
    | _ => none
  | c :: rest =>
    if c.toNat < 32 then none
    else (parseStrChars rest).map (fun p => (c :: p.1, p.2))

/-- Digits to a natural number. -/
def digitsToNat (ds : Str) : Nat :=
  ds.foldl (fun acc c => acc * 10 + (c.toNat - '0'.toNat)) 0

/-- Parse a JSON number (integer part only; a following `.`, `e` or `E`
rejects the value — see the module comment). -/
def parseNum (s : Str) : Option (Json × Str) :=
  let (neg, s₁) :=
    match s with
    | '-' :: r => (true, r)
    | _ => (false, s)
  let ds := s₁.takeWhile (fun c => c.isDigit)
  let rest := s₁.dropWhile (fun c => c.isDigit)
  match ds with
  | [] => none
  | d :: ds' =>
    -- leading zeros are rejected by JSON
    if d = '0' && ds' ≠ [] then none
    else
      match rest with
      | '.' :: _ => none
      | 'e' :: _ => none
      | 'E' :: _ => none
      | _ =>
        let n : Int := Int.ofNat (digitsToNat ds)
        some (.num (if neg then -n else n), rest)

mutual

/-- Parse one JSON value (fuel-indexed; `jsonParse` supplies enough fuel). -/
def parseVal (fuel : Nat) (s : Str) : Option (Json × Str) :=
  match fuel with
  | 0 => none
  | fuel + 1 =>
    match skipWs s with
    | 'n' :: 'u' :: 'l' :: 'l' :: r => some (.null, r)
    | 't' :: 'r' :: 'u' :: 'e' :: r => some (.bool true, r)
    | 'f' :: 'a' :: 'l' :: 's' :: 'e' :: r => some (.bool false, r)
    | '"' :: r => (parseStrChars r).map (fun p => (.str p.1, p.2))
    | '[' :: r =>
      (match skipWs r with
       | ']' :: r' => some (jarr [], r')
       | r' => (parseElems fuel r').map (fun p => (jarr p.1, p.2)))
    | '{' :: r =>
      (match skipWs r with
       | '}' :: r' => some (jobj [], r')
       | r' => (parseFields fuel r').map (fun p => (jobj p.1, p.2)))
    | s' => parseNum s'

/-- Parse the elements of a non-empty JSON array, up to and including the
closing bracket. -/
def parseElems (fuel : Nat) (s : Str) : Option (List Json × Str) :=
  match fuel with
  | 0 => none
  | fuel + 1 =>
    match parseVal fuel s with
    | none => none
    | some (v, r) =>
      match skipWs r with
      | ',' :: r' => (parseElems fuel r').map (fun p => (v :: p.1, p.2))
      | ']' :: r' => some ([v], r')
      | _ => none

/-- Parse the fields of a non-empty JSON object, up to and including the
closing brace. -/
def parseFields (fuel : Nat) (s : Str) : Option (List (Str × Json) × Str) :=
  match fuel with
  | 0 => none
  | fuel + 1 =>
    match s with
    | '"' :: r =>
      (match parseStrChars r with
       | none => none
       | some (key, r₁) =>
         match skipWs r₁ with
         | ':' :: r₂ =>
           (match parseVal fuel r₂ with
            | none => none
            | some (v, r₃) =>
              match skipWs r₃ with
              | ',' :: r₄ => (parseFields fuel (skipWs r₄)).map
                  (fun p => ((key, v) :: p.1, p.2))
              | '}' :: r₄ => some ([(key, v)], r₄)
              | _ => none)
         | _ => none)
    | _ => none

end

/-- `JSON.parse`: parse a complete JSON document (trailing whitespace
allowed, anything else after the value rejects). -/
def jsonParse (s : Str) : Option Json :=
  match parseVal (s.length + 2) s with
  | some (v, r) => if skipWs r = [] then some v else none
  | none => none

/-! ## JSON.stringify -/

/-- The escaped form of one character inside a JSON string literal. -/
def jsonEscChar (c : Char) : Str :=
  if c = '"' then ['\\', '"']
  else if c = '\\' then ['\\', '\\']
  else if c = '\x08' then ['\\', 'b']
  else if c = '\x0c' then ['\\', 'f']
  else if c = '\n' then ['\\', 'n']
  else if c = '\r' then ['\\', 'r']
  else if c = '\t' then ['\\', 't']
  else if c.toNat < 32 then
    let hx := Nat.toDigits 16 c.toNat
    ['\\', 'u'] ++ List.replicate (4 - hx.length) '0' ++ hx
  else [c]

/-- A JSON string literal for `s`. -/
def jsonQuote (s : Str) : Str :=
  '"' :: (s.flatMap jsonEscChar) ++ ['"']

mutual

/-- `JSON.stringify(v)` (compact form, no spacing). -/
def jsonStringify : Json → Str
  | .null => cs "null"
  | .bool b => if b then cs "true" else cs "false"
  | .num n => Json.intToStr n
  | .str s => jsonQuote s
  | .arr xs => '[' :: (jsonStringifyElems xs ++ [']'])
  | .obj fs => '{' :: (jsonStringifyFields fs ++ ['}'])

/-- Comma-separated compact renderings of array elements. -/
def jsonStringifyElems : JsonList → Str
  | .nil => []
  | .cons x .nil => jsonStringify x
  | .cons x rest => jsonStringify x ++ [','] ++ jsonStringifyElems rest

/-- Comma-separated compact renderings of object fields. -/
def jsonStringifyFields : JsonFields → Str
  | .nil => []
  | .cons k v .nil => jsonQuote k ++ [':'] ++ jsonStringify v
  | .cons k v rest => jsonQuote k ++ [':'] ++ jsonStringify v ++ [','] ++ jsonStringifyFields rest

end

mutual

/-- `JSON.stringify(v, null, 2)`: pretty form with two-space indentation,
at nesting depth `depth`. -/
def jsonStringifyPretty (depth : Nat) : Json → Str
  | .null => cs "null"
  | .bool b => if b then cs "true" else cs "false"
  | .num n => Json.intToStr n
  | .str s => jsonQuote s
  | .arr .nil => cs "[]"
  | .arr xs =>
    '[' :: '\n' :: (jsonStringifyPrettyElems depth xs ++
      '\n' :: List.replicate (2 * depth) ' ' ++ [']'])
  | .obj .nil => cs "{}"
  | .obj fs =>
    '{' :: '\n' :: (jsonStringifyPrettyFields depth fs ++
      '\n' :: List.replicate (2 * depth) ' ' ++ ['}'])

/-- The array elements, each on its own line indented one level below
`depth`, separated by `,\n`. -/
def jsonStringifyPrettyElems (depth : Nat) : JsonList → Str
  | .nil => []
  | .cons x .nil => List.replicate (2 * (depth + 1)) ' ' ++ jsonStringifyPretty (depth + 1) x
  | .cons x rest => List.replicate (2 * (depth + 1)) ' ' ++ jsonStringifyPretty (depth + 1) x ++
      [',', '\n'] ++ jsonStringifyPrettyElems depth rest

/-- The object fields, each on its own line indented one level below
`depth`, separated by `,\n`. -/
def jsonStringifyPrettyFields (depth : Nat) : JsonFields → Str
  | .nil => []
  | .cons k v .nil => List.replicate (2 * (depth + 1)) ' ' ++ jsonQuote k ++ [':', ' '] ++
      jsonStringifyPretty (depth + 1) v
  | .cons k v rest => List.replicate (2 * (depth + 1)) ' ' ++ jsonQuote k ++ [':', ' '] ++
      jsonStringifyPretty (depth + 1) v ++ [',', '\n'] ++
      jsonStringifyPrettyFields depth rest

end

/-! ## Canonical model (src/types.ts)

The decoders store raw record fields; fields that the TypeScript
interfaces declare as strings can hold any JSON value at runtime, so they
are modelled as (possibly absent) `Json` values. -/

/-- Token usage counters (`TokenUsage`).  The two cache counters are
optional, as in the source. -/
structure TokenUsage where
  inputTokens : Int
  outputTokens : Int
  cacheCreationTokens : Option Int := none
  cacheReadTokens : Option Int := none
deriving DecidableEq

/-- A tool invocation (`ToolCall`). -/
structure ToolCall where
  id : Option Json
  name : Option Json
  input : Option Json

/-- A tool result (`ToolResult`). -/
structure ToolResult where
  toolUseId : Option Json
  content : Option Json

/-- One content unit of a turn (`MessageContent`): a tagged variant over
narrative text, thinking text, a tool invocation and a tool result. -/
inductive MessageContent where
  | text (t : Option Json) : MessageContent
  | thinking (t : Option Json) : MessageContent
  | toolUse (tc : ToolCall) : MessageContent
  | toolRes (tr : ToolResult) : MessageContent

/-- One conversational turn (`ChatMessage`).  `role` holds the value the
decoder assigned (the decoders store raw record fields, so it is a JSON
value); `isHarness` is false when the optional flag is absent. -/
structure ChatMessage where
  id : Option Json
  role : Option Json
  content : List MessageContent
  timestamp : Option Json
  model : Option Json := none
  usage : Option TokenUsage := none
  isHarness : Bool := false

/-- The source-vendor tag of a session. -/
inductive Source where
  | claude : Source
  | codex : Source
  | gemini : Source
  | unknown : Source
deriving DecidableEq

/-- One parsed log (`ChatSession`). -/
structure ChatSession where
  sessionId : Json
  agentId : Option Json := none
  model : Option Json := none
  version : Option Json := none
  cwd : Option Json := none
  gitBranch : Option Json := none
  messages : List ChatMessage
  totalUsage : TokenUsage
  source : Source

/-- Decoder configuration (`ParseOptions`). -/
structure ParseOptions where
  identifyHarness : Option Bool := none

/-- `options?.identifyHarness !== false` — the harness toggle defaults to
true when the option (or the whole options object) is absent. -/
def identifyHarnessOf (options : Option ParseOptions) : Bool :=
  match options with
  | some ⟨some false⟩ => false
  | _ => true

/-- `getTotalTokens` (src/types.ts): total tokens of a usage value under a
vendor's total-token convention. -/
def getTotalTokens (usage : TokenUsage) (source : Source) : Int :=
  let total := usage.inputTokens + usage.outputTokens
  if source = Source.claude ∨ source = Source.gemini ∨ source = Source.unknown then
    -- for Claude-style APIs, cache tokens are separate from input_tokens
    total + (usage.cacheCreationTokens.getD 0 + usage.cacheReadTokens.getD 0)
  else
    -- for Codex, input_tokens already includes cached tokens
    total

/-! ## Segmenter (`flattenMessages`, src/html-generator.ts) -/

/-- The `kind` discriminator of a renderable unit. -/
inductive RKind where
  | normal : RKind
  | toolCall : RKind
  | toolRes : RKind
deriving DecidableEq

/-- A renderable unit (`RenderMessage`). -/
structure RenderMessage where
  id : Option Json
  role : Option Json
  content : List MessageContent
  timestamp : Option Json
  model : Option Json
  usage : Option TokenUsage
  isHarness : Bool
  kind : RKind
  parentId : Option Json := none

/-- The fields every unit of a turn shares (the `base` object in
`flattenMessages`). -/
def baseUnit (msg : ChatMessage) : RenderMessage :=
  { id := msg.id
    role := msg.role
    content := []
    timestamp := msg.timestamp
    model := msg.model
    usage := none
    isHarness := msg.isHarness
    kind := .normal }

/-- The `attachUsage` closure of `flattenMessages`: returns the usage to
attach to the unit being emitted and the updated `usageAttached` flag. -/
def attachUsage (originalUsage : Option TokenUsage) (usageAttached : Bool) :
    Option TokenUsage × Bool :=
  if !usageAttached && originalUsage.isSome then (originalUsage, true)
  else (none, usageAttached)

/-- The `kind` string of a tool sub-part, and the tool-call id it is keyed
by, for a tool content unit (`none` for narrative/thinking units). -/
def toolInfo : MessageContent → Option (RKind × Option Json)
  | .toolUse tc => some (.toolCall, tc.id)
  | .toolRes tr => some (.toolRes, tr.toolUseId)
  | _ => none

/-- The string form of a tool kind, used in segment identifiers. -/
def rkindStr : RKind → Str
  | .normal => cs "normal"
  | .toolCall => cs "tool_call"
  | .toolRes => cs "tool_result"

/-- The segment identifier of a tool sub-part: keyed by the tool-call id
when that is truthy, else by the per-turn running tool index. -/
def segmentId (msg : ChatMessage) (kind : RKind) (toolId : Option Json) (toolIndex : Nat) : Str :=
  if Json.truthyOpt toolId then
    Json.optToString msg.id ++ [':'] ++ rkindStr kind ++ [':'] ++ Json.optToString toolId
  else
    Json.optToString msg.id ++ [':'] ++ rkindStr kind ++ [':'] ++ Json.intToStr toolIndex

/-- The loop body of `flattenMessages` for one turn: walk the content
units, buffering consecutive narrative/thinking units, flushing the buffer
before each tool unit and at the end. -/
def flattenLoop (msg : ChatMessage) :
    List MessageContent → List MessageContent → Bool → Nat → List RenderMessage
  | [], buffer, usageAttached, _ =>
    -- final flushBuffer
    if buffer.length = 0 then []
    else
      let (u, _) := attachUsage msg.usage usageAttached
      [{ baseUnit msg with content := buffer, usage := u, kind := .normal }]
  | item :: rest, buffer, usageAttached, toolIndex =>
    match toolInfo item with
    | some (kind, toolId) =>
      -- flushBuffer, then emit the tool unit as its own renderable unit
      let (flushed, ua₁) :=
        if buffer.length = 0 then (([] : List RenderMessage), usageAttached)
        else
          let (u, ua') := attachUsage msg.usage usageAttached
          ([{ baseUnit msg with content := buffer, usage := u, kind := .normal }], ua')
      let (u₂, ua₂) := attachUsage msg.usage ua₁
      let toolUnit : RenderMessage :=
        { baseUnit msg with
            id := some (.str (segmentId msg kind toolId toolIndex))
            content := [item]
            usage := u₂
            kind := kind
            parentId := msg.id }
      flushed ++ toolUnit :: flattenLoop msg rest [] ua₂ (toolIndex + 1)
    | none =>
      flattenLoop msg rest (buffer ++ [item]) usageAttached toolIndex

/-- The renderable units emitted for one turn. -/
def flattenOne (msg : ChatMessage) : List RenderMessage :=
  if msg.content.length = 0 then
    let (u, _) := attachUsage msg.usage false
    [{ baseUnit msg with content := [], usage := u, kind := .normal }]
  else
    flattenLoop msg msg.content [] false 0

/-- `flattenMessages` (src/html-generator.ts): the segmenter. -/
def flattenMessages (messages : List ChatMessage) : List RenderMessage :=
  messages.flatMap flattenOne

/-! ## Shared decoder helpers -/

/-- `x === 'lit'` for a possibly-absent value against a string literal. -/
def jsStrEq (v : Option Json) (lit : Str) : Bool :=
  match v with
  | some (.str s) => s = lit
  | _ => false

/-- `x || 0` for a numeric record field (a missing, null or zero field
yields 0). -/
def jsNumOr0 (v : Option Json) : Int :=
  match v with
  | some (.num n) => n
  | _ => 0

/-- `typeof v === 'object'` (true for objects, arrays and `null`). -/
def isObjectType (v : Json) : Bool :=
  match v with
  | .obj _ => true
  | .arr _ => true
  | .null => true
  | _ => false

/-- `arr.join(sep)` over decoded array elements (`null` renders empty). -/
def jsJoin (sep : Str) (xs : List Json) : Str :=
  List.intercalate sep (xs.map (fun v => match v with
    | .null => []
    | v => Json.jsToString v))

/-- Decode every line with `JSON.parse`; the first malformed line aborts
the whole decode (`lines.map(line => JSON.parse(line))` throws). -/
def parseJsonLines : List Str → Except Str (List Json)
  | [] => .ok []
  | l :: rest =>
    match jsonParse l with
    | none => .error (cs "SyntaxError: Unexpected token in JSON")
    | some j =>
      match parseJsonLines rest with
      | .error e => .error e
      | .ok js => .ok (j :: js)

/-- Insertion-ordered `Map.set` (an existing key keeps its position). -/
def mapSet (m : List (Str × Json)) (k : Str) (v : Json) : List (Str × Json) :=
  if m.any (fun p => p.1 = k) then
    m.map (fun p => if p.1 = k then (k, v) else p)
  else
    m ++ [(k, v)]

/-- `Map.get`. -/
def mapGet (m : List (Str × Json)) (k : Str) : Option Json :=
  (m.find? (fun p => p.1 = k)).map (·.2)

/-- `Map.delete`. -/
def mapDelete (m : List (Str × Json)) (k : Str) : List (Str × Json) :=
  m.filter (fun p => ¬ p.1 = k)

/-! ## Claude decoder (src/parsers/claude.ts) -/

namespace ClaudeParser

/-- `ClaudeParser.canParse`: the first line parses as JSON and its `type`
field is one of the known Claude entry types (a parse failure is caught
and yields false). -/
def canParse (firstLine : Str) : Bool :=
  match jsonParse firstLine with
  | none => false
  | some entry =>
    match entry.getField (cs "type") with
    | some (.str t) =>
      t = cs "user" || t = cs "assistant" || t = cs "file-history-snapshot"
    | _ => false

/-- One item of a Claude content array, normalised to a content unit
(unrecognised item types fall back to their JSON text). -/
def parseContentItem (item : Json) : MessageContent :=
  if jsStrEq (item.getField (cs "type")) (cs "text") then
    .text (item.getField (cs "text"))
  else if jsStrEq (item.getField (cs "type")) (cs "tool_use") then
    .toolUse { id := item.getField (cs "id"), name := item.getField (cs "name"),
               input := item.getField (cs "input") }
  else if jsStrEq (item.getField (cs "type")) (cs "tool_result") then
    .toolRes { toolUseId := item.getField (cs "tool_use_id"),
               content := item.getField (cs "content") }
  else
    .text (some (.str (jsonStringify item)))

/-- `ClaudeParser.parseContent`: a string becomes one text unit, an array
is mapped itemwise; anything else makes `content.map` throw. -/
def parseContent (content : Option Json) : Except Str (List MessageContent) :=
  match content with
  | some (.str s) => .ok [.text (some (.str s))]
  | some (.arr items) => .ok ((JsonList.toList items).map parseContentItem)
  | _ => .error (cs "TypeError: content.map is not a function")

/-- `ClaudeParser.hasMeaningfulThinking`. -/
def hasMeaningfulThinking (meta : Json) : Bool :=
  let hasLevel :=
    match meta.getField (cs "level") with
    | some (.str s) => s ≠ [] && s ≠ cs "none"
    | _ => false
  let hasTriggers :=
    match meta.getField (cs "triggers") with
    | some (.arr xs) => (JsonList.toList xs).length > 0
    | _ => false
  let hasEnabledFlag :=
    match meta.getField (cs "disabled") with
    | some (.bool false) => true
    | _ => false
  hasLevel || hasTriggers || hasEnabledFlag

/-- `ClaudeParser.formatThinkingMetadata`. -/
def formatThinkingMetadata (meta : Json) : Str :=
  let parts : List Str := []
  let parts :=
    if Json.truthyOpt (meta.getField (cs "level")) &&
        Json.bne (meta.getField (cs "level")) (some (.str (cs "none"))) then
      parts ++ [cs "level: " ++ Json.optToString (meta.getField (cs "level"))]
    else parts
  let parts :=
    match meta.getField (cs "disabled") with
    | some (.bool b) =>
      parts ++ [if b then cs "thinking disabled" else cs "thinking enabled"]
    | _ => parts
  let parts :=
    match meta.getField (cs "triggers") with
    | some (.arr xs) =>
      if (JsonList.toList xs).length > 0 then
        parts ++ [cs "triggers: " ++ jsJoin (cs ", ") (JsonList.toList xs)]
      else parts
    | _ => parts
  if parts.length = 0 then cs "Thinking metadata available"
  else cs "Thinking metadata – " ++ List.intercalate (cs " | ") parts

/-- `formatStatus` inside `formatTodosSummary`: falsy statuses render
empty, string statuses have underscores replaced by spaces.  (A truthy
non-string status would throw in JS; it is rendered via its string
form here — the decoders only ever meet string statuses.) -/
def formatStatus (status : Option Json) : Str :=
  match status with
  | some (.str s) => if s = [] then [] else s.map (fun c => if c = '_' then ' ' else c)
  | some v =>
    if Json.truthy v then (Json.jsToString v).map (fun c => if c = '_' then ' ' else c)
    else []
  | none => []

/-- `ClaudeParser.formatTodosSummary`: a change summary of the todo list,
or `none` when there are no new todos.  (Both call sites pass arrays or
`undefined`.) -/
def formatTodosSummary (oldTodos newTodos : Option Json) : Option Str :=
  match newTodos with
  | some (.arr newList) =>
    let newItems := JsonList.toList newList
    if newItems.length = 0 then none
    else
      let oldItems : List Json :=
        match oldTodos with
        | some (.arr xs) => JsonList.toList xs
        | _ => []
      let oldByContent := oldItems.foldl (fun m todo =>
        if Json.truthy todo then
          match todo.getField (cs "content") with
          | some (.str c) => mapSet m c todo
          | _ => m
        else m) []
      let walk := newItems.foldl (fun (acc : List (Str × Json) × List Str) todo =>
        let (m, lines) := acc
        if Json.truthy todo then
          match todo.getField (cs "content") with
          | some (.str c) =>
            let previous := mapGet m c
            let changeNote :=
              match previous with
              | none => cs " (new)"
              | some prev =>
                if Json.bne (prev.getField (cs "status")) (todo.getField (cs "status")) then
                  cs " (" ++ formatStatus (prev.getField (cs "status")) ++ cs " → " ++
                    formatStatus (todo.getField (cs "status")) ++ cs ")"
                else []
            let af := todo.getField (cs "activeForm")
            let label :=
              if Json.truthyOpt af && Json.bne af (some (.str c)) then
                c ++ cs " – " ++ Json.optToString af
              else c
            let line := cs "- [" ++ formatStatus (todo.getField (cs "status")) ++ cs "] " ++
              label ++ changeNote
            let m' := if previous.isSome then mapDelete m c else m
            (m', lines ++ [line])
          | _ => acc
        else acc) (oldByContent, [cs "Todo list updated:"])
      let lines₂ := walk.1.foldl (fun lines p =>
        if Json.truthy p.2 then
          match p.2.getField (cs "content") with
          | some (.str c) => lines ++ [cs "- [removed] " ++ c]
          | _ => lines
        else lines) walk.2
      some (List.intercalate [ '\n' ] lines₂)
  | _ => none

/-- The running state of the Claude decode loop. -/
structure ClaudeState where
  model : Option Json
  totalUsage : TokenUsage
  messages : List ChatMessage
  lastTodos : Option Json

/-- The synthetic thinking-annotation message derived from an entry's
`thinkingMetadata`, when it is meaningful (empty list otherwise). -/
def thinkingMessagesOf (identifyHarness : Bool) (entry : Json) : List ChatMessage :=
  let tmOpt := entry.getField (cs "thinkingMetadata")
  if Json.truthyOpt tmOpt && hasMeaningfulThinking (tmOpt.getD .null) then
    [{ id := some (.str (Json.optToString (entry.getField (cs "uuid")) ++ cs ":thinking"))
       role := some (.str (if identifyHarness then cs "system" else cs "assistant"))
       content := [.thinking (some (.str (formatThinkingMetadata (tmOpt.getD .null))))]
       timestamp := entry.getField (cs "timestamp")
       isHarness := identifyHarness }]
  else []

/-- The synthetic todo-update message derived from an entry (preferring
`toolUseResult`, falling back to the top-level `todos` field), together
with the updated `lastTodos` state. -/
def todoMessagesOf (identifyHarness : Bool) (entry : Json) (lastTodos : Option Json) :
    List ChatMessage × Option Json :=
  let todoMessage (summary : Str) : ChatMessage :=
    { id := some (.str (Json.optToString (entry.getField (cs "uuid")) ++ cs ":todos"))
      role := some (.str (if identifyHarness then cs "system" else cs "assistant"))
      content := [.text (some (.str summary))]
      timestamp := entry.getField (cs "timestamp")
      isHarness := identifyHarness }
  let tur := entry.getField (cs "toolUseResult")
  if Json.truthyOpt tur && isObjectType (tur.getD .null) then
    let turv := (tur.getD .null)
    let oldArg :=
      match turv.getField (cs "oldTodos") with
      | some (.arr xs) => some (Json.arr xs)
      | _ => lastTodos
    let newArg : Option Json :=
      match turv.getField (cs "newTodos") with
      | some (.arr xs) => some (Json.arr xs)
      | _ => none
    match formatTodosSummary oldArg newArg with
    | some summary =>
      if summary = [] then ([], lastTodos)
      else
        let lt :=
          match turv.getField (cs "newTodos") with
          | some (.arr xs) => some (Json.arr xs)
          | _ => lastTodos
        ([todoMessage summary], lt)
    | none => ([], lastTodos)
  else
    match entry.getField (cs "todos") with
    | some (.arr xs) =>
      (match formatTodosSummary lastTodos (some (Json.arr xs)) with
       | some summary =>
         if summary = [] then ([], lastTodos)
         else ([todoMessage summary], some (Json.arr xs))
       | none => ([], lastTodos))
    | _ => ([], lastTodos)

/-- One iteration of the Claude decode loop over one entry. -/
def claudeStep (identifyHarness : Bool) (st : ClaudeState) (entry : Json) :
    Except Str ClaudeState :=
  -- `if (entry.type === 'file-history-snapshot' || !entry.message) continue`
  if jsStrEq (entry.getField (cs "type")) (cs "file-history-snapshot") ||
      !Json.truthyOpt (entry.getField (cs "message")) then
    .ok st
  else
    let msg := (entry.getField (cs "message")).getD .null
    -- track model (first truthy model wins)
    let model' :=
      if Json.truthyOpt (msg.getField (cs "model")) && !Json.truthyOpt st.model then
        msg.getField (cs "model")
      else st.model
    -- accumulate usage
    let usageField := msg.getField (cs "usage")
    let usage : Option TokenUsage :=
      if Json.truthyOpt usageField then
        some { inputTokens := jsNumOr0 (Json.getFieldOpt usageField (cs "input_tokens"))
               outputTokens := jsNumOr0 (Json.getFieldOpt usageField (cs "output_tokens"))
               cacheCreationTokens :=
                 some (jsNumOr0 (Json.getFieldOpt usageField (cs "cache_creation_input_tokens")))
               cacheReadTokens :=
                 some (jsNumOr0 (Json.getFieldOpt usageField (cs "cache_read_input_tokens"))) }
      else none
    let totalUsage' :=
      match usage with
      | some u =>
        { inputTokens := st.totalUsage.inputTokens + u.inputTokens
          outputTokens := st.totalUsage.outputTokens + u.outputTokens
          cacheCreationTokens :=
            some (st.totalUsage.cacheCreationTokens.getD 0 + u.cacheCreationTokens.getD 0)
          cacheReadTokens :=
            some (st.totalUsage.cacheReadTokens.getD 0 + u.cacheReadTokens.getD 0) }
      | none => st.totalUsage
    match parseContent (msg.getField (cs "content")) with
    | .error e => .error e
    | .ok content =>
      let baseMessage : ChatMessage :=
        { id := entry.getField (cs "uuid")
          role := entry.getField (cs "type")
          content := content
          timestamp := entry.getField (cs "timestamp")
          model := msg.getField (cs "model")
          usage := usage }
      -- thinking metadata as a separate harness "thinking" message, then
      -- todo updates (from toolUseResult when available, else from todos)
      let todoPart := todoMessagesOf identifyHarness entry st.lastTodos
      .ok { model := model', totalUsage := totalUsage',
            messages := st.messages ++ [baseMessage] ++
              thinkingMessagesOf identifyHarness entry ++ todoPart.1,
            lastTodos := todoPart.2 }

/-- The Claude decode loop over all entries. -/
def claudeLoop (identifyHarness : Bool) : List Json → ClaudeState → Except Str ClaudeState
  | [], st => .ok st
  | e :: rest, st =>
    match claudeStep identifyHarness st e with
    | .error err => .error err
    | .ok st' => claudeLoop identifyHarness rest st'

/-- The initial state of the Claude decode loop. -/
def initState : ClaudeState :=
  { model := none
    totalUsage := { inputTokens := 0, outputTokens := 0,
                    cacheCreationTokens := some 0, cacheReadTokens := some 0 }
    messages := []
    lastTodos := none }

/-- `ClaudeParser.parse`. -/
def parse (content : Str) (options : Option ParseOptions) : Except Str ChatSession :=
  let lines := (splitNl (jsTrim content)).filter (fun l => !(jsTrim l).isEmpty)
  match parseJsonLines lines with
  | .error e => .error e
  | .ok entries =>
    let messageEntries := entries.filter (fun e =>
      Json.bne (e.getField (cs "type")) (some (.str (cs "file-history-snapshot"))) &&
        (e.getField (cs "message")).isSome)
    let firstEntry := messageEntries.head?
    let sessionIdField := Json.getFieldOpt firstEntry (cs "sessionId")
    let sessionId :=
      if Json.truthyOpt sessionIdField then sessionIdField.getD .null
      else .str (cs "unknown")
    match claudeLoop (identifyHarnessOf options) entries initState with
    | .error e => .error e
    | .ok st =>
      .ok { sessionId := sessionId
            agentId := Json.getFieldOpt firstEntry (cs "agentId")
            model := st.model
            version := Json.getFieldOpt firstEntry (cs "version")
            cwd := Json.getFieldOpt firstEntry (cs "cwd")
            gitBranch := Json.getFieldOpt firstEntry (cs "gitBranch")
            messages := st.messages
            totalUsage := st.totalUsage
            source := .claude }

end ClaudeParser

/-! ## Codex decoder (src/parsers/codex.ts) -/

namespace CodexParser

/-- `CodexParser.canParse`: the first line parses as JSON and is a
`session_meta` record, or carries `payload.originator === 'codex_cli_rs'`
(a parse failure is caught and yields false). -/
def canParse (firstLine : Str) : Bool :=
  match jsonParse firstLine with
  | none => false
  | some entry =>
    jsStrEq (entry.getField (cs "type")) (cs "session_meta") ||
      jsStrEq (Json.getFieldOpt (entry.getField (cs "payload")) (cs "originator"))
        (cs "codex_cli_rs")

/-- `e.type === 'event_msg' && e.payload?.type === 'token_count'`. -/
def isTokenCountEvent (e : Json) : Bool :=
  jsStrEq (e.getField (cs "type")) (cs "event_msg") &&
    jsStrEq (Json.getFieldOpt (e.getField (cs "payload")) (cs "type")) (cs "token_count")

/-- `CodexParser.parseContent`: keep the text of `input_text` /
`output_text` items (other item shapes are dropped). -/
def parseContentItems (items : List Json) : List MessageContent :=
  items.foldr (fun item acc =>
    if jsStrEq (item.getField (cs "type")) (cs "input_text") ||
        jsStrEq (item.getField (cs "type")) (cs "output_text") then
      .text (item.getField (cs "text")) :: acc
    else acc) []

/-- Iterate a truthy `payload.content` value: arrays yield their items;
iterating a string yields its characters (none of which has a `type`
field, so no unit results); any other truthy value is not iterable and
throws. -/
def parseContent (content : Json) : Except Str (List MessageContent) :=
  match content with
  | .arr items => .ok (parseContentItems (JsonList.toList items))
  | .str _ => .ok []
  | _ => .error (cs "TypeError: payload.content is not iterable")

/-- The running state of the Codex decode loop. -/
structure CodexState where
  messages : List ChatMessage
  userMessageCount : Nat

/-- One iteration of the Codex decode loop over one entry. -/
def codexStep (identifyHarness : Bool) (st : CodexState) (entry : Json) :
    Except Str CodexState :=
  if jsStrEq (entry.getField (cs "type")) (cs "response_item") then
    -- `const payload = item.payload` — reading `payload.type` below throws
    -- when payload is undefined or null
    match entry.getField (cs "payload") with
    | none => .error (cs "TypeError: cannot read properties of undefined")
    | some .null => .error (cs "TypeError: cannot read properties of null")
    | some payload =>
      let ptype := payload.getField (cs "type")
      if jsStrEq ptype (cs "message") &&
          Json.truthyOpt (payload.getField (cs "role")) &&
          Json.truthyOpt (payload.getField (cs "content")) then
        let isUser := jsStrEq (payload.getField (cs "role")) (cs "user")
        let userMessageCount' := if isUser then st.userMessageCount + 1 else st.userMessageCount
        let isHarness := isUser && identifyHarness && userMessageCount' ≤ 2
        match parseContent ((payload.getField (cs "content")).getD .null) with
        | .error e => .error e
        | .ok content =>
          if content.length > 0 then
            .ok { messages := st.messages ++
                    [{ id := entry.getField (cs "timestamp")
                       role := payload.getField (cs "role")
                       content := content
                       timestamp := entry.getField (cs "timestamp")
                       isHarness := isHarness }]
                  userMessageCount := userMessageCount' }
          else
            .ok { messages := st.messages, userMessageCount := userMessageCount' }
      else if jsStrEq ptype (cs "function_call") &&
          Json.truthyOpt (payload.getField (cs "name")) &&
          Json.truthyOpt (payload.getField (cs "call_id")) then
        -- `JSON.parse(payload.arguments || '{}')`, falling back to `{ raw: … }`
        let argVal := payload.getField (cs "arguments")
        let argsJson : Json :=
          if Json.truthyOpt argVal then argVal.getD .null else .str (cs "{}")
        let parsedArgs : Json :=
          match jsonParse (match argsJson with
                           | .str s => s
                           | v => Json.jsToString v) with
          | some j => j
          | none => jobj [(cs "raw", argsJson)]
        .ok { st with messages := st.messages ++
                [{ id := entry.getField (cs "timestamp")
                   role := some (.str (cs "assistant"))
                   content := [.toolUse { id := payload.getField (cs "call_id")
                                          name := payload.getField (cs "name")
                                          input := some parsedArgs }]
                   timestamp := entry.getField (cs "timestamp") }] }
      else if jsStrEq ptype (cs "function_call_output") &&
          Json.truthyOpt (payload.getField (cs "call_id")) then
        let outVal := payload.getField (cs "output")
        let contentVal : Json :=
          if Json.truthyOpt outVal then outVal.getD .null else .str []
        .ok { st with messages := st.messages ++
                [{ id := entry.getField (cs "timestamp")
                   role := some (.str (cs "user"))
                   content := [.toolRes { toolUseId := payload.getField (cs "call_id")
                                          content := some contentVal }]
                   timestamp := entry.getField (cs "timestamp") }] }
      else if jsStrEq ptype (cs "custom_tool_call") &&
          Json.truthyOpt (payload.getField (cs "call_id")) then
        let parsedInput : Json :=
          match payload.getField (cs "input") with
          | some (.str s) =>
            if s.length > 0 then
              match jsonParse s with
              | some j => j
              | none => jobj [(cs "raw", .str s)]
            else jobj []
          | _ => jobj []
        let nameVal := payload.getField (cs "name")
        .ok { st with messages := st.messages ++
                [{ id := entry.getField (cs "timestamp")
                   role := some (.str (cs "assistant"))
                   content := [.toolUse { id := payload.getField (cs "call_id")
                                          name := some (if Json.truthyOpt nameVal then
                                                          nameVal.getD .null
                                                        else .str (cs "custom_tool_call"))
                                          input := some parsedInput }]
                   timestamp := entry.getField (cs "timestamp") }] }
      else if jsStrEq ptype (cs "custom_tool_call_output") &&
          Json.truthyOpt (payload.getField (cs "call_id")) then
        let outVal := payload.getField (cs "output")
        let ct : Json :=
          if Json.truthyOpt outVal then outVal.getD .null else .str []
        let contentText : Json :=
          if Json.truthy ct then
            match jsonParse (match ct with
                             | .str s => s
                             | v => Json.jsToString v) with
            | none => ct -- leave contentText as-is if it isn't valid JSON
            | some (.str s₂) => .str s₂
            | some parsed =>
              match parsed.getField (cs "output") with
              | some (.str so) => .str so
              | _ => .str (jsonStringifyPretty 0 parsed)
          else ct
        .ok { st with messages := st.messages ++
                [{ id := entry.getField (cs "timestamp")
                   role := some (.str (cs "user"))
                   content := [.toolRes { toolUseId := payload.getField (cs "call_id")
                                          content := some contentText }]
                   timestamp := entry.getField (cs "timestamp") }] }
      else
        -- `reasoning` response items and unrecognised payload types are skipped
        .ok st
  else if jsStrEq (entry.getField (cs "type")) (cs "event_msg") then
    let payloadOpt := entry.getField (cs "payload")
    if !Json.truthyOpt payloadOpt then .ok st
    else
      let payload := payloadOpt.getD .null
      match payload.getField (cs "type") with
      | some (.str ptype) =>
        if ptype = cs "token_count" then .ok st
        else if ptype = cs "user_message" || ptype = cs "agent_message" then .ok st
        else if ptype = cs "agent_reasoning" &&
            Json.truthyOpt (payload.getField (cs "text")) then
          .ok { st with messages := st.messages ++
                  [{ id := entry.getField (cs "timestamp")
                     role := some (.str (if identifyHarness then cs "system" else cs "assistant"))
                     content := [.thinking (payload.getField (cs "text"))]
                     timestamp := entry.getField (cs "timestamp")
                     isHarness := identifyHarness }] }
        else .ok st
      | _ => .ok st
  else
    .ok st

/-- The Codex decode loop over all entries. -/
def codexLoop (identifyHarness : Bool) : List Json → CodexState → Except Str CodexState
  | [], st => .ok st
  | e :: rest, st =>
    match codexStep identifyHarness st e with
    | .error err => .error err
    | .ok st' => codexLoop identifyHarness rest st'

/-- `CodexParser.parse`. -/
def parse (content : Str) (options : Option ParseOptions) : Except Str ChatSession :=
  let lines := (splitNl (jsTrim content)).filter (fun l => !(jsTrim l).isEmpty)
  match parseJsonLines lines with
  | .error e => .error e
  | .ok entries =>
    -- session metadata from the first session_meta record
    let metaEntry := entries.find? (fun e => jsStrEq (e.getField (cs "type")) (cs "session_meta"))
    let payload := Json.getFieldOpt metaEntry (cs "payload")
    let sessionIdField := Json.getFieldOpt payload (cs "id")
    let sessionId :=
      if Json.truthyOpt sessionIdField then sessionIdField.getD .null
      else .str (cs "unknown")
    -- token usage from the last token_count event
    let tokenCountEvents := entries.filter isTokenCountEvent
    let lastTokenEvent := tokenCountEvents.getLast?
    let tokenInfo := Json.getFieldOpt
      (Json.getFieldOpt (Json.getFieldOpt lastTokenEvent (cs "payload")) (cs "info"))
      (cs "total_token_usage")
    let totalUsage : TokenUsage :=
      { inputTokens := jsNumOr0 (Json.getFieldOpt tokenInfo (cs "input_tokens"))
        outputTokens := jsNumOr0 (Json.getFieldOpt tokenInfo (cs "output_tokens"))
        cacheReadTokens := some (jsNumOr0 (Json.getFieldOpt tokenInfo (cs "cached_input_tokens"))) }
    match codexLoop (identifyHarnessOf options) entries
        { messages := [], userMessageCount := 0 } with
    | .error e => .error e
    | .ok st =>
      .ok { sessionId := sessionId
            version := Json.getFieldOpt payload (cs "cli_version")
            cwd := Json.getFieldOpt payload (cs "cwd")
            gitBranch := Json.getFieldOpt (Json.getFieldOpt payload (cs "git")) (cs "branch")
            messages := st.messages
            totalUsage := totalUsage
            source := .codex }

end CodexParser

/-! ## Decoder registry (src/parsers/index.ts) -/

/-- A registered decoder. -/
inductive ParserTag where
  | claude : ParserTag
  | codex : ParserTag
deriving DecidableEq

/-- The registry of all available parsers, in registration order. -/
def parsers : List ParserTag := [.claude, .codex]

/-- The format-sniffing predicate of a registered decoder. -/
def canParseOf : ParserTag → Str → Bool
  | .claude => ClaudeParser.canParse
  | .codex => CodexParser.canParse

/-- The decode function of a registered decoder. -/
def parseOf : ParserTag → Str → Option ParseOptions → Except Str ChatSession
  | .claude => ClaudeParser.parse
  | .codex => CodexParser.parse

/-- `parseFile` (src/parsers/index.ts): sniff the first line with each
registered decoder in order and run the first that matches; fail with an
unknown-format error when none does. -/
def parseFile (content : Str) (options : Option ParseOptions) : Except Str ChatSession :=
  let firstLine := (splitNl (jsTrim content)).headD []
  match parsers.find? (fun p => canParseOf p firstLine) with
  | some p => parseOf p content options
  | none => .error (cs "Unknown file format: no parser could handle this file")

/-! ## Markup renderer (src/html-generator.ts)

Each `String.prototype.replace` pass of `parseMarkdown` is embedded as a
left-to-right scanner with the same semantics: find the leftmost match,
emit the replacement, continue scanning after the match (replacements are
never rescanned); when a match attempt fails the scanner advances one
character, as the JS regex engine does.  The scanners are fuel-indexed
(one unit of fuel per consumed character) so that they are structural and
evaluate inside the kernel; the wrappers supply `length` fuel, which is
enough because every step consumes at least one character. -/

/-- The decimal digits of a natural number. -/
def natToStr (n : Nat) : Str :=
  (toString n).data

/-- `escapeHtml`: the source chains five global replaces (`&` first, then
`<`, `>`, `"`, `'`); no replacement text contains a character replaced by
a later pass, so the chain equals this single character map. -/
def escapeHtml (s : Str) : Str :=
  s.flatMap (fun c =>
    if c = '&' then cs "&amp;"
    else if c = '<' then cs "&lt;"
    else if c = '>' then cs "&gt;"
    else if c = '"' then cs "&quot;"
    else if c = '\'' then cs "&#039;"
    else [c])

/-- Replace every (non-overlapping, leftmost-first) occurrence of `pat`
(fuel-indexed). -/
def replaceAllGo (pat repl : Str) : Nat → Str → Str
  | _, [] => []
  | 0, s => s
  | fuel + 1, c :: rest =>
    if pat.isPrefixOf (c :: rest) then
      repl ++ replaceAllGo pat repl fuel ((c :: rest).drop pat.length)
    else
      c :: replaceAllGo pat repl fuel rest

/-- `s.replace(/pat/g, repl)` for a literal pattern. -/
def replaceAll (pat repl s : Str) : Str :=
  replaceAllGo pat repl s.length s

/-- Split into lines, transform each, and re-join: the effect of an
anchored per-line regex with the `gm` flags. -/
def mapLines (f : Str → Str) (s : Str) : Str :=
  List.intercalate ['\n'] ((splitNl s).map f)

/-- A word character of the JS regex class `\w`. -/
def isWordChar (c : Char) : Bool :=
  ('a' ≤ c && c ≤ 'z') || ('A' ≤ c && c ≤ 'Z') || c.isDigit || c = '_'

/-- Find the leftmost occurrence of `pat`: returns the text before it and
the text after it. -/
def findSub (pat : Str) : Str → Option (Str × Str)
  | [] => none
  | c :: rest =>
    if pat.isPrefixOf (c :: rest) then some ([], (c :: rest).drop pat.length)
    else (findSub pat rest).map (fun p => (c :: p.1, p.2))

/-- ECMAScript `GetSubstitution` for a string-valued replacement when the
pattern is a string (so there are no capture groups): `$$` yields a
literal `$`, `$&` the matched text, a dollar followed by a backquote the
text before the match, `$'` the text after it; any other `$` is kept
literally. -/
def getSubstGo (matched before after : Str) : Nat → Str → Str
  | _, [] => []
  | 0, s => s
  | fuel + 1, c :: rest =>
    if c = '$' then
      match rest with
      | '$' :: r => '$' :: getSubstGo matched before after fuel r
      | '&' :: r => matched ++ getSubstGo matched before after fuel r
      | '`' :: r => before ++ getSubstGo matched before after fuel r
      | '\'' :: r => after ++ getSubstGo matched before after fuel r
      | _ => c :: getSubstGo matched before after fuel rest
    else c :: getSubstGo matched before after fuel rest

/-- `s.replace(pat, repl)` for string-valued `pat` and `repl`: the first
occurrence of `pat` is replaced by `repl` with `GetSubstitution` applied
to the replacement. -/
def replaceFirst (pat repl s : Str) : Str :=
  match findSub pat s with
  | none => s
  | some (before, after) =>
    before ++ getSubstGo pat before after repl.length repl ++ after

/-- The placeholder `"\x00" ++ tag ++ i ++ "\x00"` used for protected
code spans. -/
def placeholder (tag : Str) (i : Nat) : Str :=
  '\x00' :: tag ++ natToStr i ++ ['\x00']

/-- The stored rendering of one fenced code block:
`<pre class="code-block language-…"><code>…</code></pre>` with the body
trimmed and HTML-escaped. -/
def codeBlockHtml (lang body : Str) : Str :=
  cs "<pre class=\"code-block" ++
    (if lang ≠ [] then cs " language-" ++ lang else []) ++
    cs "\"><code>" ++ escapeHtml (jsTrim body) ++ cs "</code></pre>"

/-- The extraction pass for ```` ```lang\n…``` ````  fenced code blocks
(the regex `/```(\w*)\n([\s\S]*?)```/g`): each match is replaced by a
placeholder and its rendering is collected (fuel-indexed). -/
def extractCBGo (blocks : List Str) : Nat → Str → List Str × Str
  | _, [] => (blocks, [])
  | 0, s => (blocks, s)
  | fuel + 1, c :: rest =>
    if (cs "```").isPrefixOf (c :: rest) then
      let afterTicks := (c :: rest).drop 3
      let lang := afterTicks.takeWhile isWordChar
      match afterTicks.drop lang.length with
      | '\n' :: bodyStart =>
        (match findSub (cs "```") bodyStart with
         | some (body, after) =>
           let (bs, out) := extractCBGo (blocks ++ [codeBlockHtml lang body]) fuel after
           (bs, placeholder (cs "CB") blocks.length ++ out)
         | none =>
           let (bs, out) := extractCBGo blocks fuel rest
           (bs, c :: out))
      | _ =>
        let (bs, out) := extractCBGo blocks fuel rest
        (bs, c :: out)
    else
      let (bs, out) := extractCBGo blocks fuel rest
      (bs, c :: out)

/-- Extract fenced code blocks; returns the collected renderings and the
text with placeholders. -/
def extractCodeBlocks (s : Str) : List Str × Str :=
  extractCBGo [] s.length s

/-- The extraction pass for `` `…` `` inline code spans (the regex
``/`([^`]+)`/g``), fuel-indexed. -/
def extractICGo (acc : List Str) : Nat → Str → List Str × Str
  | _, [] => (acc, [])
  | 0, s => (acc, s)
  | fuel + 1, c :: rest =>
    if c = '`' then
      let code := rest.takeWhile (fun ch => ch ≠ '`')
      match code, rest.drop code.length with
      | _ :: _, '`' :: after =>
        let stored := cs "<code class=\"inline-code\">" ++ escapeHtml code ++ cs "</code>"
        let (bs, out) := extractICGo (acc ++ [stored]) fuel after
        (bs, placeholder (cs "IC") acc.length ++ out)
      | _, _ =>
        let (bs, out) := extractICGo acc fuel rest
        (bs, c :: out)
    else
      let (bs, out) := extractICGo acc fuel rest
      (bs, c :: out)

/-- Extract inline code spans. -/
def extractInlineCode (s : Str) : List Str × Str :=
  extractICGo [] s.length s

/-- The pass for a doubled emphasis delimiter (the regexes
`/\*\*([^*]+)\*\*/g` and `/__([^_]+)__/g`): `dd…dd` with a non-empty
delimiter-free body becomes `openTag ++ body ++ closeTag`
(fuel-indexed). -/
def emphDoubleGo (d : Char) (openTag closeTag : Str) : Nat → Str → Str
  | _, [] => []
  | 0, s => s
  | fuel + 1, c :: rest =>
    if c = d then
      match rest with
      | c₂ :: rest₂ =>
        if c₂ = d then
          let body := rest₂.takeWhile (fun ch => ch ≠ d)
          match body, rest₂.drop body.length with
          | _ :: _, e₁ :: e₂ :: after =>
            if e₁ = d && e₂ = d then
              openTag ++ body ++ closeTag ++ emphDoubleGo d openTag closeTag fuel after
            else c :: emphDoubleGo d openTag closeTag fuel rest
          | _, _ => c :: emphDoubleGo d openTag closeTag fuel rest
        else c :: emphDoubleGo d openTag closeTag fuel rest
      | [] => [c]
    else c :: emphDoubleGo d openTag closeTag fuel rest

/-- `s.replace(/dd([^d]+)dd/g, openTag + '$1' + closeTag)`. -/
def emphDouble (d : Char) (openTag closeTag s : Str) : Str :=
  emphDoubleGo d openTag closeTag s.length s

/-- The pass for a single emphasis delimiter (the regexes
`/\*([^*]+)\*/g` and `/_([^_]+)_/g`), fuel-indexed. -/
def emphSingleGo (d : Char) (openTag closeTag : Str) : Nat → Str → Str
  | _, [] => []
  | 0, s => s
  | fuel + 1, c :: rest =>
    if c = d then
      let body := rest.takeWhile (fun ch => ch ≠ d)
      match body, rest.drop body.length with
      | _ :: _, e :: after =>
        if e = d then
          openTag ++ body ++ closeTag ++ emphSingleGo d openTag closeTag fuel after
        else c :: emphSingleGo d openTag closeTag fuel rest
      | _, _ => c :: emphSingleGo d openTag closeTag fuel rest
    else c :: emphSingleGo d openTag closeTag fuel rest

/-- `s.replace(/d([^d]+)d/g, openTag + '$1' + closeTag)`. -/
def emphSingle (d : Char) (openTag closeTag s : Str) : Str :=
  emphSingleGo d openTag closeTag s.length s

/-- One line under a header rule (`/^#+ (.+)$/gm` at a fixed level): a
line `marker ++ rest` with non-empty `rest` becomes
`openTag ++ rest ++ closeTag`. -/
def headerLine (marker openTag closeTag : Str) (line : Str) : Str :=
  if marker.isPrefixOf line && (line.drop marker.length) ≠ [] then
    openTag ++ line.drop marker.length ++ closeTag
  else line

/-- One line under the blockquote rule (`/^&gt; (.+)$/gm`). -/
def quoteLine (line : Str) : Str :=
  headerLine (cs "&gt; ") (cs "<blockquote>") (cs "</blockquote>") line

/-- Match one line against the list-item pattern
`/^(\s*)([\-\*]|\d+\.)\s+(.+)$/`; returns the indent width and the
content.  When everything after the marker is whitespace the greedy `\s+`
backtracks one character so that `(.+)` can match it. -/
def listItemMatch (line : Str) : Option (Nat × Str) :=
  let indent := line.takeWhile isJsWs
  let afterIndent := line.drop indent.length
  let afterMarker : Option Str :=
    match afterIndent with
    | '-' :: r => some r
    | '*' :: r => some r
    | _ =>
      let digits := afterIndent.takeWhile (fun c => c.isDigit)
      match digits, afterIndent.drop digits.length with
      | _ :: _, '.' :: r => some r
      | _, _ => none
  match afterMarker with
  | none => none
  | some r =>
    let ws := r.takeWhile isJsWs
    match ws with
    | [] => none
    | _ =>
      match r.drop ws.length with
      | [] =>
        if ws.length ≥ 2 then some (indent.length, ws.drop (ws.length - 1))
        else none
      | content => some (indent.length, content)

/-- Pop the levels of the list stack deeper than `level`, emitting one
`</ul>` per pop (the stack's head is its top). -/
def closeDeeper (level : Nat) : List Nat → List Nat × List Str
  | [] => ([], [])
  | t :: s =>
    if t > level then
      let (s', closes) := closeDeeper level s
      (s', cs "</ul>" :: closes)
    else (t :: s, [])

/-- The line loop of `processLists`. -/
def processListsGo : List Str → List Nat → List Str → List Str
  | [], stack, result => result ++ stack.map (fun _ => cs "</ul>")
  | line :: rest, stack, result =>
    match listItemMatch line with
    | some (indentLen, content) =>
      let level := indentLen / 2
      let (stack₁, closes) := closeDeeper level stack
      let (stack₂, opens) :=
        match stack₁ with
        | [] => (level :: stack₁, [cs "<ul>"])
        | t :: _ => if t < level then (level :: stack₁, [cs "<ul>"]) else (stack₁, [])
      processListsGo rest stack₂
        (result ++ closes ++ opens ++ [cs "<li>" ++ content ++ cs "</li>"])
    | none =>
      processListsGo rest []
        (result ++ stack.map (fun _ => cs "</ul>") ++ [line])

/-- `processLists` (src/html-generator.ts): group list-item lines into
nested list structures, one nesting level per two spaces of indent. -/
def processLists (html : Str) : Str :=
  List.intercalate ['\n'] (processListsGo (splitNl html) [] [])

/-- The link pass (`/\[([^\]]+)\]\(([^)]+)\)/g`), fuel-indexed. -/
def linksGo : Nat → Str → Str
  | _, [] => []
  | 0, s => s
  | fuel + 1, c :: rest =>
    if c = '[' then
      let label := rest.takeWhile (fun ch => ch ≠ ']')
      match label, rest.drop label.length with
      | _ :: _, ']' :: '(' :: r₂ =>
        let url := r₂.takeWhile (fun ch => ch ≠ ')')
        (match url, r₂.drop url.length with
         | _ :: _, ')' :: after =>
           cs "<a href=\"" ++ url ++ cs "\" target=\"_blank\" rel=\"noopener\">" ++
             label ++ cs "</a>" ++ linksGo fuel after
         | _, _ => c :: linksGo fuel rest)
      | _, _ => c :: linksGo fuel rest
    else c :: linksGo fuel rest

/-- `s.replace(/\[([^\]]+)\]\(([^)]+)\)/g, '<a …>$1</a>')`. -/
def linksPass (s : Str) : Str :=
  linksGo s.length s

/-- The paragraph pass (`/\n\n+/g` → `'</p><p>'`), fuel-indexed. -/
def paragraphGo : Nat → Str → Str
  | _, [] => []
  | 0, s => s
  | fuel + 1, c :: rest =>
    if c = '\n' then
      match rest with
      | '\n' :: _ =>
        let nls := rest.takeWhile (fun ch => ch = '\n')
        cs "</p><p>" ++ paragraphGo fuel (rest.drop nls.length)
      | _ => c :: paragraphGo fuel rest
    else c :: paragraphGo fuel rest

/-- `s.replace(/\n\n+/g, '</p><p>')`. -/
def paragraphPass (s : Str) : Str :=
  paragraphGo s.length s

/-- The whitespace-only-paragraph cleanup (`/<p>\s*<\/p>/g` → `''`),
fuel-indexed. -/
def emptyParaGo : Nat → Str → Str
  | _, [] => []
  | 0, s => s
  | fuel + 1, c :: rest =>
    if (cs "<p>").isPrefixOf (c :: rest) then
      let r := (c :: rest).drop 3
      let ws := r.takeWhile isJsWs
      if (cs "</p>").isPrefixOf (r.drop ws.length) then
        emptyParaGo fuel ((r.drop ws.length).drop 4)
      else c :: emptyParaGo fuel rest
    else c :: emptyParaGo fuel rest

/-- `s.replace(/<p>\s*<\/p>/g, '')`. -/
def emptyParaPass (s : Str) : Str :=
  emptyParaGo s.length s

/-- Restore extracted code spans: for each stored item in order, replace
the first occurrence of its placeholder with the stored text. -/
def restorePlaceholders (tag : Str) (items : List Str) (s : Str) : Str :=
  (items.enum.foldl (fun h p => replaceFirst (placeholder tag p.1) p.2 h) s)

/-- `parseMarkdown` (src/html-generator.ts): the lightweight markup
renderer. -/
def parseMarkdown (text : Str) : Str :=
  -- extract code blocks first to protect them from other markdown processing
  let extractedCB := extractCodeBlocks text
  let codeBlocks := extractedCB.1
  let html := extractedCB.2
  -- extract inline code to protect it
  let extractedIC := extractInlineCode html
  let inlineCode := extractedIC.1
  let html := extractedIC.2
  -- now escape HTML for the rest
  let html := escapeHtml html
  -- bold
  let html := emphDouble '*' (cs "<strong>") (cs "</strong>") html
  let html := emphDouble '_' (cs "<strong>") (cs "</strong>") html
  -- italic
  let html := emphSingle '*' (cs "<em>") (cs "</em>") html
  let html := emphSingle '_' (cs "<em>") (cs "</em>") html
  -- headers
  let html := mapLines (headerLine (cs "### ") (cs "<h3>") (cs "</h3>")) html
  let html := mapLines (headerLine (cs "## ") (cs "<h2>") (cs "</h2>")) html
  let html := mapLines (headerLine (cs "# ") (cs "<h1>") (cs "</h1>")) html
  -- lists with proper nesting
  let html := processLists html
  -- blockquotes
  let html := mapLines quoteLine html
  -- links
  let html := linksPass html
  -- paragraphs and line breaks
  let html := paragraphPass html
  let html := replaceAll (cs "\n") (cs "<br>") html
  let html := cs "<p>" ++ html ++ cs "</p>"
  -- clean up empty paragraphs
  let html := replaceAll (cs "<p></p>") [] html
  let html := emptyParaPass html
  -- restore inline code, then code blocks
  let html := restorePlaceholders (cs "IC") inlineCode html
  let html := restorePlaceholders (cs "CB") codeBlocks html
  -- clean up extra <br> and <p> around block elements
  let html := replaceAll (cs "</pre><br>") (cs "</pre>") html
  let html := replaceAll (cs "<br><pre") (cs "<pre") html
  let html := replaceAll (cs "</h1><br>") (cs "</h1>") html
  let html := replaceAll (cs "</h2><br>") (cs "</h2>") html
  let html := replaceAll (cs "</h3><br>") (cs "</h3>") html
  let html := replaceAll (cs "</li><br>") (cs "</li>") html
  let html := replaceAll (cs "</ul><br>") (cs "</ul>") html
  let html := replaceAll (cs "<br><ul>") (cs "<ul>") html
  let html := replaceAll (cs "</blockquote><br>") (cs "</blockquote>") html
  let html := replaceAll (cs "<ul><br>") (cs "<ul>") html
  let html := replaceAll (cs "<br><li>") (cs "<li>") html
  -- clean up paragraphs around block elements
  let html := replaceAll (cs "<p><ul>") (cs "<ul>") html
  let html := replaceAll (cs "</ul></p>") (cs "</ul>") html
  let html := replaceAll (cs "<p><pre") (cs "<pre") html
  let html := replaceAll (cs "</pre></p>") (cs "</pre>") html
  let html := replaceAll (cs "<p><h1>") (cs "<h1>") html
  let html := replaceAll (cs "<p><h2>") (cs "<h2>") html
  let html := replaceAll (cs "<p><h3>") (cs "<h3>") html
  let html := replaceAll (cs "</h1></p>") (cs "</h1>") html
  let html := replaceAll (cs "</h2></p>") (cs "</h2>") html
  let html := replaceAll (cs "</h3></p>") (cs "</h3>") html
  let html := replaceAll (cs "</p><br><p>") (cs "</p><p>") html
  let html := replaceAll (cs "<br></p>") (cs "</p>") html
  let html := replaceAll (cs "<p><br>") (cs "<p>") html
  html

/-! ## Property-side helpers and concrete example inputs -/

/-- Whether a `<ul>`/`</ul>` structure is balanced: scanning left to
right, every closing tag has a matching earlier opening tag, and all
opened lists are closed (fuel-indexed). -/
def balancedUlGo : Nat → Str → Nat → Bool
  | _, [], depth => depth = 0
  | 0, _, _ => false
  | fuel + 1, c :: rest, depth =>
    if (cs "<ul>").isPrefixOf (c :: rest) then
      balancedUlGo fuel ((c :: rest).drop 4) (depth + 1)
    else if (cs "</ul>").isPrefixOf (c :: rest) then
      match depth with
      | 0 => false
      | d + 1 => balancedUlGo fuel ((c :: rest).drop 5) d
    else balancedUlGo fuel rest depth

/-- Every list-opening element is matched by exactly one list-closing
element, in properly nested order. -/
def balancedUl (s : Str) : Bool :=
  balancedUlGo s.length s 0

/-- Count the (non-overlapping, leftmost-first) occurrences of `pat`
(fuel-indexed). -/
def countSubGo (pat : Str) : Nat → Str → Nat
  | _, [] => 0
  | 0, _ => 0
  | fuel + 1, c :: rest =>
    if pat.isPrefixOf (c :: rest) then
      countSubGo pat fuel ((c :: rest).drop pat.length) + 1
    else countSubGo pat fuel rest

/-- The number of occurrences of `pat` in `s`. -/
def countSub (pat s : Str) : Nat :=
  countSubGo pat s.length s

/-- Whether a possibly-absent JSON value is an array (`Array.isArray`). -/
def isArr : Option Json → Bool
  | some (.arr _) => true
  | _ => false

/-- Forget harness classification: clear the harness flag and turn a
harness-flagged `system` role into plain `assistant`.  This is the
relation claim C8 asserts between a decode with harness identification on
and one with it off. -/
def declassify (m : ChatMessage) : ChatMessage :=
  { m with
    isHarness := false
    role :=
      if m.isHarness && jsStrEq m.role (cs "system") then some (.str (cs "assistant"))
      else m.role }

/-- A two-line Claude log: session metadata on the first message, then an
assistant turn with usage counters input=10, output=5, cache-read=3. -/
def exClaudeLog : Str :=
  cs "\x7b\"type\":\"user\",\"uuid\":\"u1\",\"sessionId\":\"s1\",\"timestamp\":\"t1\",\"message\":\x7b\"role\":\"user\",\"content\":\"hello\"\x7d\x7d\n\x7b\"type\":\"assistant\",\"uuid\":\"u2\",\"sessionId\":\"s1\",\"timestamp\":\"t2\",\"message\":\x7b\"role\":\"assistant\",\"content\":[\x7b\"type\":\"text\",\"text\":\"hi\"\x7d],\"usage\":\x7b\"input_tokens\":10,\"output_tokens\":5,\"cache_read_input_tokens\":3\x7d\x7d\x7d"

/-- A two-line Codex log: session metadata, then a token_count event
reporting input=10 (cached 3 already included), output=5. -/
def exCodexLog : Str :=
  cs "\x7b\"type\":\"session_meta\",\"timestamp\":\"t0\",\"payload\":\x7b\"id\":\"s\"\x7d\x7d\n\x7b\"type\":\"event_msg\",\"timestamp\":\"t1\",\"payload\":\x7b\"type\":\"token_count\",\"info\":\x7b\"total_token_usage\":\x7b\"input_tokens\":10,\"cached_input_tokens\":3,\"output_tokens\":5,\"total_tokens\":15\x7d\x7d\x7d\x7d"

/-- A Codex log whose second line is an `agent_reasoning` event. -/
def exCodexReasoningLog : Str :=
  cs "\x7b\"type\":\"session_meta\",\"timestamp\":\"t0\",\"payload\":\x7b\"id\":\"s\"\x7d\x7d\n\x7b\"type\":\"event_msg\",\"timestamp\":\"t1\",\"payload\":\x7b\"type\":\"agent_reasoning\",\"text\":\"let me think\"\x7d\x7d"

/-- A one-line Claude log whose entry carries thinking metadata. -/
def exClaudeThinkingLog : Str :=
  cs "\x7b\"type\":\"assistant\",\"uuid\":\"u1\",\"sessionId\":\"s1\",\"timestamp\":\"t1\",\"thinkingMetadata\":\x7b\"level\":\"high\"\x7d,\"message\":\x7b\"role\":\"assistant\",\"content\":\"ok\"\x7d\x7d"

/-- A Claude-matched log whose second (non-blank) line is not valid JSON. -/
def exMalformedLog : Str :=
  cs "\x7b\"type\":\"user\",\"uuid\":\"u1\",\"sessionId\":\"s1\",\"timestamp\":\"t1\",\"message\":\x7b\"role\":\"user\",\"content\":\"hello\"\x7d\x7d\nnot json"

/-- A turn holding narrative text, then one tool invocation, then one tool
result, with usage attached. -/
def exToolsMsg : ChatMessage :=
  { id := some (.str (cs "m1"))
    role := some (.str (cs "assistant"))
    content := [.text (some (.str (cs "hi")))
                , .toolUse { id := some (.str (cs "c1")), name := some (.str (cs "Bash"))
                             , input := some (jobj []) }
                , .toolRes { toolUseId := some (.str (cs "c1")), content := some (.str (cs "ok")) }]
    timestamp := some (.str (cs "t"))
    usage := some { inputTokens := 1, outputTokens := 2, cacheReadTokens := some 3 } }


/-- The messages of a decode result (empty on error). -/
def sessionMessages : Except Str ChatSession → List ChatMessage
  | .ok s => s.messages
  | .error _ => []

/-- A decoded Codex `response_item` record of payload type `message`
whose content array yields no text items. -/
def exC10Entry : Json :=
  jobj [(cs "type", .str (cs "response_item")), (cs "timestamp", .str (cs "t")),
        (cs "payload", jobj [(cs "type", .str (cs "message")),
                             (cs "role", .str (cs "assistant")),
                             (cs "content", jarr [])])]

/-- A Codex log with one non-empty assistant message and one
empty-content message record. -/
def exCodexMsgLog : Str :=
  cs "\x7b\"type\":\"session_meta\",\"timestamp\":\"t0\",\"payload\":\x7b\"id\":\"s\"\x7d\x7d\n\x7b\"type\":\"response_item\",\"timestamp\":\"t1\",\"payload\":\x7b\"type\":\"message\",\"role\":\"assistant\",\"content\":[\x7b\"type\":\"output_text\",\"text\":\"hello\"\x7d]\x7d\x7d\n\x7b\"type\":\"response_item\",\"timestamp\":\"t2\",\"payload\":\x7b\"type\":\"message\",\"role\":\"assistant\",\"content\":[]\x7d\x7d"


/-- The input-token counter attached to a turn (0 when no usage). -/
def usageInputOf (m : ChatMessage) : Int :=
  (m.usage.map (fun u => u.inputTokens)).getD 0

/-- The output-token counter attached to a turn (0 when no usage). -/
def usageOutputOf (m : ChatMessage) : Int :=
  (m.usage.map (fun u => u.outputTokens)).getD 0

/-- The cache-creation counter attached to a turn (0 when absent). -/
def usageCacheCreationOf (m : ChatMessage) : Int :=
  ((m.usage.bind (fun u => u.cacheCreationTokens)).getD 0)

/-- The cache-read counter attached to a turn (0 when absent). -/
def usageCacheReadOf (m : ChatMessage) : Int :=
  ((m.usage.bind (fun u => u.cacheReadTokens)).getD 0)

/-- The per-turn input-token sum of a message list. -/
def sumInputTokens (ms : List ChatMessage) : Int := (ms.map usageInputOf).sum

/-- The per-turn output-token sum of a message list. -/
def sumOutputTokens (ms : List ChatMessage) : Int := (ms.map usageOutputOf).sum

/-- The per-turn cache-creation sum of a message list. -/
def sumCacheCreation (ms : List ChatMessage) : Int := (ms.map usageCacheCreationOf).sum

/-- The per-turn cache-read sum of a message list. -/
def sumCacheRead (ms : List ChatMessage) : Int := (ms.map usageCacheReadOf).sum

/-- The usage-accumulation invariant of the Claude decode loop: the
running total equals the per-turn sum, counter by counter. -/
def claudeUsageInv (st : ClaudeParser.ClaudeState) : Prop :=
  st.totalUsage.inputTokens = sumInputTokens st.messages ∧
  st.totalUsage.outputTokens = sumOutputTokens st.messages ∧
  st.totalUsage.cacheCreationTokens.getD 0 = sumCacheCreation st.messages ∧
  st.totalUsage.cacheReadTokens.getD 0 = sumCacheRead st.messages


/-- `declassify` lifted to the Claude loop state. -/
def declassifyClaudeState (st : ClaudeParser.ClaudeState) : ClaudeParser.ClaudeState :=
  { model := st.model, totalUsage := st.totalUsage,
    messages := st.messages.map declassify, lastTodos := st.lastTodos }

/-- `declassify` lifted to the Codex loop state. -/
def declassifyCodexState (st : CodexParser.CodexState) : CodexParser.CodexState :=
  { messages := st.messages.map declassify, userMessageCount := st.userMessageCount }

/-! ## Code-block protection: auxiliary lemmas -/

/-- The placeholder of the first (sole) protected code block. -/
def cbPh : Str := placeholder (cs "CB") 0


/-- What the final-cleanup `replace` patterns of `parseMarkdown` have in
common, as far as the stored code-block rendering is concerned: the
pattern starts with `<`, cannot match at the `<pre`, `<code>` or
`</code>` tags of the rendering, can match at its closing `</pre>` only
by replacing it with `</pre>` again, and can straddle into the rendering
only by rewriting a suffix `<pre` to `<pre`. -/
structure CleanupPat (pat repl : Str) : Prop where
  hhead : pat.take 1 = ['<']
  hpnul : '\x00' ∉ pat
  hrnul : '\x00' ∉ repl
  hlen5 : 5 ≤ pat.length
  hnpre : ∀ z : Str, pat.isPrefixOf ('<' :: 'p' :: 'r' :: 'e' :: ' ' :: z) = false
  hncode : ∀ z : Str, pat.isPrefixOf ('<' :: 'c' :: z) = false
  hnccode : ∀ z : Str, pat.isPrefixOf ('<' :: '/' :: 'c' :: z) = false
  hcpre : (∀ z : Str, pat.isPrefixOf ('<' :: '/' :: 'p' :: 'r' :: z) = false) ∨
    (∃ pt, pat = cs "</pre>" ++ pt ∧ repl = cs "</pre>")
  hinpre : ∀ j, 0 < j → j < pat.length → ∀ z : Str,
    (pat.drop j).isPrefixOf (cs "<pre class=\"code-block" ++ z) = true →
    pat.drop j = cs "<pre" ∧ repl = cs "<pre"


/-! # Theorems -/

/-- C2: for counters input=10, output=5, cache-read=3, `getTotalTokens`
yields 18 under the Claude-style convention (cache counters added on top
of input+output) and 15 under the Codex convention (cache already folded
into the input count); in general it adds the cache counters for sources
`claude`, `gemini` and `unknown` and never for `codex`. -/
theorem C2_getTotalTokens_vendor_conventions :
    (getTotalTokens { inputTokens := 10, outputTokens := 5, cacheReadTokens := some 3 }
        Source.claude = 18 ∧
     getTotalTokens { inputTokens := 10, outputTokens := 5, cacheReadTokens := some 3 }
        Source.codex = 15) ∧
    ∀ u : TokenUsage,
      getTotalTokens u Source.claude =
        u.inputTokens + u.outputTokens +
          (u.cacheCreationTokens.getD 0 + u.cacheReadTokens.getD 0) ∧
      getTotalTokens u Source.gemini =
        u.inputTokens + u.outputTokens +
          (u.cacheCreationTokens.getD 0 + u.cacheReadTokens.getD 0) ∧
      getTotalTokens u Source.unknown =
        u.inputTokens + u.outputTokens +
          (u.cacheCreationTokens.getD 0 + u.cacheReadTokens.getD 0) ∧
      getTotalTokens u Source.codex = u.inputTokens + u.outputTokens := by
  refine ⟨⟨rfl, rfl⟩, fun u => ⟨?_, ?_, ?_, ?_⟩⟩ <;> simp [getTotalTokens]

/-- C5: on the three-line input `- a`, `  - b`, `- c`, the list pass
produces one outer list containing item "a", a nested list containing
"b", then returns to the outer list for "c", and every emitted
list-opening element is matched by exactly one list-closing element. -/
theorem C5_processLists_nested :
    processLists (cs "- a\n  - b\n- c") =
      cs "<ul>\n<li>a</li>\n<ul>\n<li>b</li>\n</ul>\n<li>c</li>\n</ul>" ∧
    balancedUl (processLists (cs "- a\n  - b\n- c")) = true ∧
    countSub (cs "<ul>") (processLists (cs "- a\n  - b\n- c")) = 2 ∧
    countSub (cs "</ul>") (processLists (cs "- a\n  - b\n- c")) = 2 := by
  exact ⟨rfl, rfl, rfl, rfl⟩

/-- Helper: a malformed line anywhere in the input makes the linewise
decode fail with the JSON syntax error. -/
theorem parseJsonLines_error_of_malformed (lines : List Str) (line : Str)
    (hmem : line ∈ lines) (hbad : jsonParse line = none) :
    ∃ pre, pre ∈ lines ∧ jsonParse pre = none ∧
      parseJsonLines lines = .error (cs "SyntaxError: Unexpected token in JSON") := by
  induction lines with
  | nil => cases hmem
  | cons l rest ih =>
    by_cases hl : jsonParse l = none
    · exact ⟨l, List.mem_cons_self l rest, hl, by simp [parseJsonLines, hl]⟩
    · rcases List.mem_cons.mp hmem with h | h
      · subst h; exact absurd hbad hl
      · obtain ⟨pre, hpre, hprebad, herr⟩ := ih h
        refine ⟨pre, List.mem_cons_of_mem _ hpre, hprebad, ?_⟩
        rcases hj : jsonParse l with _ | j
        · exact absurd hj hl
        · simp [parseJsonLines, hj, herr]

/-- C7: a non-blank line that fails to parse as JSON is fatal for the
whole log in both decoders — the decode returns the syntax error and no
(partial) session. -/
theorem C7_malformed_line_fatal (content : Str) (options : Option ParseOptions) (line : Str)
    (hmem : line ∈ (splitNl (jsTrim content)).filter (fun l => !(jsTrim l).isEmpty))
    (hbad : jsonParse line = none) :
    ClaudeParser.parse content options = .error (cs "SyntaxError: Unexpected token in JSON") ∧
    CodexParser.parse content options = .error (cs "SyntaxError: Unexpected token in JSON") := by
  obtain ⟨pre, _, _, herr⟩ := parseJsonLines_error_of_malformed _ line hmem hbad
  constructor
  · simp only [ClaudeParser.parse, herr]
  · simp only [CodexParser.parse, herr]

/-- C7 witness: the concrete log whose second line is `not json` is
rejected whole by both decoders. -/
theorem C7_malformed_line_fatal_witness :
    ClaudeParser.parse exMalformedLog none =
      .error (cs "SyntaxError: Unexpected token in JSON") ∧
    CodexParser.parse exMalformedLog none =
      .error (cs "SyntaxError: Unexpected token in JSON") := by
  exact C7_malformed_line_fatal exMalformedLog none (cs "not json") (by decide) rfl

/-- C6: format selection tries each registered decoder's sniffing
predicate on the first line in registration order (Claude, then Codex)
and dispatches to the first that matches; when none matches — e.g. for
the first line `{"foo": 1}`, or when the first line is not valid JSON, in
which case every predicate returns false rather than raising — it fails
with the unrecognized-format error instead of crashing or returning an
empty session. -/
theorem C6_registry_first_match_dispatch :
    (∀ content options,
      canParseOf ParserTag.claude ((splitNl (jsTrim content)).headD []) = true →
      parseFile content options = ClaudeParser.parse content options) ∧
    (∀ content options,
      canParseOf ParserTag.claude ((splitNl (jsTrim content)).headD []) = false →
      canParseOf ParserTag.codex ((splitNl (jsTrim content)).headD []) = true →
      parseFile content options = CodexParser.parse content options) ∧
    (∀ content options,
      (∀ p ∈ parsers, canParseOf p ((splitNl (jsTrim content)).headD []) = false) →
      parseFile content options =
        .error (cs "Unknown file format: no parser could handle this file")) ∧
    (∀ line, jsonParse line = none →
      ClaudeParser.canParse line = false ∧ CodexParser.canParse line = false) ∧
    parseFile (cs "\x7b\"foo\": 1\x7d") none =
      .error (cs "Unknown file format: no parser could handle this file") := by
  refine ⟨?_, ?_, ?_, ?_, by rfl⟩
  · intro content options h
    simp only [parseFile, parsers, List.find?, h, parseOf]
  · intro content options h₁ h₂
    simp only [parseFile, parsers, List.find?, h₁, h₂, parseOf]
  · intro content options h
    have h₁ := h ParserTag.claude (by simp [parsers])
    have h₂ := h ParserTag.codex (by simp [parsers])
    simp only [parseFile, parsers, List.find?, h₁, h₂]
  · intro line h
    constructor
    · simp [ClaudeParser.canParse, h]
    · simp [CodexParser.canParse, h]

/-- C6 witness: the Claude log dispatches to the Claude decoder, the
Codex log (whose first line fails the Claude predicate) dispatches to the
Codex decoder, and a non-JSON line fails both predicates. -/
theorem C6_registry_first_match_dispatch_witness :
    parseFile exClaudeLog none = ClaudeParser.parse exClaudeLog none ∧
    parseFile exCodexLog none = CodexParser.parse exCodexLog none ∧
    (ClaudeParser.canParse (cs "nope") = false ∧ CodexParser.canParse (cs "nope") = false) := by
  obtain ⟨h₁, h₂, h₃, h₄, h₅⟩ := C6_registry_first_match_dispatch
  exact ⟨h₁ exClaudeLog none rfl, h₂ exCodexLog none rfl rfl, h₄ (cs "nope") rfl⟩

theorem attachUsage_true (u : Option TokenUsage) : attachUsage u true = (none, true) := by
  simp [attachUsage]

theorem attachUsage_none (b : Bool) : attachUsage none b = (none, b) := by
  simp [attachUsage]

theorem attachUsage_some_false (u : TokenUsage) :
    attachUsage (some u) false = (some u, true) := by
  simp [attachUsage]

theorem flattenLoop_usage_attached (msg : ChatMessage) (items : List MessageContent) :
    ∀ buffer ti, ∀ x ∈ flattenLoop msg items buffer true ti, x.usage = none := by
  induction items with
  | nil =>
    intro buffer ti x hx
    by_cases hb : buffer.length = 0 <;>
      simp [flattenLoop, hb, attachUsage_true] at hx
    subst hx; rfl
  | cons item rest ih =>
    intro buffer ti x hx
    match hti : toolInfo item with
    | some (kind, toolId) =>
      by_cases hb : buffer.length = 0 <;>
        simp [flattenLoop, hti, hb, attachUsage_true] at hx
      · rcases hx with rfl | hx
        · rfl
        · exact ih [] (ti + 1) x hx
      · rcases hx with rfl | rfl | hx
        · rfl
        · rfl
        · exact ih [] (ti + 1) x hx
    | none =>
      simp only [flattenLoop, hti] at hx
      exact ih (buffer ++ [item]) ti x hx

theorem flattenLoop_first_usage (msg : ChatMessage) (u : TokenUsage)
    (hu : msg.usage = some u) (items : List MessageContent) :
    ∀ buffer ti, (items = [] → buffer ≠ []) →
    ∃ first rest, flattenLoop msg items buffer false ti = first :: rest ∧
      first.usage = some u ∧ ∀ x ∈ rest, x.usage = none := by
  induction items with
  | nil =>
    intro buffer ti hne
    have hb : ¬ buffer.length = 0 := by
      simpa using (hne rfl)
    refine ⟨{ baseUnit msg with content := buffer, usage := some u, kind := .normal }, [],
      ?_, rfl, by simp⟩
    simp [flattenLoop, hb, hu, attachUsage_some_false]
  | cons item rest ih =>
    intro buffer ti hne
    match hti : toolInfo item with
    | some (kind, toolId) =>
      by_cases hb : buffer.length = 0
      · refine ⟨{ baseUnit msg with
            id := some (.str (segmentId msg kind toolId ti)), content := [item],
            usage := some u, kind := kind, parentId := msg.id },
          flattenLoop msg rest [] true (ti + 1), ?_, rfl, ?_⟩
        · simp [flattenLoop, hti, hb, hu, attachUsage_some_false]
        · exact fun x hx => flattenLoop_usage_attached msg rest [] (ti + 1) x hx
      · refine ⟨{ baseUnit msg with content := buffer, usage := some u, kind := .normal },
          { baseUnit msg with
            id := some (.str (segmentId msg kind toolId ti)), content := [item],
            usage := none, kind := kind, parentId := msg.id } ::
            flattenLoop msg rest [] true (ti + 1), ?_, rfl, ?_⟩
        · simp [flattenLoop, hti, hb, hu, attachUsage_some_false, attachUsage_true]
        · intro x hx
          rcases List.mem_cons.mp hx with rfl | hx
          · rfl
          · exact flattenLoop_usage_attached msg rest [] (ti + 1) x hx
    | none =>
      have := ih (buffer ++ [item]) ti (by simp)
      simpa only [flattenLoop, hti] using this

theorem C3_three_units_and_usage_on_first :
    (∀ (msg : ChatMessage) t tc tr,
       msg.content = [.text t, .toolUse tc, .toolRes tr] →
       (flattenOne msg).map (fun r => r.content) = [[.text t], [.toolUse tc], [.toolRes tr]] ∧
       (flattenOne msg).map (fun r => r.kind) = [RKind.normal, RKind.toolCall, RKind.toolRes]) ∧
    (∀ (msg : ChatMessage) u, msg.usage = some u →
       ∃ first rest, flattenOne msg = first :: rest ∧
         first.usage = some u ∧ ∀ x ∈ rest, x.usage = none) := by
  constructor
  · intro msg t tc tr hc
    cases hu : msg.usage <;>
      simp [flattenOne, flattenLoop, hc, toolInfo, attachUsage, hu]
  · intro msg u hu
    by_cases hc : msg.content.length = 0
    · refine ⟨{ baseUnit msg with content := [], usage := some u, kind := .normal }, [],
        ?_, rfl, by simp⟩
      simp [flattenOne, hc, hu, attachUsage_some_false]
    · have := flattenLoop_first_usage msg u hu msg.content [] 0
        (fun h => absurd (by simp [h]) hc)
      simpa [flattenOne, hc] using this

theorem flattenLoop_flatMap_content (msg : ChatMessage) (items : List MessageContent) :
    ∀ buffer ua ti,
      (flattenLoop msg items buffer ua ti).flatMap (fun r => r.content) = buffer ++ items := by
  induction items with
  | nil =>
    intro buffer ua ti
    by_cases hb : buffer.length = 0
    · have : buffer = [] := List.length_eq_zero.mp hb
      simp [flattenLoop, hb, this]
    · simp [flattenLoop, hb]
  | cons item rest ih =>
    intro buffer ua ti
    match hti : toolInfo item with
    | some (kind, toolId) =>
      by_cases hb : buffer.length = 0
      · have hbe : buffer = [] := List.length_eq_zero.mp hb
        simp [flattenLoop, hti, hb, hbe, ih]
      · simp [flattenLoop, hti, hb, ih]
    | none =>
      simp only [flattenLoop, hti]
      rw [ih (buffer ++ [item]) ua ti]
      simp

theorem flattenLoop_tool_singleton (msg : ChatMessage) (items : List MessageContent) :
    ∀ buffer ua ti, (∀ b ∈ buffer, toolInfo b = none) →
      ∀ r ∈ flattenLoop msg items buffer ua ti,
        ∀ it ∈ r.content, toolInfo it ≠ none → r.content = [it] := by
  induction items with
  | nil =>
    intro buffer ua ti hbuf r hr it hit hinfo
    by_cases hb : buffer.length = 0 <;> simp [flattenLoop, hb] at hr
    subst hr
    simp only at hit
    exact absurd (hbuf it hit) hinfo
  | cons item rest ih =>
    intro buffer ua ti hbuf r hr it hit hinfo
    match hti : toolInfo item with
    | some (kind, toolId) =>
      by_cases hb : buffer.length = 0
      · simp only [flattenLoop, hti] at hr
        rw [if_pos hb] at hr
        simp at hr
        rcases hr with rfl | hr
        · simp only at hit
          have heq : it = item := by simpa using hit
          subst heq; rfl
        · exact ih [] _ (ti + 1) (by simp) r hr it hit hinfo
      · simp only [flattenLoop, hti] at hr
        rw [if_neg hb] at hr
        simp at hr
        rcases hr with rfl | rfl | hr
        · simp only at hit
          exact absurd (hbuf it hit) hinfo
        · simp only at hit
          have heq : it = item := by simpa using hit
          subst heq; rfl
        · exact ih [] _ (ti + 1) (by simp) r hr it hit hinfo
    | none =>
      simp only [flattenLoop, hti] at hr
      refine ih (buffer ++ [item]) ua ti ?_ r hr it hit hinfo
      intro b hb
      rcases List.mem_append.mp hb with h | h
      · exact hbuf b h
      · simp at h; subst h; exact hti

theorem flattenLoop_content_ne_nil (msg : ChatMessage) (items : List MessageContent) :
    ∀ buffer ua ti, ∀ r ∈ flattenLoop msg items buffer ua ti, r.content ≠ [] := by
  induction items with
  | nil =>
    intro buffer ua ti r hr
    by_cases hb : buffer.length = 0 <;> simp [flattenLoop, hb] at hr
    subst hr
    simpa using List.length_eq_zero.not.mp hb
  | cons item rest ih =>
    intro buffer ua ti r hr
    match hti : toolInfo item with
    | some (kind, toolId) =>
      by_cases hb : buffer.length = 0
      · simp only [flattenLoop, hti] at hr
        rw [if_pos hb] at hr
        simp at hr
        rcases hr with rfl | hr
        · simp
        · exact ih [] _ (ti + 1) r hr
      · simp only [flattenLoop, hti] at hr
        rw [if_neg hb] at hr
        simp at hr
        rcases hr with rfl | rfl | hr
        · simpa using List.length_eq_zero.not.mp hb
        · simp
        · exact ih [] _ (ti + 1) r hr
    | none =>
      simp only [flattenLoop, hti] at hr
      exact ih (buffer ++ [item]) ua ti r hr

theorem toolInfo_kind_not_normal (item : MessageContent) (kind : RKind) (toolId : Option Json)
    (h : toolInfo item = some (kind, toolId)) : kind ≠ RKind.normal := by
  cases item <;> simp [toolInfo] at h <;>
    (obtain ⟨h₁, -⟩ := h; subst h₁; simp)

theorem flattenLoop_no_adjacent_normals (msg : ChatMessage) (items : List MessageContent) :
    ∀ buffer ua ti,
      List.Chain' (fun a b => ¬(a.kind = RKind.normal ∧ b.kind = RKind.normal))
        (flattenLoop msg items buffer ua ti) := by
  induction items with
  | nil =>
    intro buffer ua ti
    by_cases hb : buffer.length = 0 <;> simp [flattenLoop, hb]
  | cons item rest ih =>
    intro buffer ua ti
    match hti : toolInfo item with
    | some (kind, toolId) =>
      have hkind := toolInfo_kind_not_normal item kind toolId hti
      by_cases hb : buffer.length = 0
      · simp only [flattenLoop, hti]
        rw [if_pos hb]
        simp only [List.nil_append]
        refine List.chain'_cons'.mpr ⟨?_, ih [] _ (ti + 1)⟩
        intro y hy
        simp [hkind]
      · simp only [flattenLoop, hti]
        rw [if_neg hb]
        simp only [List.cons_append, List.nil_append]
        refine List.chain'_cons'.mpr ⟨?_, List.chain'_cons'.mpr ⟨?_, ih [] _ (ti + 1)⟩⟩
        · intro y hy
          simp at hy
          subst hy
          simp [hkind]
        · intro y hy
          simp [hkind]
    | none =>
      simp only [flattenLoop, hti]
      exact ih (buffer ++ [item]) ua ti

theorem C9_content_preserving (msg : ChatMessage) :
    ((flattenOne msg).flatMap (fun r => r.content) = msg.content) ∧
    (∀ r ∈ flattenOne msg, ∀ it ∈ r.content, toolInfo it ≠ none → r.content = [it]) ∧
    (msg.content ≠ [] → ∀ r ∈ flattenOne msg, r.content ≠ []) ∧
    List.Chain' (fun a b => ¬(a.kind = RKind.normal ∧ b.kind = RKind.normal))
      (flattenOne msg) := by
  by_cases hc : msg.content.length = 0
  · have hce : msg.content = [] := List.length_eq_zero.mp hc
    refine ⟨?_, ?_, ?_, ?_⟩
    · simp [flattenOne, hc, hce]
    · intro r hr it hit hinfo
      simp [flattenOne, hc] at hr
      subst hr
      simp at hit
    · intro h
      exact absurd hce h
    · simp [flattenOne, hc]
  · refine ⟨?_, ?_, ?_, ?_⟩
    · simp only [flattenOne, hc, if_neg, not_false_iff]
      simpa using flattenLoop_flatMap_content msg msg.content [] false 0
    · simp only [flattenOne, hc, if_neg, not_false_iff]
      exact flattenLoop_tool_singleton msg msg.content [] false 0 (by simp)
    · intro _
      simp only [flattenOne, hc, if_neg, not_false_iff]
      exact flattenLoop_content_ne_nil msg msg.content [] false 0
    · simp only [flattenOne, hc, if_neg, not_false_iff]
      exact flattenLoop_no_adjacent_normals msg msg.content [] false 0

theorem C3_witness :
    ((flattenOne exToolsMsg).map (fun r => r.content) =
       [[.text (some (.str (cs "hi")))],
        [.toolUse { id := some (.str (cs "c1")), name := some (.str (cs "Bash")),
                    input := some (jobj []) }],
        [.toolRes { toolUseId := some (.str (cs "c1")), content := some (.str (cs "ok")) }]] ∧
     (flattenOne exToolsMsg).map (fun r => r.kind) =
       [RKind.normal, RKind.toolCall, RKind.toolRes]) ∧
    (∃ first rest, flattenOne exToolsMsg = first :: rest ∧
       first.usage = some { inputTokens := 1, outputTokens := 2, cacheReadTokens := some 3 } ∧
       ∀ x ∈ rest, x.usage = none) := by
  obtain ⟨h₁, h₂⟩ := C3_three_units_and_usage_on_first
  exact ⟨h₁ exToolsMsg _ _ _ rfl, h₂ exToolsMsg _ rfl⟩

theorem C9_witness :
    ((flattenOne exToolsMsg).flatMap (fun r => r.content) = exToolsMsg.content) ∧
    (∀ r ∈ flattenOne exToolsMsg, r.content ≠ []) ∧
    ((flattenOne exToolsMsg).get ⟨1, by decide⟩).content =
      [.toolUse { id := some (.str (cs "c1")), name := some (.str (cs "Bash")),
                  input := some (jobj []) }] ∧
    List.Chain' (fun a b => ¬(a.kind = RKind.normal ∧ b.kind = RKind.normal))
      (flattenOne exToolsMsg) := by
  obtain ⟨h₁, h₂, h₃, h₄⟩ := C9_content_preserving exToolsMsg
  refine ⟨h₁, h₃ (by simp [exToolsMsg]), ?_, h₄⟩
  exact h₂ _ (List.get_mem _ _ _) _ (List.mem_cons_self _ _)
    (by simp [toolInfo])

theorem codexStep_content_invariant (ih : Bool) (st st' : CodexParser.CodexState) (entry : Json)
    (h : CodexParser.codexStep ih st entry = .ok st')
    (hinv : ∀ m ∈ st.messages, m.content ≠ []) :
    ∀ m ∈ st'.messages, m.content ≠ [] := by
  simp only [CodexParser.codexStep] at h
  repeat' split at h
  all_goals try exact Except.noConfusion h
  all_goals injection h with h
  all_goals subst h
  all_goals intro m hm
  all_goals try exact hinv m hm
  all_goals rcases List.mem_append.mp hm with hmem | hmem
  all_goals try exact hinv m hmem
  all_goals rw [List.mem_singleton] at hmem
  all_goals subst hmem
  all_goals try simp
  all_goals exact List.length_pos.mp (by assumption)

theorem codexLoop_content_invariant (ih : Bool) (entries : List Json) :
    ∀ st st', CodexParser.codexLoop ih entries st = .ok st' →
      (∀ m ∈ st.messages, m.content ≠ []) → ∀ m ∈ st'.messages, m.content ≠ [] := by
  induction entries with
  | nil =>
    intro st st' h hinv
    simp only [CodexParser.codexLoop] at h
    injection h with h
    subst h
    exact hinv
  | cons e rest ih2 =>
    intro st st' h hinv
    simp only [CodexParser.codexLoop] at h
    rcases hs : CodexParser.codexStep ih st e with err | st₁
    · rw [hs] at h; exact Except.noConfusion h
    · rw [hs] at h
      exact ih2 st₁ st' h (codexStep_content_invariant ih st st₁ e hs hinv)

theorem jsStrEq_eq_true_iff (v : Option Json) (lit : Str) :
    jsStrEq v lit = true ↔ v = some (.str lit) := by
  constructor
  · intro h
    rcases v with _ | j
    · simp [jsStrEq] at h
    · cases j <;> simp [jsStrEq] at h ⊢
      exact h
  · intro h; subst h; simp [jsStrEq]

/-- C10: a Codex `response_item` record of payload type `message` whose
content yields no text units produces no turn (the message list is left
unchanged), and consequently every turn emitted by the Codex decoder has
at least one content unit. -/
theorem C10_codex_no_empty_turns :
    (∀ (ih : Bool) (st : CodexParser.CodexState) (entry : Json),
       jsStrEq (entry.getField (cs "type")) (cs "response_item") = true →
       jsStrEq (Json.getFieldOpt (entry.getField (cs "payload")) (cs "type")) (cs "message") = true →
       CodexParser.parseContent
         ((Json.getFieldOpt (entry.getField (cs "payload")) (cs "content")).getD .null) =
           .ok [] →
       ∃ n, CodexParser.codexStep ih st entry =
         .ok { messages := st.messages, userMessageCount := n }) ∧
    (∀ content options s, CodexParser.parse content options = .ok s →
       ∀ m ∈ s.messages, m.content ≠ []) := by
  constructor
  · intro ih st entry h₁ h₂ h₃
    rcases hp : entry.getField (cs "payload") with _ | p
    · rw [hp] at h₂; simp [Json.getFieldOpt, jsStrEq] at h₂
    · rw [hp] at h₂ h₃
      simp only [Json.getFieldOpt] at h₂ h₃
      have hty := (jsStrEq_eq_true_iff _ _).mp h₂
      unfold CodexParser.codexStep
      rw [if_pos h₁, hp]
      cases p with
      | null => simp [Json.getField] at hty
      | bool b => simp [Json.getField] at hty
      | num n => simp [Json.getField] at hty
      | str s => simp [Json.getField] at hty
      | arr xs => simp [Json.getField] at hty
      | obj fs =>
        dsimp only
        rw [hty]
        by_cases hrole : Json.truthyOpt ((Json.obj fs).getField (cs "role")) = true
        · by_cases hcont : Json.truthyOpt ((Json.obj fs).getField (cs "content")) = true
          · rw [if_pos (by rw [hrole, hcont]; rfl)]
            rw [h₃]
            simp only [List.length_nil, gt_iff_lt, lt_self_iff_false, if_false]
            exact ⟨_, rfl⟩
          · have hcf : Json.truthyOpt ((Json.obj fs).getField (cs "content")) = false := by
              revert hcont; cases Json.truthyOpt ((Json.obj fs).getField (cs "content")) <;> simp
            rw [if_neg (by rw [hcf]; simp)]
            rw [show jsStrEq (some (Json.str (cs "message"))) (cs "function_call") = false from rfl]
            rw [show jsStrEq (some (Json.str (cs "message"))) (cs "function_call_output") = false from rfl]
            rw [show jsStrEq (some (Json.str (cs "message"))) (cs "custom_tool_call") = false from rfl]
            rw [show jsStrEq (some (Json.str (cs "message"))) (cs "custom_tool_call_output") = false from rfl]
            simp only [Bool.false_and, Bool.false_eq_true, if_false]
            exact ⟨st.userMessageCount, rfl⟩
        · have hrf : Json.truthyOpt ((Json.obj fs).getField (cs "role")) = false := by
            revert hrole; cases Json.truthyOpt ((Json.obj fs).getField (cs "role")) <;> simp
          rw [if_neg (by rw [hrf]; simp)]
          rw [show jsStrEq (some (Json.str (cs "message"))) (cs "function_call") = false from rfl]
          rw [show jsStrEq (some (Json.str (cs "message"))) (cs "function_call_output") = false from rfl]
          rw [show jsStrEq (some (Json.str (cs "message"))) (cs "custom_tool_call") = false from rfl]
          rw [show jsStrEq (some (Json.str (cs "message"))) (cs "custom_tool_call_output") = false from rfl]
          simp only [Bool.false_and, Bool.false_eq_true, if_false]
          exact ⟨st.userMessageCount, rfl⟩
  · intro content options s h m hm
    simp only [CodexParser.parse] at h
    repeat' split at h
    all_goals try exact Except.noConfusion h
    all_goals injection h with h
    all_goals subst h
    all_goals refine codexLoop_content_invariant _ _ _ _ (by assumption) (by simp) m ?_
    all_goals simpa using hm


/-- C10 witness: the empty-content message record leaves the message list
unchanged, and every turn of the concrete Codex session has non-empty
content (its second message record, with an empty content array, emitted
no turn). -/
theorem C10_witness :
    (∃ n, CodexParser.codexStep true { messages := [], userMessageCount := 0 } exC10Entry =
        .ok { messages := [], userMessageCount := n }) ∧
    (∀ m ∈ sessionMessages (CodexParser.parse exCodexMsgLog none), m.content ≠ []) ∧
    (sessionMessages (CodexParser.parse exCodexMsgLog none)).length = 1 := by
  obtain ⟨h₁, h₂⟩ := C10_codex_no_empty_turns
  refine ⟨h₁ true _ exC10Entry rfl rfl rfl, ?_, rfl⟩
  intro m hm
  rcases hp : CodexParser.parse exCodexMsgLog none with e | s
  · rw [hp] at hm; simp [sessionMessages] at hm
  · rw [hp] at hm
    exact h₂ exCodexMsgLog none s hp m (by simpa [sessionMessages] using hm)

theorem thinkingMessagesOf_usage_none (ih : Bool) (entry : Json) :
    ∀ m ∈ ClaudeParser.thinkingMessagesOf ih entry, m.usage = none := by
  intro m hm
  simp only [ClaudeParser.thinkingMessagesOf] at hm
  split at hm
  · simp at hm; subst hm; rfl
  · simp at hm

theorem todoMessagesOf_usage_none (ih : Bool) (entry : Json) (lt : Option Json) :
    ∀ m ∈ (ClaudeParser.todoMessagesOf ih entry lt).1, m.usage = none := by
  intro m hm
  simp only [ClaudeParser.todoMessagesOf] at hm
  repeat' split at hm
  all_goals simp at hm
  all_goals subst hm
  all_goals rfl

theorem sumInputTokens_append (a b : List ChatMessage) :
    sumInputTokens (a ++ b) = sumInputTokens a + sumInputTokens b := by
  simp [sumInputTokens]

theorem sumOutputTokens_append (a b : List ChatMessage) :
    sumOutputTokens (a ++ b) = sumOutputTokens a + sumOutputTokens b := by
  simp [sumOutputTokens]

theorem sumCacheCreation_append (a b : List ChatMessage) :
    sumCacheCreation (a ++ b) = sumCacheCreation a + sumCacheCreation b := by
  simp [sumCacheCreation]

theorem sumCacheRead_append (a b : List ChatMessage) :
    sumCacheRead (a ++ b) = sumCacheRead a + sumCacheRead b := by
  simp [sumCacheRead]

theorem sums_eq_zero_of_none (ms : List ChatMessage) (h : ∀ m ∈ ms, m.usage = none) :
    sumInputTokens ms = 0 ∧ sumOutputTokens ms = 0 ∧
    sumCacheCreation ms = 0 ∧ sumCacheRead ms = 0 := by
  induction ms with
  | nil => simp [sumInputTokens, sumOutputTokens, sumCacheCreation, sumCacheRead]
  | cons m rest ih =>
    have hm := h m (List.mem_cons_self m rest)
    have ihr := ih (fun x hx => h x (List.mem_cons_of_mem m hx))
    simp [sumInputTokens, sumOutputTokens, sumCacheCreation, sumCacheRead,
      usageInputOf, usageOutputOf, usageCacheCreationOf, usageCacheReadOf, hm] at ihr ⊢
    exact ihr

theorem claudeStep_usage_inv (ih : Bool) (st st' : ClaudeParser.ClaudeState) (entry : Json)
    (h : ClaudeParser.claudeStep ih st entry = .ok st')
    (hinv : claudeUsageInv st) : claudeUsageInv st' := by
  obtain ⟨h₁, h₂, h₃, h₄⟩ := hinv
  obtain ⟨ht₁, ht₂, ht₃, ht₄⟩ :=
    sums_eq_zero_of_none _ (thinkingMessagesOf_usage_none ih entry)
  obtain ⟨hd₁, hd₂, hd₃, hd₄⟩ :=
    sums_eq_zero_of_none _ (todoMessagesOf_usage_none ih entry st.lastTodos)
  simp only [ClaudeParser.claudeStep] at h
  repeat' split at h
  all_goals try exact Except.noConfusion h
  all_goals injection h with h
  all_goals subst h
  all_goals refine ⟨?_, ?_, ?_, ?_⟩
  all_goals
    simp_all [sumInputTokens_append, sumOutputTokens_append, sumCacheCreation_append,
      sumCacheRead_append, sumInputTokens, sumOutputTokens, sumCacheCreation, sumCacheRead,
      usageInputOf, usageOutputOf, usageCacheCreationOf, usageCacheReadOf]

theorem claudeLoop_usage_inv (ih : Bool) (entries : List Json) :
    ∀ st st', ClaudeParser.claudeLoop ih entries st = .ok st' →
      claudeUsageInv st → claudeUsageInv st' := by
  induction entries with
  | nil =>
    intro st st' h hinv
    simp only [ClaudeParser.claudeLoop] at h
    injection h with h
    subst h
    exact hinv
  | cons e rest ih2 =>
    intro st st' h hinv
    simp only [ClaudeParser.claudeLoop] at h
    rcases hs : ClaudeParser.claudeStep ih st e with err | st₁
    · rw [hs] at h; exact Except.noConfusion h
    · rw [hs] at h
      exact ih2 st₁ st' h (claudeStep_usage_inv ih st st₁ e hs hinv)

theorem codexStep_usage_none (ih : Bool) (st st' : CodexParser.CodexState) (entry : Json)
    (h : CodexParser.codexStep ih st entry = .ok st')
    (hinv : ∀ m ∈ st.messages, m.usage = none) :
    ∀ m ∈ st'.messages, m.usage = none := by
  simp only [CodexParser.codexStep] at h
  repeat' split at h
  all_goals try exact Except.noConfusion h
  all_goals injection h with h
  all_goals subst h
  all_goals intro m hm
  all_goals try exact hinv m hm
  all_goals rcases List.mem_append.mp hm with hmem | hmem
  all_goals try exact hinv m hmem
  all_goals rw [List.mem_singleton] at hmem
  all_goals subst hmem
  all_goals rfl

theorem codexLoop_usage_none (ih : Bool) (entries : List Json) :
    ∀ st st', CodexParser.codexLoop ih entries st = .ok st' →
      (∀ m ∈ st.messages, m.usage = none) → ∀ m ∈ st'.messages, m.usage = none := by
  induction entries with
  | nil =>
    intro st st' h hinv
    simp only [CodexParser.codexLoop] at h
    injection h with h
    subst h
    exact hinv
  | cons e rest ih2 =>
    intro st st' h hinv
    simp only [CodexParser.codexLoop] at h
    rcases hs : CodexParser.codexStep ih st e with err | st₁
    · rw [hs] at h; exact Except.noConfusion h
    · rw [hs] at h
      exact ih2 st₁ st' h (codexStep_usage_none ih st st₁ e hs hinv)

/-- C1 counterexample: the concrete Codex log is accepted (its first line
satisfies the Codex decoder's predicate), its session's aggregated input
counter is 10, yet the per-turn input sum is 0 — the aggregate does not
equal the per-turn sum. -/
theorem C1_counterexample :
    CodexParser.canParse ((splitNl (jsTrim exCodexLog)).headD []) = true ∧
    (parseFile exCodexLog none).map
      (fun s => (s.totalUsage.inputTokens, sumInputTokens s.messages)) = .ok (10, 0) ∧
    (10 : Int) ≠ 0 := by
  exact ⟨rfl, rfl, by decide⟩

/-- C1 (amended): for every log accepted by the Claude decoder the
aggregated total Usage equals the per-turn sum, counter by counter; the
Codex decoder attaches no per-turn Usage to any turn (its aggregate is
taken from the log's last token_count event), so the per-turn sums of a
Codex session are all zero and need not equal the aggregate. -/
theorem C1_usage_totals :
    (∀ content options s, ClaudeParser.parse content options = .ok s →
       s.totalUsage.inputTokens = sumInputTokens s.messages ∧
       s.totalUsage.outputTokens = sumOutputTokens s.messages ∧
       s.totalUsage.cacheCreationTokens.getD 0 = sumCacheCreation s.messages ∧
       s.totalUsage.cacheReadTokens.getD 0 = sumCacheRead s.messages) ∧
    (∀ content options s, CodexParser.parse content options = .ok s →
       (∀ m ∈ s.messages, m.usage = none) ∧
       sumInputTokens s.messages = 0 ∧ sumOutputTokens s.messages = 0 ∧
       sumCacheCreation s.messages = 0 ∧ sumCacheRead s.messages = 0) := by
  constructor
  · intro content options s h
    simp only [ClaudeParser.parse] at h
    repeat' split at h
    all_goals try exact Except.noConfusion h
    all_goals injection h with h
    all_goals subst h
    all_goals
      exact claudeLoop_usage_inv _ _ ClaudeParser.initState _ (by assumption)
        ⟨rfl, rfl, rfl, rfl⟩
  · intro content options s h
    have hnone : ∀ m ∈ s.messages, m.usage = none := by
      simp only [CodexParser.parse] at h
      repeat' split at h
      all_goals try exact Except.noConfusion h
      all_goals injection h with h
      all_goals subst h
      all_goals
        intro m hm
        refine codexLoop_usage_none _ _ _ _ (by assumption) (by simp) m (by simpa using hm)
    exact ⟨hnone, (sums_eq_zero_of_none _ hnone).1, (sums_eq_zero_of_none _ hnone).2.1,
      (sums_eq_zero_of_none _ hnone).2.2.1, (sums_eq_zero_of_none _ hnone).2.2.2⟩

/-- C1 witness: on the concrete Claude log the aggregated counters
(10, 5, 0, 3) equal the per-turn sums; on the concrete Codex log no turn
carries usage. -/
theorem C1_usage_totals_witness :
    ((parseFile exClaudeLog none).map
      (fun s => (s.totalUsage.inputTokens, sumInputTokens s.messages)) = .ok (10, 10)) ∧
    (∀ s, ClaudeParser.parse exClaudeLog none = .ok s →
      s.totalUsage.inputTokens = sumInputTokens s.messages) := by
  constructor
  · rfl
  · intro s h
    exact ((C1_usage_totals).1 exClaudeLog none s h).1

theorem declassify_of_not_harness (m : ChatMessage) (h : m.isHarness = false) :
    declassify m = m := by
  cases m
  simp only at h
  simp [declassify, h]

theorem thinkingMessagesOf_declassify (entry : Json) :
    ClaudeParser.thinkingMessagesOf false entry =
      (ClaudeParser.thinkingMessagesOf true entry).map declassify := by
  simp only [ClaudeParser.thinkingMessagesOf]
  split
  · simp [declassify, show jsStrEq (some (Json.str (cs "system"))) (cs "system") = true from rfl]
  · simp

theorem todoMessagesOf_declassify (entry : Json) (lt : Option Json) :
    (ClaudeParser.todoMessagesOf false entry lt).1 =
      ((ClaudeParser.todoMessagesOf true entry lt).1).map declassify ∧
    (ClaudeParser.todoMessagesOf false entry lt).2 =
      (ClaudeParser.todoMessagesOf true entry lt).2 := by
  simp only [ClaudeParser.todoMessagesOf]
  repeat' split
  all_goals
    simp_all [declassify, show jsStrEq (some (Json.str (cs "system"))) (cs "system") = true from rfl]

theorem claudeStep_declassify (st : ClaudeParser.ClaudeState) (entry : Json) :
    ClaudeParser.claudeStep false (declassifyClaudeState st) entry =
      (ClaudeParser.claudeStep true st entry).map declassifyClaudeState := by
  simp only [ClaudeParser.claudeStep, declassifyClaudeState]
  repeat' split
  all_goals
    simp [Except.map, declassifyClaudeState, List.map_append, thinkingMessagesOf_declassify,
      (todoMessagesOf_declassify entry st.lastTodos).1,
      (todoMessagesOf_declassify entry st.lastTodos).2, declassify]

theorem declassify_role_of_user (v : Option Json) (c : Bool) :
    (if (jsStrEq v (cs "user") && c && jsStrEq v (cs "system")) = true then
       some (Json.str (cs "assistant"))
     else v) = v := by
  by_cases hu : jsStrEq v (cs "user") = true
  · rw [(jsStrEq_eq_true_iff _ _).mp hu]
    simp [show jsStrEq (some (Json.str (cs "user"))) (cs "system") = false from rfl]
  · have hf : jsStrEq v (cs "user") = false := by
      revert hu; cases jsStrEq v (cs "user") <;> simp
    simp [hf]

theorem role_unchanged_for_user (v : Option Json) (c : Prop) [Decidable c]
    (hu : jsStrEq v (cs "user") = true) :
    (if (jsStrEq v (cs "user") = true ∧ c) ∧ jsStrEq v (cs "system") = true then
       some (Json.str (cs "assistant"))
     else v) = v := by
  rw [(jsStrEq_eq_true_iff _ _).mp hu]
  simp [show jsStrEq (some (Json.str (cs "user"))) (cs "system") = false from rfl]

theorem codexStep_declassify (st : CodexParser.CodexState) (entry : Json) :
    CodexParser.codexStep false (declassifyCodexState st) entry =
      (CodexParser.codexStep true st entry).map declassifyCodexState := by
  simp only [CodexParser.codexStep, declassifyCodexState]
  repeat' split
  all_goals
    simp [Except.map, declassifyCodexState, List.map_append, declassify,
      show jsStrEq (some (Json.str (cs "system"))) (cs "system") = true from rfl,
      show jsStrEq (some (Json.str (cs "assistant"))) (cs "system") = false from rfl,
      show jsStrEq (some (Json.str (cs "user"))) (cs "system") = false from rfl]
  all_goals try exact absurd (by assumption : false = true) Bool.false_ne_true
  all_goals rename_i hrole
  all_goals
    first
    | (rw [(jsStrEq_eq_true_iff _ _).mp hrole]
       simp [show jsStrEq (some (Json.str (cs "user"))) (cs "system") = false from rfl])
    | (rw [if_neg (fun hc => hrole hc.1.1)])

theorem claudeLoop_declassify (entries : List Json) :
    ∀ st, ClaudeParser.claudeLoop false entries (declassifyClaudeState st) =
      (ClaudeParser.claudeLoop true entries st).map declassifyClaudeState := by
  induction entries with
  | nil => intro st; simp [ClaudeParser.claudeLoop, Except.map]
  | cons e rest ih =>
    intro st
    simp only [ClaudeParser.claudeLoop]
    rw [claudeStep_declassify]
    rcases hs : ClaudeParser.claudeStep true st e with err | st₁
    · simp [Except.map]
    · simp only [Except.map]
      exact ih st₁

theorem codexLoop_declassify (entries : List Json) :
    ∀ st, CodexParser.codexLoop false entries (declassifyCodexState st) =
      (CodexParser.codexLoop true entries st).map declassifyCodexState := by
  induction entries with
  | nil => intro st; simp [CodexParser.codexLoop, Except.map]
  | cons e rest ih =>
    intro st
    simp only [CodexParser.codexLoop]
    rw [codexStep_declassify]
    rcases hs : CodexParser.codexStep true st e with err | st₁
    · simp [Except.map]
    · simp only [Except.map]
      exact ih st₁

theorem claudeParse_declassify (content : Str) (oT oF : Option ParseOptions)
    (hT : identifyHarnessOf oT = true) (hF : identifyHarnessOf oF = false) :
    (ClaudeParser.parse content oF).map (fun s => s.messages) =
      (ClaudeParser.parse content oT).map (fun s => s.messages.map declassify) := by
  simp only [ClaudeParser.parse, hT, hF]
  rcases hj : parseJsonLines ((splitNl (jsTrim content)).filter (fun l => !(jsTrim l).isEmpty))
    with e | entries
  · simp [Except.map]
  · dsimp only
    have hloop : ClaudeParser.claudeLoop false entries ClaudeParser.initState =
        (ClaudeParser.claudeLoop true entries ClaudeParser.initState).map
          declassifyClaudeState :=
      claudeLoop_declassify entries ClaudeParser.initState
    rw [hloop]
    rcases hl : ClaudeParser.claudeLoop true entries ClaudeParser.initState with e | st
    · simp [Except.map]
    · simp [Except.map, declassifyClaudeState]

theorem codexParse_declassify (content : Str) (oT oF : Option ParseOptions)
    (hT : identifyHarnessOf oT = true) (hF : identifyHarnessOf oF = false) :
    (CodexParser.parse content oF).map (fun s => s.messages) =
      (CodexParser.parse content oT).map (fun s => s.messages.map declassify) := by
  simp only [CodexParser.parse, hT, hF]
  rcases hj : parseJsonLines ((splitNl (jsTrim content)).filter (fun l => !(jsTrim l).isEmpty))
    with e | entries
  · simp [Except.map]
  · dsimp only
    have hloop : CodexParser.codexLoop false entries { messages := [], userMessageCount := 0 } =
        (CodexParser.codexLoop true entries { messages := [], userMessageCount := 0 }).map
          declassifyCodexState :=
      codexLoop_declassify entries { messages := [], userMessageCount := 0 }
    rw [hloop]
    rcases hl : CodexParser.codexLoop true entries { messages := [], userMessageCount := 0 }
      with e | st
    · simp [Except.map]
    · simp [Except.map, declassifyCodexState]

/-- C8: the harness-identification toggle changes only classification,
never visibility: a decode with the toggle off yields exactly the decode
with it on with every turn declassified (harness flags cleared,
harness-`system` roles turned into plain `assistant` — same content, same
order, nothing suppressed), for both decoders; moreover a Codex
`agent_reasoning` event always emits its thinking turn — flagged with the
`system` role when the toggle is on, as an ordinary unflagged `assistant`
turn when it is off — and likewise the Claude thinking-metadata
annotation is always derived, with only its classification depending on
the toggle. -/
theorem C8_harness_toggle_classification_only :
    (∀ content oT oF, identifyHarnessOf oT = true → identifyHarnessOf oF = false →
      (ClaudeParser.parse content oF).map (fun s => s.messages) =
        (ClaudeParser.parse content oT).map (fun s => s.messages.map declassify) ∧
      (CodexParser.parse content oF).map (fun s => s.messages) =
        (CodexParser.parse content oT).map (fun s => s.messages.map declassify)) ∧
    (∀ (b : Bool) (st : CodexParser.CodexState) (entry : Json),
      jsStrEq (entry.getField (cs "type")) (cs "event_msg") = true →
      jsStrEq (Json.getFieldOpt (entry.getField (cs "payload")) (cs "type"))
        (cs "agent_reasoning") = true →
      Json.truthyOpt (Json.getFieldOpt (entry.getField (cs "payload")) (cs "text")) = true →
      CodexParser.codexStep b st entry = .ok { st with messages := st.messages ++
        [{ id := entry.getField (cs "timestamp")
           role := some (.str (if b then cs "system" else cs "assistant"))
           content := [.thinking (Json.getFieldOpt (entry.getField (cs "payload")) (cs "text"))]
           timestamp := entry.getField (cs "timestamp")
           isHarness := b }] }) ∧
    (∀ (b : Bool) (entry : Json),
      (Json.truthyOpt (entry.getField (cs "thinkingMetadata")) &&
        ClaudeParser.hasMeaningfulThinking
          ((entry.getField (cs "thinkingMetadata")).getD .null)) = true →
      ClaudeParser.thinkingMessagesOf b entry =
        [{ id := some (.str (Json.optToString (entry.getField (cs "uuid")) ++ cs ":thinking"))
           role := some (.str (if b then cs "system" else cs "assistant"))
           content := [.thinking (some (.str (ClaudeParser.formatThinkingMetadata
             ((entry.getField (cs "thinkingMetadata")).getD .null))))]
           timestamp := entry.getField (cs "timestamp")
           isHarness := b }]) := by
  refine ⟨fun content oT oF hT hF =>
    ⟨claudeParse_declassify content oT oF hT hF, codexParse_declassify content oT oF hT hF⟩,
    ?_, ?_⟩
  · intro b st entry h₁ h₂ h₃
    rcases hp : entry.getField (cs "payload") with _ | p
    · rw [hp] at h₂; simp [Json.getFieldOpt, jsStrEq] at h₂
    · rw [hp] at h₂ h₃
      simp only [Json.getFieldOpt] at h₂ h₃
      have hty := (jsStrEq_eq_true_iff _ _).mp h₂
      have h₁' := (jsStrEq_eq_true_iff _ _).mp h₁
      unfold CodexParser.codexStep
      rw [if_neg (by rw [h₁']; simp [jsStrEq]; decide), if_pos (by rw [h₁']; rfl), hp]
      cases p with
      | null => simp [Json.getField] at hty
      | bool b₂ => simp [Json.getField] at hty
      | num n => simp [Json.getField] at hty
      | str s => simp [Json.getField] at hty
      | arr xs => simp [Json.getField] at hty
      | obj fs =>
        have htr : Json.truthyOpt (some (Json.obj fs)) = true := rfl
        rw [if_neg (by rw [htr]; simp)]
        dsimp only [Option.getD]
        rw [hty]
        dsimp only
        rw [if_neg (by decide), if_neg (by decide), if_pos (by rw [h₃]; rfl)]
        rfl
  · intro b entry h
    simp only [ClaudeParser.thinkingMessagesOf]
    rw [if_pos h]

/-- C8 witness: the toggle-off decodes of the concrete reasoning /
thinking-metadata logs equal the declassified toggle-on decodes, a
concrete `agent_reasoning` event emits a flagged `system` thinking turn
with the toggle on, and a concrete thinking-metadata entry derives its
annotation with the toggle on. -/
theorem C8_witness :
    ((ClaudeParser.parse exClaudeThinkingLog (some { identifyHarness := some false })).map
        (fun s => s.messages) =
      (ClaudeParser.parse exClaudeThinkingLog none).map
        (fun s => s.messages.map declassify)) ∧
    ((CodexParser.parse exCodexReasoningLog (some { identifyHarness := some false })).map
        (fun s => s.messages) =
      (CodexParser.parse exCodexReasoningLog none).map
        (fun s => s.messages.map declassify)) ∧
    (CodexParser.codexStep true { messages := [], userMessageCount := 0 }
        (jobj [(cs "type", .str (cs "event_msg")), (cs "timestamp", .str (cs "t1")),
               (cs "payload", jobj [(cs "type", .str (cs "agent_reasoning")),
                                    (cs "text", .str (cs "let me think"))])]) =
      .ok { messages :=
              [{ id := some (.str (cs "t1"))
                 role := some (.str (cs "system"))
                 content := [.thinking (some (.str (cs "let me think")))]
                 timestamp := some (.str (cs "t1"))
                 isHarness := true }]
            userMessageCount := 0 }) ∧
    (ClaudeParser.thinkingMessagesOf true
        (jobj [(cs "type", .str (cs "assistant")), (cs "uuid", .str (cs "u1")),
               (cs "timestamp", .str (cs "t1")),
               (cs "thinkingMetadata", jobj [(cs "level", .str (cs "high"))])]) =
      [{ id := some (.str (cs "u1:thinking"))
         role := some (.str (cs "system"))
         content := [.thinking (some (.str (cs "Thinking metadata – level: high")))]
         timestamp := some (.str (cs "t1"))
         isHarness := true }]) := by
  obtain ⟨h₁, h₂, h₃⟩ := C8_harness_toggle_classification_only
  refine ⟨(h₁ exClaudeThinkingLog none (some { identifyHarness := some false }) rfl rfl).1,
    (h₁ exCodexReasoningLog none (some { identifyHarness := some false }) rfl rfl).2,
    ?_, ?_⟩
  · exact h₂ true { messages := [], userMessageCount := 0 } _ rfl rfl rfl
  · exact h₃ true _ rfl


theorem cbPh_eq : cbPh = '\x00' :: 'C' :: 'B' :: '0' :: '\x00' :: [] := by
  decide

theorem isPrefixOf_eq_false_of_head_ne {c e : Char} {p t : Str} (h : e ≠ c) :
    (c :: p).isPrefixOf (e :: t) = false := by
  simp [List.isPrefixOf]
  intro hce
  exact absurd hce.symm h

theorem isPrefixOf_append_self (p z : Str) : p.isPrefixOf (p ++ z) = true :=
  List.isPrefixOf_iff_prefix.mpr (List.prefix_append p z)

theorem isPrefixOf_eq_false_of_take_ne {p w : Str} (z : Str) (k : Nat)
    (hkp : k ≤ p.length) (hkw : k ≤ w.length) (h : p.take k ≠ w.take k) :
    p.isPrefixOf (w ++ z) = false := by
  cases hpre : p.isPrefixOf (w ++ z) with
  | false => rfl
  | true =>
    exfalso
    have hp : p <+: w ++ z := List.isPrefixOf_iff_prefix.mp hpre
    have h1 : p = (w ++ z).take p.length := by
      obtain ⟨t, ht⟩ := hp
      rw [← ht, List.take_left]
    have h2 : p.take k = (w ++ z).take k := by
      rw [h1, List.take_take, Nat.min_eq_left hkp]
    rw [List.take_append_of_le_length hkw] at h2
    exact h h2

theorem takeWhile_append_all {P : Char → Bool} {x : Str} (y : Str)
    (h : ∀ c ∈ x, P c = true) :
    (x ++ y).takeWhile P = x ++ y.takeWhile P := by
  induction x with
  | nil => rfl
  | cons c x ih =>
    have hc : P c = true := h c (List.mem_cons_self c x)
    simp only [List.cons_append, List.takeWhile_cons, hc, if_true]
    rw [ih (fun d hd => h d (List.mem_cons_of_mem c hd))]

theorem takeWhile_all_stop {P : Char → Bool} {x : Str} {c : Char} (y : Str)
    (h : ∀ d ∈ x, P d = true) (hc : P c = false) :
    (x ++ c :: y).takeWhile P = x := by
  rw [takeWhile_append_all (c :: y) h, List.takeWhile_cons, hc]
  simp

theorem mem_split_first {d : Char} {x : Str} (h : d ∈ x) :
    ∃ u v, x = u ++ d :: v ∧ d ∉ u := by
  induction x with
  | nil => cases h
  | cons c x ih =>
    by_cases hc : c = d
    · exact ⟨[], x, by rw [hc]; rfl, List.not_mem_nil d⟩
    · have hx : d ∈ x := by
        cases List.mem_cons.mp h with
        | inl h' => exact absurd h'.symm hc
        | inr h' => exact h'
      obtain ⟨u, v, huv, hu⟩ := ih hx
      refine ⟨c :: u, v, by rw [huv]; rfl, ?_⟩
      intro hmem
      cases List.mem_cons.mp hmem with
      | inl h' => exact hc h'.symm
      | inr h' => exact hu h'

theorem extractCBGo_no_ticks {s : Str} (hs : '`' ∉ s) (blocks : List Str) :
    ∀ fuel, s.length ≤ fuel → extractCBGo blocks fuel s = (blocks, s) := by
  induction s with
  | nil => intro fuel _; cases fuel <;> rfl
  | cons c rest ih =>
    intro fuel hf
    have hc : c ≠ '`' := fun h => hs (h ▸ List.mem_cons_self c rest)
    have hrest : '`' ∉ rest := fun h => hs (List.mem_cons_of_mem c h)
    cases fuel with
    | zero => simp at hf
    | succ fuel =>
      have hpre : (cs "```").isPrefixOf (c :: rest) = false :=
        isPrefixOf_eq_false_of_head_ne hc
      simp only [extractCBGo, hpre, Bool.false_eq_true, if_false]
      rw [ih hrest fuel (by simpa using Nat.le_of_succ_le_succ hf)]

theorem findSub_close_fence {body : Str} (hb : '`' ∉ body) (post : Str) :
    findSub (cs "```") (body ++ cs "```" ++ post) = some (body, post) := by
  induction body with
  | nil =>
    show findSub (cs "```") ('`' :: '`' :: '`' :: post) = some ([], post)
    have hpre : (cs "```").isPrefixOf ('`' :: '`' :: '`' :: post) = true :=
      isPrefixOf_append_self (cs "```") post
    simp only [findSub, hpre, if_true]
    rfl
  | cons c rest ih =>
    have hc : c ≠ '`' := fun h => hb (h ▸ List.mem_cons_self c rest)
    have hrest : '`' ∉ rest := fun h => hb (List.mem_cons_of_mem c h)
    show findSub (cs "```") (c :: (rest ++ cs "```" ++ post)) = some (c :: rest, post)
    have hpre : (cs "```").isPrefixOf (c :: (rest ++ cs "```" ++ post)) = false :=
      isPrefixOf_eq_false_of_head_ne hc
    simp only [findSub, hpre, Bool.false_eq_true, if_false]
    rw [ih hrest]
    rfl

theorem isWordChar_nl : isWordChar '\n' = false := by decide

theorem extractCBGo_single (lang body post : Str)
    (hbody : '`' ∉ body) (hpost : '`' ∉ post)
    (hlang : ∀ c ∈ lang, isWordChar c = true) :
    ∀ pre fuel, '`' ∉ pre →
      (pre ++ cs "```" ++ lang ++ '\n' :: body ++ cs "```" ++ post).length ≤ fuel →
      extractCBGo [] fuel (pre ++ cs "```" ++ lang ++ '\n' :: body ++ cs "```" ++ post)
        = ([codeBlockHtml lang body], pre ++ cbPh ++ post) := by
  intro pre
  induction pre with
  | nil =>
    intro fuel hpre hf
    cases fuel with
    | zero => simp at hf
    | succ fuel =>
      show extractCBGo [] (fuel + 1)
          ('`' :: '`' :: '`' :: (lang ++ '\n' :: body ++ cs "```" ++ post))
        = ([codeBlockHtml lang body], cbPh ++ post)
      have hpfx : (cs "```").isPrefixOf
          ('`' :: '`' :: '`' :: (lang ++ '\n' :: body ++ cs "```" ++ post)) = true :=
        isPrefixOf_append_self (cs "```") (lang ++ '\n' :: body ++ cs "```" ++ post)
      simp only [extractCBGo, hpfx, if_true]
      have htw : (lang ++ '\n' :: body ++ cs "```" ++ post).takeWhile isWordChar = lang := by
        have : lang ++ '\n' :: body ++ cs "```" ++ post
            = lang ++ '\n' :: (body ++ cs "```" ++ post) := by simp
        rw [this, takeWhile_all_stop _ hlang isWordChar_nl]
      have hdrop : (lang ++ '\n' :: body ++ cs "```" ++ post).drop lang.length
          = '\n' :: (body ++ cs "```" ++ post) := by
        have : lang ++ '\n' :: body ++ cs "```" ++ post
            = lang ++ '\n' :: (body ++ cs "```" ++ post) := by simp
        rw [this, List.drop_left]
      simp only [List.drop_succ_cons, List.drop_zero, htw, hdrop]
      have hfind : findSub (cs "```") (body ++ cs "```" ++ post) = some (body, post) :=
        findSub_close_fence hbody post
      simp only [hfind]
      have hrec : extractCBGo ([] ++ [codeBlockHtml lang body]) fuel post
          = ([] ++ [codeBlockHtml lang body], post) := by
        apply extractCBGo_no_ticks hpost
        simp only [List.length_cons, List.length_append] at hf
        omega
      simp only [hrec]
      rfl
  | cons c pre ih =>
    intro fuel hpre hf
    have hc : c ≠ '`' := fun h => hpre (h ▸ List.mem_cons_self c pre)
    have hpre' : '`' ∉ pre := fun h => hpre (List.mem_cons_of_mem c h)
    cases fuel with
    | zero => simp at hf
    | succ fuel =>
      show extractCBGo [] (fuel + 1)
          (c :: (pre ++ cs "```" ++ lang ++ '\n' :: body ++ cs "```" ++ post))
        = ([codeBlockHtml lang body], c :: (pre ++ cbPh ++ post))
      have hpfx : (cs "```").isPrefixOf
          (c :: (pre ++ cs "```" ++ lang ++ '\n' :: body ++ cs "```" ++ post)) = false :=
        isPrefixOf_eq_false_of_head_ne hc
      simp only [extractCBGo, hpfx, Bool.false_eq_true, if_false]
      rw [ih fuel hpre' (by
        simp only [List.length_cons, List.length_append] at hf ⊢; omega)]

theorem extractCodeBlocks_single (pre lang body post : Str)
    (hpre : '`' ∉ pre) (hbody : '`' ∉ body) (hpost : '`' ∉ post)
    (hlang : ∀ c ∈ lang, isWordChar c = true) :
    extractCodeBlocks (pre ++ cs "```" ++ lang ++ '\n' :: body ++ cs "```" ++ post)
      = ([codeBlockHtml lang body], pre ++ cbPh ++ post) :=
  extractCBGo_single lang body post hbody hpost hlang pre _ hpre (Nat.le_refl _)

theorem extractICGo_no_ticks {s : Str} (hs : '`' ∉ s) (acc : List Str) :
    ∀ fuel, s.length ≤ fuel → extractICGo acc fuel s = (acc, s) := by
  induction s with
  | nil => intro fuel _; cases fuel <;> rfl
  | cons c rest ih =>
    intro fuel hf
    have hc : (c = '`') = False :=
      eq_false (fun h => hs (h ▸ List.mem_cons_self c rest))
    have hrest : '`' ∉ rest := fun h => hs (List.mem_cons_of_mem c h)
    cases fuel with
    | zero => simp at hf
    | succ fuel =>
      simp only [extractICGo, hc, if_false]
      rw [ih hrest fuel (by simpa using Nat.le_of_succ_le_succ hf)]

theorem extractInlineCode_no_ticks {s : Str} (hs : '`' ∉ s) :
    extractInlineCode s = ([], s) :=
  extractICGo_no_ticks hs [] _ (Nat.le_refl _)

theorem nul_not_mem_append {a b : Str} (ha : '\x00' ∉ a) (hb : '\x00' ∉ b) :
    '\x00' ∉ a ++ b := fun h => (List.mem_append.mp h).elim ha hb

theorem tick_not_mem_append {a b : Str} (ha : '`' ∉ a) (hb : '`' ∉ b) :
    '`' ∉ a ++ b := fun h => (List.mem_append.mp h).elim ha hb

theorem tick_not_mem_cbPh : '`' ∉ cbPh := by decide

theorem escapeHtml_append (a b : Str) :
    escapeHtml (a ++ b) = escapeHtml a ++ escapeHtml b := by
  simp [escapeHtml]

theorem escapeHtml_cbPh : escapeHtml cbPh = cbPh := by decide

theorem escapeHtml_no_nul {s : Str} (hs : '\x00' ∉ s) : '\x00' ∉ escapeHtml s := by
  intro h
  obtain ⟨d, hd, hmem⟩ := List.mem_flatMap.mp h
  revert hmem
  split_ifs <;> intro hmem <;>
    first
      | exact absurd hmem (by decide)
      | exact hs (List.mem_singleton.mp hmem ▸ hd)

theorem escapeHtml_no_lt (s : Str) : '<' ∉ escapeHtml s := by
  intro h
  obtain ⟨d, _, hmem⟩ := List.mem_flatMap.mp h
  revert hmem
  split_ifs with h1 h2 h3 h4 h5 <;> intro hmem <;>
    first
      | exact absurd hmem (by decide)
      | exact h2 (List.mem_singleton.mp hmem).symm

theorem takeWhile_all {P : Char → Bool} {x : Str} (h : ∀ c ∈ x, P c = true) :
    x.takeWhile P = x := by
  have := takeWhile_append_all (P := P) [] h
  simpa using this

theorem emphSingleGo_no_nul (d : Char) {ot ct : Str}
    (hot : '\x00' ∉ ot) (hct : '\x00' ∉ ct) :
    ∀ fuel s, '\x00' ∉ s → '\x00' ∉ emphSingleGo d ot ct fuel s := by
  intro fuel
  induction fuel with
  | zero => intro s hs; cases s with
    | nil => simp [emphSingleGo]
    | cons c rest => exact hs
  | succ fuel ih =>
    intro s hs
    cases s with
    | nil => simp [emphSingleGo]
    | cons c rest =>
      have hrest : '\x00' ∉ rest := fun h => hs (List.mem_cons_of_mem c h)
      have hc : c ≠ '\x00' := fun h => hs (h ▸ List.mem_cons_self c rest)
      simp only [emphSingleGo]
      split
      · split
        · rename_i body e after hbody hdrop
          split
          · intro hmem
            have hafter : '\x00' ∉ after := by
              intro hx
              have hsub := List.drop_sublist (rest.takeWhile
                  (fun ch => decide (ch ≠ d))).length rest
              rw [hdrop] at hsub
              exact hrest (hsub.subset (List.mem_cons_of_mem e hx))
            simp only [List.mem_append] at hmem
            rcases hmem with ((h1 | h1) | h1) | h1
            · exact hot h1
            · exact hrest ((List.takeWhile_sublist
                (p := fun ch => decide (ch ≠ d))).subset h1)
            · exact hct h1
            · exact ih after hafter h1
          · intro hmem
            rcases List.mem_cons.mp hmem with h2 | h2
            · exact hc h2.symm
            · exact ih rest hrest h2
        · intro hmem
          rcases List.mem_cons.mp hmem with h2 | h2
          · exact hc h2.symm
          · exact ih rest hrest h2
      · intro hmem
        rcases List.mem_cons.mp hmem with h2 | h2
        · exact hc h2.symm
        · exact ih rest hrest h2

theorem emphSingleGo_cbPh {d : Char} (ot ct : Str) (hd : d ∉ cbPh) :
    ∀ fuel b, emphSingleGo d ot ct (fuel + 5) (cbPh ++ b)
      = cbPh ++ emphSingleGo d ot ct fuel b := by
  intro fuel b
  have h0 : ('\x00' = d) = False :=
    eq_false (fun h => hd (h ▸ (by decide : '\x00' ∈ cbPh)))
  have hC : ('C' = d) = False :=
    eq_false (fun h => hd (h ▸ (by decide : 'C' ∈ cbPh)))
  have hB : ('B' = d) = False :=
    eq_false (fun h => hd (h ▸ (by decide : 'B' ∈ cbPh)))
  have hz : ('0' = d) = False :=
    eq_false (fun h => hd (h ▸ (by decide : '0' ∈ cbPh)))
  show emphSingleGo d ot ct (fuel + 5)
      ('\x00' :: 'C' :: 'B' :: '0' :: '\x00' :: b)
    = cbPh ++ emphSingleGo d ot ct fuel b
  simp only [show fuel + 5 = (((fuel + 1) + 1) + 1) + 2 from rfl]
  simp only [emphSingleGo, h0, hC, hB, hz, if_false]
  rfl

theorem cbPh_length : cbPh.length = 5 := by decide

theorem takeWhile_ne_append_all {d : Char} {x : Str} (y : Str) (h : d ∉ x) :
    (x ++ y).takeWhile (fun ch => ch ≠ d) = x ++ y.takeWhile (fun ch => ch ≠ d) :=
  takeWhile_append_all y (fun c hc => decide_eq_true (fun he => h (he ▸ hc)))

theorem takeWhile_ne_stop {d : Char} {x : Str} (y : Str) (h : d ∉ x) :
    (x ++ d :: y).takeWhile (fun ch => ch ≠ d) = x := by
  rw [takeWhile_ne_append_all (d :: y) h, List.takeWhile_cons]
  simp

theorem takeWhile_ne_all {d : Char} {x : Str} (h : d ∉ x) :
    x.takeWhile (fun ch => ch ≠ d) = x :=
  takeWhile_all (fun c hc => decide_eq_true (fun he => h (he ▸ hc)))

theorem emphSingleGo_mid {d : Char} (ot ct : Str)
    (hd : d ∉ cbPh) (hot : '\x00' ∉ ot) (hct : '\x00' ∉ ct) :
    ∀ fuel a b, '\x00' ∉ a → '\x00' ∉ b → (a ++ cbPh ++ b).length ≤ fuel →
      ∃ a' b', emphSingleGo d ot ct fuel (a ++ cbPh ++ b) = a' ++ cbPh ++ b' ∧
        '\x00' ∉ a' ∧ '\x00' ∉ b' := by
  have hd0 : d ≠ '\x00' := fun h => hd (h ▸ (by decide : '\x00' ∈ cbPh))
  intro fuel
  induction fuel with
  | zero =>
    intro a b _ _ hf
    exfalso
    simp only [List.length_append, cbPh_length, Nat.le_zero] at hf
    omega
  | succ fuel ih =>
    intro a b ha hb hf
    cases a with
    | nil =>
      have hlen : b.length + 5 ≤ fuel + 1 := by
        simp only [List.length_append, cbPh_length, List.nil_append,
          List.length_nil] at hf
        omega
      obtain ⟨g, hg, hgb⟩ : ∃ g, fuel + 1 = g + 5 ∧ b.length ≤ g :=
        ⟨fuel - 4, by omega, by omega⟩
      rw [List.nil_append, hg, emphSingleGo_cbPh ot ct hd g b]
      exact ⟨[], emphSingleGo d ot ct g b, rfl, List.not_mem_nil _,
        emphSingleGo_no_nul d hot hct g b hb⟩
    | cons c a =>
      have hc : c ≠ '\x00' := fun h => ha (h ▸ List.mem_cons_self c a)
      have ha' : '\x00' ∉ a := fun h => ha (List.mem_cons_of_mem c h)
      have hlen' : a.length + b.length + 5 ≤ fuel := by
        simp only [List.length_append, cbPh_length, List.length_cons] at hf
        omega
      have hihab : (a ++ cbPh ++ b).length ≤ fuel := by
        simp only [List.length_append, cbPh_length]; omega
      by_cases hcd : c = d
      · have hdd : (c = d) = True := eq_true hcd
        by_cases hda : d ∈ a
        · obtain ⟨u, v, huv, hu⟩ := mem_split_first hda
          have hav : a.length = u.length + 1 + v.length := by
            rw [huv]; simp only [List.length_append, List.length_cons]; omega
          have hassoc : a ++ cbPh ++ b = u ++ d :: (v ++ cbPh ++ b) := by
            rw [huv]; simp
          have htw : (a ++ cbPh ++ b).takeWhile (fun ch => ch ≠ d) = u := by
            rw [hassoc, takeWhile_ne_stop _ hu]
          have hdrop : (a ++ cbPh ++ b).drop u.length = d :: (v ++ cbPh ++ b) := by
            rw [hassoc, List.drop_left]
          simp only [List.cons_append, emphSingleGo, hdd, if_true, List.append_eq]
          rw [htw, hdrop]
          cases u with
          | nil =>
            obtain ⟨a₂, b₂, heq, ha₂, hb₂⟩ := ih a b ha' hb hihab
            rw [heq]
            exact ⟨c :: a₂, b₂, rfl,
              fun h => (List.mem_cons.mp h).elim (fun h' => hc h'.symm) ha₂, hb₂⟩
          | cons u0 u1 =>
            have hvnul : '\x00' ∉ v := fun h => ha' (by
              rw [huv]
              exact List.mem_append.mpr (Or.inr (List.mem_cons_of_mem d h)))
            have hunul : '\x00' ∉ (u0 :: u1 : Str) := fun h => ha' (by
              rw [huv]
              exact List.mem_append.mpr (Or.inl h))
            obtain ⟨a₂, b₂, heq, ha₂, hb₂⟩ := ih v b hvnul hb (by
              simp only [List.length_append, cbPh_length]
              simp only [List.length_cons] at hav
              omega)
            have hdd2 : (d = d) = True := eq_true rfl
            simp only [hdd2, if_true]
            rw [heq]
            refine ⟨ot ++ (u0 :: u1) ++ ct ++ a₂, b₂, by simp, ?_, hb₂⟩
            intro h
            simp only [List.mem_append, List.mem_cons] at h
            rcases h with ((h1 | h1) | h1) | h1
            · exact hot h1
            · exact hunul (by simpa using h1)
            · exact hct h1
            · exact ha₂ h1
        · by_cases hdb : d ∈ b
          · obtain ⟨u, v, huv, hu⟩ := mem_split_first hdb
            have hbv : b.length = u.length + 1 + v.length := by
              rw [huv]; simp only [List.length_append, List.length_cons]; omega
            have hnotin : d ∉ a ++ cbPh ++ u := by
              intro h
              rcases List.mem_append.mp h with h1 | h1
              · rcases List.mem_append.mp h1 with h2 | h2
                · exact hda h2
                · exact hd h2
              · exact hu h1
            have hassoc : a ++ cbPh ++ b = (a ++ cbPh ++ u) ++ d :: v := by
              rw [huv]; simp
            have htw : (a ++ cbPh ++ b).takeWhile (fun ch => ch ≠ d)
                = a ++ cbPh ++ u := by
              rw [hassoc, takeWhile_ne_stop _ hnotin]
            have hdrop : (a ++ cbPh ++ b).drop (a ++ cbPh ++ u).length = d :: v := by
              rw [hassoc, List.drop_left]
            have hvnul : '\x00' ∉ v := fun h => hb (by
              rw [huv]
              exact List.mem_append.mpr (Or.inr (List.mem_cons_of_mem d h)))
            have hunul : '\x00' ∉ u := fun h => hb (by
              rw [huv]
              exact List.mem_append.mpr (Or.inl h))
            obtain ⟨bh, bt, hbt⟩ : ∃ bh bt, a ++ cbPh ++ u = bh :: bt := by
              cases hcase : a ++ cbPh ++ u with
              | nil =>
                exfalso
                have := congrArg List.length hcase
                simp only [List.length_append, cbPh_length, List.length_nil] at this
                omega
              | cons x xs => exact ⟨x, xs, rfl⟩
            simp only [List.cons_append, emphSingleGo, hdd, if_true, List.append_eq]
            rw [htw, hdrop, hbt]
            have hdd2 : (d = d) = True := eq_true rfl
            simp only [hdd2, if_true]
            rw [← hbt]
            refine ⟨ot ++ a, u ++ ct ++ emphSingleGo d ot ct fuel v, by simp, ?_, ?_⟩
            · exact nul_not_mem_append hot ha'
            · exact nul_not_mem_append (nul_not_mem_append hunul hct)
                (emphSingleGo_no_nul d hot hct fuel v hvnul)
          · have hnotin : d ∉ a ++ cbPh ++ b := by
              intro h
              rcases List.mem_append.mp h with h1 | h1
              · rcases List.mem_append.mp h1 with h2 | h2
                · exact hda h2
                · exact hd h2
              · exact hdb h1
            have htw : (a ++ cbPh ++ b).takeWhile (fun ch => ch ≠ d)
                = a ++ cbPh ++ b := takeWhile_ne_all hnotin
            obtain ⟨bh, bt, hbt⟩ : ∃ bh bt, a ++ cbPh ++ b = bh :: bt := by
              cases hcase : a ++ cbPh ++ b with
              | nil =>
                exfalso
                have := congrArg List.length hcase
                simp only [List.length_append, cbPh_length, List.length_nil] at this
                omega
              | cons x xs => exact ⟨x, xs, rfl⟩
            obtain ⟨a₂, b₂, heq, ha₂, hb₂⟩ := ih a b ha' hb hihab
            rw [hbt] at heq
            simp only [List.cons_append, emphSingleGo, hdd, if_true, List.append_eq]
            rw [htw, List.drop_length, hbt, heq]
            exact ⟨c :: a₂, b₂, rfl,
              fun h => (List.mem_cons.mp h).elim (fun h' => hc h'.symm) ha₂, hb₂⟩
      · have hdd : (c = d) = False := eq_false hcd
        simp only [List.cons_append, emphSingleGo, hdd, if_false, List.append_eq]
        obtain ⟨a₂, b₂, heq, ha₂, hb₂⟩ := ih a b ha' hb hihab
        rw [heq]
        exact ⟨c :: a₂, b₂, rfl,
          fun h => (List.mem_cons.mp h).elim (fun h' => hc h'.symm) ha₂, hb₂⟩

theorem emphDoubleGo_no_nul (d : Char) {ot ct : Str}
    (hot : '\x00' ∉ ot) (hct : '\x00' ∉ ct) :
    ∀ fuel s, '\x00' ∉ s → '\x00' ∉ emphDoubleGo d ot ct fuel s := by
  intro fuel
  induction fuel with
  | zero => intro s hs; cases s with
    | nil => simp [emphDoubleGo]
    | cons c rest => exact hs
  | succ fuel ih =>
    intro s hs
    cases s with
    | nil => simp [emphDoubleGo]
    | cons c rest =>
      have hrest : '\x00' ∉ rest := fun h => hs (List.mem_cons_of_mem c h)
      have hc : c ≠ '\x00' := fun h => hs (h ▸ List.mem_cons_self c rest)
      have hstep : '\x00' ∉ c :: emphDoubleGo d ot ct fuel rest := by
        intro hmem
        rcases List.mem_cons.mp hmem with h2 | h2
        · exact hc h2.symm
        · exact ih rest hrest h2
      cases rest with
      | nil =>
        simp only [emphDoubleGo]
        split <;> intro hmem <;> rcases List.mem_cons.mp hmem with h2 | h2 <;>
          first
            | exact hc h2.symm
            | exact List.not_mem_nil _ h2
            | exact ih [] (List.not_mem_nil _) h2
      | cons c₂ rest₂ =>
        have hrest₂ : '\x00' ∉ rest₂ := fun h => hrest (List.mem_cons_of_mem c₂ h)
        simp only [emphDoubleGo]
        split
        · split
          · split
            · rename_i body rst e₁ e₂ after hbody hdrop
              split
              · intro hmem
                have hafter : '\x00' ∉ after := by
                  intro hx
                  have hsub := List.drop_sublist (rest₂.takeWhile
                      (fun ch => ch ≠ d)).length rest₂
                  rw [hdrop] at hsub
                  exact hrest₂ (hsub.subset (List.mem_cons_of_mem e₁
                    (List.mem_cons_of_mem e₂ hx)))
                simp only [List.mem_append] at hmem
                rcases hmem with ((h1 | h1) | h1) | h1
                · exact hot h1
                · exact hrest₂ ((List.takeWhile_sublist
                    (p := fun ch => decide (ch ≠ d))).subset h1)
                · exact hct h1
                · exact ih after hafter h1
              · exact hstep
            · exact hstep
          · exact hstep
        · exact hstep

theorem emphDoubleGo_cbPh {d : Char} (ot ct : Str) (hd : d ∉ cbPh) :
    ∀ fuel b, emphDoubleGo d ot ct (fuel + 5) (cbPh ++ b)
      = cbPh ++ emphDoubleGo d ot ct fuel b := by
  intro fuel b
  have h0 : ('\x00' = d) = False :=
    eq_false (fun h => hd (h ▸ (by decide : '\x00' ∈ cbPh)))
  have hC : ('C' = d) = False :=
    eq_false (fun h => hd (h ▸ (by decide : 'C' ∈ cbPh)))
  have hB : ('B' = d) = False :=
    eq_false (fun h => hd (h ▸ (by decide : 'B' ∈ cbPh)))
  have hz : ('0' = d) = False :=
    eq_false (fun h => hd (h ▸ (by decide : '0' ∈ cbPh)))
  show emphDoubleGo d ot ct (fuel + 5)
      ('\x00' :: 'C' :: 'B' :: '0' :: '\x00' :: b)
    = cbPh ++ emphDoubleGo d ot ct fuel b
  simp only [show fuel + 5 = (((fuel + 1) + 1) + 1) + 2 from rfl]
  simp only [emphDoubleGo, h0, hC, hB, hz, if_false]
  rfl

theorem emphDoubleGo_mid {d : Char} (ot ct : Str)
    (hd : d ∉ cbPh) (hot : '\x00' ∉ ot) (hct : '\x00' ∉ ct) :
    ∀ fuel a b, '\x00' ∉ a → '\x00' ∉ b → (a ++ cbPh ++ b).length ≤ fuel →
      ∃ a' b', emphDoubleGo d ot ct fuel (a ++ cbPh ++ b) = a' ++ cbPh ++ b' ∧
        '\x00' ∉ a' ∧ '\x00' ∉ b' := by
  have hd0 : d ≠ '\x00' := fun h => hd (h ▸ (by decide : '\x00' ∈ cbPh))
  intro fuel
  induction fuel with
  | zero =>
    intro a b _ _ hf
    exfalso
    simp only [List.length_append, cbPh_length, Nat.le_zero] at hf
    omega
  | succ fuel ih =>
    intro a b ha hb hf
    cases a with
    | nil =>
      have hlen : b.length + 5 ≤ fuel + 1 := by
        simp only [List.length_append, cbPh_length, List.nil_append,
          List.length_nil] at hf
        omega
      obtain ⟨g, hg, hgb⟩ : ∃ g, fuel + 1 = g + 5 ∧ b.length ≤ g :=
        ⟨fuel - 4, by omega, by omega⟩
      rw [List.nil_append, hg, emphDoubleGo_cbPh ot ct hd g b]
      exact ⟨[], emphDoubleGo d ot ct g b, rfl, List.not_mem_nil _,
        emphDoubleGo_no_nul d hot hct g b hb⟩
    | cons c a =>
      have hc : c ≠ '\x00' := fun h => ha (h ▸ List.mem_cons_self c a)
      have ha' : '\x00' ∉ a := fun h => ha (List.mem_cons_of_mem c h)
      have hihab : (a ++ cbPh ++ b).length ≤ fuel := by
        simp only [List.length_append, cbPh_length, List.length_cons] at hf ⊢
        omega
      have hconscl : ∀ a₂ b₂ : Str,
          emphDoubleGo d ot ct fuel (a ++ cbPh ++ b) = a₂ ++ cbPh ++ b₂ →
          '\x00' ∉ a₂ → '\x00' ∉ b₂ →
          ∃ a' b', c :: emphDoubleGo d ot ct fuel (a ++ cbPh ++ b)
              = a' ++ cbPh ++ b' ∧ '\x00' ∉ a' ∧ '\x00' ∉ b' := by
        intro a₂ b₂ heq ha₂ hb₂
        rw [heq]
        exact ⟨c :: a₂, b₂, rfl,
          fun h => (List.mem_cons.mp h).elim (fun h' => hc h'.symm) ha₂, hb₂⟩
      by_cases hcd : c = d
      · have hdd : (c = d) = True := eq_true hcd
        cases a with
        | nil =>
          rw [cbPh_eq]
          simp only [List.cons_append, List.nil_append, emphDoubleGo, hdd, if_true,
            List.append_eq]
          have h0 : ('\x00' = d) = False := eq_false (fun h => hd0 h.symm)
          simp only [h0, if_false]
          obtain ⟨a₂, b₂, heq, ha₂, hb₂⟩ := ih [] b (List.not_mem_nil _) hb (by
            simp only [List.length_append, cbPh_length, List.nil_append]
            simp only [List.length_cons, List.nil_append, List.length_append,
              cbPh_length, List.length_nil] at hf
            omega)
          rw [List.nil_append, cbPh_eq] at heq
          simp only [List.cons_append, List.nil_append] at heq ⊢
          rw [heq]
          exact ⟨c :: a₂, b₂, rfl,
            fun h => (List.mem_cons.mp h).elim (fun h' => hc h'.symm) ha₂, hb₂⟩
        | cons c₂ a₂ =>
          have hc₂ : c₂ ≠ '\x00' := fun h => ha' (h ▸ List.mem_cons_self c₂ a₂)
          have ha₂' : '\x00' ∉ a₂ := fun h => ha' (List.mem_cons_of_mem c₂ h)
          have hihab2 : ((c₂ :: a₂ : Str) ++ cbPh ++ b).length ≤ fuel := hihab
          have hcons2 : ∀ a₃ b₃ : Str,
              emphDoubleGo d ot ct fuel ((c₂ :: a₂ : Str) ++ cbPh ++ b)
                  = a₃ ++ cbPh ++ b₃ →
              '\x00' ∉ a₃ → '\x00' ∉ b₃ →
              ∃ a' b', c :: emphDoubleGo d ot ct fuel
                  (c₂ :: (a₂ ++ cbPh ++ b)) = a' ++ cbPh ++ b' ∧
                '\x00' ∉ a' ∧ '\x00' ∉ b' := by
            intro a₃ b₃ heq ha₃ hb₃
            simp only [List.cons_append] at heq
            rw [heq]
            exact ⟨c :: a₃, b₃, rfl,
              fun h => (List.mem_cons.mp h).elim (fun h' => hc h'.symm) ha₃, hb₃⟩
          by_cases hc2d : c₂ = d
          · have hdd2 : (c₂ = d) = True := eq_true hc2d
            by_cases hda : d ∈ a₂
            · obtain ⟨u, v, huv, hu⟩ := mem_split_first hda
              have hav : a₂.length = u.length + 1 + v.length := by
                rw [huv]; simp only [List.length_append, List.length_cons]; omega
              have hassoc : a₂ ++ cbPh ++ b = u ++ d :: (v ++ cbPh ++ b) := by
                rw [huv]; simp
              have htw : (a₂ ++ cbPh ++ b).takeWhile (fun ch => ch ≠ d) = u := by
                rw [hassoc, takeWhile_ne_stop _ hu]
              have hdrop : (a₂ ++ cbPh ++ b).drop u.length
                  = d :: (v ++ cbPh ++ b) := by
                rw [hassoc, List.drop_left]
              simp only [List.cons_append, emphDoubleGo, hdd, hdd2, if_true,
                List.append_eq]
              rw [htw, hdrop]
              cases u with
              | nil =>
                obtain ⟨a₃, b₃, heq, ha₃, hb₃⟩ := ih (c₂ :: a₂) b ha' hb hihab2
                exact hcons2 a₃ b₃ heq ha₃ hb₃
              | cons u0 u1 =>
                have hunul : '\x00' ∉ (u0 :: u1 : Str) := fun h => ha₂' (by
                  rw [huv]; exact List.mem_append.mpr (Or.inl h))
                have hvnul : '\x00' ∉ v := fun h => ha₂' (by
                  rw [huv]
                  exact List.mem_append.mpr (Or.inr (List.mem_cons_of_mem d h)))
                cases v with
                | nil =>
                  rw [List.nil_append, cbPh_eq]
                  split
                  · rename_i harm1 harm
                    injection harm with he1 harm2
                    injection harm2 with he2 hafter
                    subst he1
                    subst he2
                    subst hafter
                    split
                    · rename_i hift
                      rw [Bool.and_eq_true] at hift
                      exact (hd0 (of_decide_eq_true hift.2).symm).elim
                    · obtain ⟨a₃, b₃, heq, ha₃, hb₃⟩ := ih (c₂ :: a₂) b ha' hb hihab2
                      exact hcons2 a₃ b₃ heq ha₃ hb₃
                  · obtain ⟨a₃, b₃, heq, ha₃, hb₃⟩ := ih (c₂ :: a₂) b ha' hb hihab2
                    exact hcons2 a₃ b₃ heq ha₃ hb₃
                | cons v0 v1 =>
                  simp only [List.cons_append]
                  split
                  · obtain ⟨a₃, b₃, heq, ha₃, hb₃⟩ := ih v1 b (fun h =>
                      hvnul (List.mem_cons_of_mem v0 h)) hb (by
                        simp only [List.length_append, cbPh_length,
                          List.length_cons] at hf hav ⊢
                        omega)
                    rw [heq]
                    refine ⟨ot ++ (u0 :: u1) ++ ct ++ a₃, b₃, by simp, ?_, hb₃⟩
                    intro h
                    simp only [List.mem_append, List.mem_cons] at h
                    rcases h with ((h1 | h1) | h1) | h1
                    · exact hot h1
                    · exact hunul (by simpa using h1)
                    · exact hct h1
                    · exact ha₃ h1
                  · obtain ⟨a₃, b₃, heq, ha₃, hb₃⟩ := ih (c₂ :: a₂) b ha' hb hihab2
                    exact hcons2 a₃ b₃ heq ha₃ hb₃
            · by_cases hdb : d ∈ b
              · obtain ⟨u, v, huv, hu⟩ := mem_split_first hdb
                have hbv : b.length = u.length + 1 + v.length := by
                  rw [huv]; simp only [List.length_append, List.length_cons]; omega
                have hnotin : d ∉ a₂ ++ cbPh ++ u := by
                  intro h
                  rcases List.mem_append.mp h with h1 | h1
                  · rcases List.mem_append.mp h1 with h2 | h2
                    · exact hda h2
                    · exact hd h2
                  · exact hu h1
                have hassoc : a₂ ++ cbPh ++ b = (a₂ ++ cbPh ++ u) ++ d :: v := by
                  rw [huv]; simp
                have htw : (a₂ ++ cbPh ++ b).takeWhile (fun ch => ch ≠ d)
                    = a₂ ++ cbPh ++ u := by
                  rw [hassoc, takeWhile_ne_stop _ hnotin]
                have hdrop : (a₂ ++ cbPh ++ b).drop (a₂ ++ cbPh ++ u).length
                    = d :: v := by
                  rw [hassoc, List.drop_left]
                have hvnul : '\x00' ∉ v := fun h => hb (by
                  rw [huv]
                  exact List.mem_append.mpr (Or.inr (List.mem_cons_of_mem d h)))
                have hunul : '\x00' ∉ u := fun h => hb (by
                  rw [huv]
                  exact List.mem_append.mpr (Or.inl h))
                obtain ⟨bh, bt, hbt⟩ : ∃ bh bt, a₂ ++ cbPh ++ u = bh :: bt := by
                  cases hcase : a₂ ++ cbPh ++ u with
                  | nil =>
                    exfalso
                    have := congrArg List.length hcase
                    simp only [List.length_append, cbPh_length,
                      List.length_nil] at this
                    omega
                  | cons x xs => exact ⟨x, xs, rfl⟩
                simp only [List.cons_append, emphDoubleGo, hdd, hdd2, if_true,
                  List.append_eq]
                rw [htw, hdrop, hbt]
                cases v with
                | nil =>
                  obtain ⟨a₃, b₃, heq, ha₃, hb₃⟩ := ih (c₂ :: a₂) b ha' hb hihab2
                  exact hcons2 a₃ b₃ heq ha₃ hb₃
                | cons v0 v1 =>
                  show ∃ a' b',
                      (if (decide (d = d) && decide (v0 = d)) = true then
                          ot ++ bh :: bt ++ ct ++ emphDoubleGo d ot ct fuel v1
                        else c :: emphDoubleGo d ot ct fuel (c₂ :: (a₂ ++ cbPh ++ b)))
                        = a' ++ cbPh ++ b' ∧ '\x00' ∉ a' ∧ '\x00' ∉ b'
                  split
                  · rw [← hbt]
                    refine ⟨ot ++ a₂, u ++ ct ++ emphDoubleGo d ot ct fuel v1,
                      by simp, nul_not_mem_append hot ha₂', ?_⟩
                    exact nul_not_mem_append (nul_not_mem_append hunul hct)
                      (emphDoubleGo_no_nul d hot hct fuel v1 (fun h =>
                        hvnul (List.mem_cons_of_mem v0 h)))
                  · obtain ⟨a₃, b₃, heq, ha₃, hb₃⟩ := ih (c₂ :: a₂) b ha' hb hihab2
                    exact hcons2 a₃ b₃ heq ha₃ hb₃
              · have hnotin : d ∉ a₂ ++ cbPh ++ b := by
                  intro h
                  rcases List.mem_append.mp h with h1 | h1
                  · rcases List.mem_append.mp h1 with h2 | h2
                    · exact hda h2
                    · exact hd h2
                  · exact hdb h1
                have htw : (a₂ ++ cbPh ++ b).takeWhile (fun ch => ch ≠ d)
                    = a₂ ++ cbPh ++ b := takeWhile_ne_all hnotin
                obtain ⟨bh, bt, hbt⟩ : ∃ bh bt, a₂ ++ cbPh ++ b = bh :: bt := by
                  cases hcase : a₂ ++ cbPh ++ b with
                  | nil =>
                    exfalso
                    have := congrArg List.length hcase
                    simp only [List.length_append, cbPh_length,
                      List.length_nil] at this
                    omega
                  | cons x xs => exact ⟨x, xs, rfl⟩
                obtain ⟨a₃, b₃, heq, ha₃, hb₃⟩ := ih (c₂ :: a₂) b ha' hb hihab2
                simp only [List.cons_append] at heq
                rw [hbt] at heq
                simp only [List.cons_append, emphDoubleGo, hdd, hdd2, if_true,
                  List.append_eq]
                rw [htw, List.drop_length, hbt, heq]
                exact ⟨c :: a₃, b₃, rfl,
                  fun h => (List.mem_cons.mp h).elim (fun h' => hc h'.symm) ha₃,
                  hb₃⟩
          · have hdd2 : (c₂ = d) = False := eq_false hc2d
            simp only [List.cons_append, emphDoubleGo, hdd, hdd2, if_true,
              if_false, List.append_eq]
            obtain ⟨a₃, b₃, heq, ha₃, hb₃⟩ := ih (c₂ :: a₂) b ha' hb hihab2
            exact hcons2 a₃ b₃ heq ha₃ hb₃
      · have hdd : (c = d) = False := eq_false hcd
        simp only [List.cons_append, emphDoubleGo, hdd, if_false, List.append_eq]
        obtain ⟨a₂, b₂, heq, ha₂, hb₂⟩ := ih a b ha' hb hihab
        exact hconscl a₂ b₂ heq ha₂ hb₂

theorem intercalate_single (sep x : Str) : List.intercalate sep [x] = x := by
  simp [List.intercalate]

theorem intercalate_cons_cons (sep x y : Str) (t : List Str) :
    List.intercalate sep (x :: y :: t) = x ++ sep ++ List.intercalate sep (y :: t) := by
  simp [List.intercalate, List.intersperse]

theorem splitNl_append_no_nl {x : Str} (b : Str) (hx : '\n' ∉ x) :
    splitNl (x ++ b) = (x ++ (splitNl b).headD []) :: (splitNl b).tail := by
  induction x with
  | nil =>
    simp only [List.nil_append, splitNl]
    cases h : b.splitOn '\n' with
    | nil => exact absurd h (List.splitOnP_ne_nil _ b)
    | cons hd tl => rfl
  | cons c x ih =>
    have hc : (c == '\n') = false := by
      simp only [beq_eq_false_iff_ne, ne_eq]
      exact fun h => hx (h ▸ List.mem_cons_self c x)
    have hx' : '\n' ∉ x := fun h => hx (List.mem_cons_of_mem c h)
    show (c :: (x ++ b)).splitOn '\n' = _
    rw [List.splitOn, List.splitOnP_cons, hc]
    simp only [Bool.false_eq_true, if_false]
    have := ih hx'
    rw [splitNl] at this
    rw [show (x ++ b).splitOn '\n' = List.splitOnP (· == '\n') (x ++ b) from rfl] at this
    rw [show List.splitOnP (fun a => a == '\n') (x ++ b)
        = (x ++ (splitNl b).headD []) :: (splitNl b).tail from this]
    rfl

theorem splitNl_nul_free {b : Str} (hb : '\x00' ∉ b) :
    ∀ l ∈ splitNl b, '\x00' ∉ l := by
  induction b with
  | nil =>
    intro l hl
    simp only [splitNl, List.splitOn_nil] at hl
    rcases List.mem_singleton.mp hl with rfl
    exact List.not_mem_nil _
  | cons c b ih =>
    have hc : c ≠ '\x00' := fun h => hb (h ▸ List.mem_cons_self c b)
    have hb' : '\x00' ∉ b := fun h => hb (List.mem_cons_of_mem c h)
    intro l hl
    rw [show splitNl (c :: b) = List.splitOnP (· == '\n') (c :: b) from rfl,
      List.splitOnP_cons] at hl
    by_cases hcn : (c == '\n') = true
    · rw [if_pos hcn] at hl
      rcases List.mem_cons.mp hl with rfl | h
      · exact List.not_mem_nil _
      · exact ih hb' l h
    · rw [if_neg hcn] at hl
      cases hsp : List.splitOnP (fun a => a == '\n') b with
      | nil => exact absurd hsp (List.splitOnP_ne_nil _ b)
      | cons hd tl =>
        rw [hsp, List.modifyHead_cons] at hl
        rcases List.mem_cons.mp hl with rfl | h
        · intro hmem
          rcases List.mem_cons.mp hmem with h1 | h1
          · exact hc h1.symm
          · exact ih hb' hd (by rw [show splitNl b = List.splitOnP
              (· == '\n') b from rfl, hsp]; exact List.mem_cons_self hd tl) h1
        · exact ih hb' l (by rw [show splitNl b = List.splitOnP
            (· == '\n') b from rfl, hsp]; exact List.mem_cons_of_mem hd h)

theorem splitNl_mid (a b : Str) (ha : '\x00' ∉ a) (hb : '\x00' ∉ b) :
    ∃ L₁ la lb L₂, splitNl (a ++ cbPh ++ b) = L₁ ++ (la ++ cbPh ++ lb) :: L₂ ∧
      (∀ l ∈ L₁, '\x00' ∉ l) ∧ '\x00' ∉ la ∧ '\x00' ∉ lb ∧
      (∀ l ∈ L₂, '\x00' ∉ l) := by
  induction a with
  | nil =>
    rw [List.nil_append]
    have hnl : '\n' ∉ cbPh := by decide
    have : cbPh ++ b = cbPh ++ b := rfl
    rw [show (cbPh ++ b : Str) = cbPh ++ b from rfl, splitNl_append_no_nl b hnl]
    refine ⟨[], [], (splitNl b).headD [], (splitNl b).tail, by simp, by simp, ?_, ?_, ?_⟩
    · exact List.not_mem_nil _
    · cases hsp : splitNl b with
      | nil => exact absurd hsp (List.splitOnP_ne_nil _ b)
      | cons hd tl =>
        simp only [List.headD_cons]
        exact splitNl_nul_free hb hd (hsp ▸ List.mem_cons_self hd tl)
    · intro l hl
      cases hsp : splitNl b with
      | nil => exact absurd hsp (List.splitOnP_ne_nil _ b)
      | cons hd tl =>
        rw [hsp] at hl
        exact splitNl_nul_free hb l (hsp ▸ List.mem_cons_of_mem hd hl)
  | cons c a ih =>
    have hc : c ≠ '\x00' := fun h => ha (h ▸ List.mem_cons_self c a)
    have ha' : '\x00' ∉ a := fun h => ha (List.mem_cons_of_mem c h)
    obtain ⟨L₁, la, lb, L₂, heq, hL₁, hla, hlb, hL₂⟩ := ih ha'
    by_cases hcn : c = '\n'
    · subst hcn
      refine ⟨[] :: L₁, la, lb, L₂, ?_, ?_, hla, hlb, hL₂⟩
      · show (('\n' :: (a ++ cbPh ++ b)).splitOn '\n') = _
        rw [List.splitOn, List.splitOnP_cons]
        simp only [beq_self_eq_true, if_true]
        rw [show List.splitOnP (fun a => a == '\n') (a ++ cbPh ++ b)
            = splitNl (a ++ cbPh ++ b) from rfl, heq]
        rfl
      · intro l hl
        rcases List.mem_cons.mp hl with rfl | h
        · exact List.not_mem_nil _
        · exact hL₁ l h
    · have hcb : (c == '\n') = false := by
        simp only [beq_eq_false_iff_ne, ne_eq]; exact hcn
      have hstep : splitNl (c :: a ++ cbPh ++ b)
          = (splitNl (a ++ cbPh ++ b)).modifyHead (c :: ·) := by
        show ((c :: (a ++ cbPh ++ b)).splitOn '\n') = _
        rw [List.splitOn, List.splitOnP_cons, hcb]
        simp only [Bool.false_eq_true, if_false]
        rfl
      rw [hstep, heq]
      cases L₁ with
      | nil =>
        refine ⟨[], c :: la, lb, L₂, ?_, fun l hl => (List.not_mem_nil l hl).elim,
          ?_, hlb, hL₂⟩
        · simp
        · intro h
          rcases List.mem_cons.mp h with h1 | h1
          · exact hc h1.symm
          · exact hla h1
      | cons l₀ L₁' =>
        refine ⟨(c :: l₀) :: L₁', la, lb, L₂, by simp, ?_, hla, hlb, hL₂⟩
        intro l hl
        rcases List.mem_cons.mp hl with rfl | h
        · intro h
          rcases List.mem_cons.mp h with h1 | h1
          · exact hc h1.symm
          · exact hL₁ l₀ (List.mem_cons_self l₀ L₁') h1
        · exact hL₁ l (List.mem_cons_of_mem l₀ h)

theorem drop_append_le {x : Str} (y : Str) {n : Nat} (h : n ≤ x.length) :
    (x ++ y).drop n = x.drop n ++ y := by
  conv_lhs => rw [← List.take_append_drop n x, List.append_assoc]
  rw [List.drop_left' (List.length_take_of_le h)]

theorem isPrefixOf_nul_le {p x y : Str} (hnul : '\x00' ∉ p)
    (h : p.isPrefixOf (x ++ '\x00' :: y) = true) : p.length ≤ x.length := by
  by_contra hlt
  push_neg at hlt
  obtain ⟨t, ht⟩ := List.isPrefixOf_iff_prefix.mp h
  have h1 : (x ++ '\x00' :: y)[x.length]? = some '\x00' := by
    rw [List.getElem?_append_right (Nat.le_refl _)]
    simp
  rw [← ht, List.getElem?_append_left (by omega)] at h1
  exact hnul (List.getElem?_mem h1)

theorem intercalate_nl_no_nul {L : List Str} (h : ∀ l ∈ L, '\x00' ∉ l) :
    '\x00' ∉ List.intercalate ['\n'] L := by
  induction L with
  | nil => simp [List.intercalate]
  | cons x t ih =>
    cases t with
    | nil => rw [intercalate_single]; exact h x (List.mem_cons_self x [])
    | cons y t' =>
      rw [intercalate_cons_cons]
      intro hmem
      simp only [List.mem_append, List.mem_cons] at hmem
      rcases hmem with (h1 | h1) | h1
      · exact h x (List.mem_cons_self x _) h1
      · exact absurd h1.symm (by decide)
      · exact ih (fun l hl => h l (List.mem_cons_of_mem x hl))
          (by simpa using h1)

theorem intercalate_nl_mid (la lb : Str) (L₂ : List Str)
    (hla : '\x00' ∉ la) (hlb : '\x00' ∉ lb)
    (hL₂ : ∀ l ∈ L₂, '\x00' ∉ l) :
    ∀ L₁ : List Str, (∀ l ∈ L₁, '\x00' ∉ l) →
    ∃ a' b', List.intercalate ['\n'] (L₁ ++ (la ++ cbPh ++ lb) :: L₂)
        = a' ++ cbPh ++ b' ∧ '\x00' ∉ a' ∧ '\x00' ∉ b' := by
  intro L₁
  induction L₁ with
  | nil =>
    intro _
    rw [List.nil_append]
    cases L₂ with
    | nil =>
      rw [intercalate_single]
      exact ⟨la, lb, rfl, hla, hlb⟩
    | cons y t =>
      rw [intercalate_cons_cons]
      refine ⟨la, lb ++ '\n' :: List.intercalate ['\n'] (y :: t), by simp, hla, ?_⟩
      intro hmem
      simp only [List.mem_append, List.mem_cons] at hmem
      rcases hmem with h1 | h1 | h1
      · exact hlb h1
      · exact absurd h1.symm (by decide)
      · exact intercalate_nl_no_nul hL₂ (by simpa using h1)
  | cons x L₁' ih =>
    intro hL₁
    obtain ⟨a₂, b₂, hic, ha₂, hb₂⟩ := ih (fun l hl => hL₁ l (List.mem_cons_of_mem x hl))
    cases hsp : L₁' ++ (la ++ cbPh ++ lb) :: L₂ with
    | nil => exact absurd hsp (List.append_ne_nil_of_right_ne_nil L₁' (by simp))
    | cons w ws =>
      rw [List.cons_append, hsp, intercalate_cons_cons]
      rw [hsp] at hic
      rw [hic]
      refine ⟨x ++ '\n' :: a₂, b₂, by simp, ?_, hb₂⟩
      intro hmem
      simp only [List.mem_append, List.mem_cons] at hmem
      rcases hmem with h1 | h1 | h1
      · exact hL₁ x (List.mem_cons_self x _) h1
      · exact absurd h1.symm (by decide)
      · exact ha₂ h1

theorem mapLines_mid (f : Str → Str)
    (hmid : ∀ la lb, '\x00' ∉ la → '\x00' ∉ lb →
      ∃ la' lb', f (la ++ cbPh ++ lb) = la' ++ cbPh ++ lb' ∧
        '\x00' ∉ la' ∧ '\x00' ∉ lb')
    (hnf : ∀ l, '\x00' ∉ l → '\x00' ∉ f l)
    (a b : Str) (ha : '\x00' ∉ a) (hb : '\x00' ∉ b) :
    ∃ a' b', mapLines f (a ++ cbPh ++ b) = a' ++ cbPh ++ b' ∧
      '\x00' ∉ a' ∧ '\x00' ∉ b' := by
  obtain ⟨L₁, la, lb, L₂, heq, hL₁, hla, hlb, hL₂⟩ := splitNl_mid a b ha hb
  unfold mapLines
  rw [heq, List.map_append, List.map_cons]
  obtain ⟨la', lb', hf, hla', hlb'⟩ := hmid la lb hla hlb
  rw [hf]
  exact intercalate_nl_mid la' lb' (L₂.map f) hla' hlb'
    (fun l hl => by
      obtain ⟨l₀, hl₀, rfl⟩ := List.mem_map.mp hl
      exact hnf l₀ (hL₂ l₀ hl₀))
    (L₁.map f)
    (fun l hl => by
      obtain ⟨l₀, hl₀, rfl⟩ := List.mem_map.mp hl
      exact hnf l₀ (hL₁ l₀ hl₀))

theorem headerLine_no_nul (marker ot ct : Str)
    (hot : '\x00' ∉ ot) (hct : '\x00' ∉ ct) {line : Str} (hline : '\x00' ∉ line) :
    '\x00' ∉ headerLine marker ot ct line := by
  unfold headerLine
  split
  · intro hmem
    simp only [List.mem_append] at hmem
    rcases hmem with (h1 | h1) | h1
    · exact hot h1
    · exact hline ((List.drop_sublist _ _).subset h1)
    · exact hct h1
  · exact hline

theorem headerLine_mid (marker ot ct la lb : Str)
    (hm : '\x00' ∉ marker) (hot : '\x00' ∉ ot) (hct : '\x00' ∉ ct)
    (hla : '\x00' ∉ la) (hlb : '\x00' ∉ lb) :
    ∃ la' lb', headerLine marker ot ct (la ++ cbPh ++ lb) = la' ++ cbPh ++ lb' ∧
      '\x00' ∉ la' ∧ '\x00' ∉ lb' := by
  unfold headerLine
  split
  · rename_i hcond
    rw [Bool.and_eq_true] at hcond
    have hpre := hcond.1
    have hle : marker.length ≤ la.length := by
      have hshape : la ++ cbPh ++ lb
          = la ++ '\x00' :: ('C' :: 'B' :: '0' :: '\x00' :: lb) := by
        rw [cbPh_eq]; simp
      exact isPrefixOf_nul_le hm (by rw [← hshape]; exact hpre)
    have hdrop : (la ++ cbPh ++ lb).drop marker.length
        = la.drop marker.length ++ cbPh ++ lb := by
      rw [List.append_assoc, drop_append_le _ hle, List.append_assoc]
    rw [hdrop]
    refine ⟨ot ++ la.drop marker.length, lb ++ ct, by simp, ?_, ?_⟩
    · intro hmem
      rcases List.mem_append.mp hmem with h1 | h1
      · exact hot h1
      · exact hla ((List.drop_sublist _ _).subset h1)
    · exact nul_not_mem_append hlb hct
  · exact ⟨la, lb, rfl, hla, hlb⟩

theorem processListsGo_cons (line : Str) (rest : List Str) (stack : List Nat)
    (res : List Str) :
    processListsGo (line :: rest) stack res
      = match listItemMatch line with
        | some (indentLen, content) =>
          processListsGo rest
            (match (closeDeeper (indentLen / 2) stack).1 with
              | [] => (indentLen / 2) :: (closeDeeper (indentLen / 2) stack).1
              | t :: _ =>
                if t < indentLen / 2 then
                  (indentLen / 2) :: (closeDeeper (indentLen / 2) stack).1
                else (closeDeeper (indentLen / 2) stack).1)
            (res ++ (closeDeeper (indentLen / 2) stack).2 ++
              (match (closeDeeper (indentLen / 2) stack).1 with
                | [] => [cs "<ul>"]
                | t :: _ =>
                  if t < indentLen / 2 then [cs "<ul>"] else []) ++
              [cs "<li>" ++ content ++ cs "</li>"])
        | none =>
          processListsGo rest []
            (res ++ stack.map (fun _ => cs "</ul>") ++ [line]) := by
  show (match listItemMatch line with
    | some (indentLen, content) =>
      let level := indentLen / 2
      let p := closeDeeper level stack
      let q : List Nat × List Str :=
        match p.1 with
        | [] => (level :: p.1, [cs "<ul>"])
        | t :: _ => if t < level then (level :: p.1, [cs "<ul>"]) else (p.1, [])
      processListsGo rest q.1
        (res ++ p.2 ++ q.2 ++ [cs "<li>" ++ content ++ cs "</li>"])
    | none =>
      processListsGo rest []
        (res ++ stack.map (fun _ => cs "</ul>") ++ [line])) = _
  cases listItemMatch line with
  | none => rfl
  | some p =>
    obtain ⟨indentLen, content⟩ := p
    show processListsGo rest _ _ = processListsGo rest _ _
    cases hcd : (closeDeeper (indentLen / 2) stack).1 with
    | nil => rfl
    | cons t ts => by_cases ht : t < indentLen / 2 <;> simp [ht]

theorem closeDeeper_closes (lvl : Nat) :
    ∀ st, ∀ e ∈ (closeDeeper lvl st).2, e = cs "</ul>" := by
  intro st
  induction st with
  | nil => intro e he; simp [closeDeeper] at he
  | cons t ts ih =>
    intro e he
    simp only [closeDeeper] at he
    split at he
    · rcases List.mem_cons.mp he with rfl | h
      · rfl
      · exact ih e h
    · simp at he

theorem processListsGo_append (lines : List Str) :
    ∀ stack res, processListsGo lines stack res
      = res ++ processListsGo lines stack [] := by
  induction lines with
  | nil => intro st res; simp [processListsGo]
  | cons line rest ih =>
    intro st res
    rw [processListsGo_cons, processListsGo_cons]
    cases listItemMatch line with
    | none =>
      dsimp only
      rw [ih]
      conv_rhs => rw [ih]
      simp
    | some p =>
      obtain ⟨n, content⟩ := p
      dsimp only
      rw [ih]
      conv_rhs => rw [ih]
      simp

theorem all_or_first_fail (P : Char → Bool) (x : Str) :
    (∀ c ∈ x, P c = true) ∨
      ∃ u c v, x = u ++ c :: v ∧ (∀ d ∈ u, P d = true) ∧ P c = false := by
  induction x with
  | nil => exact Or.inl (fun c hc => (List.not_mem_nil c hc).elim)
  | cons c x ih =>
    cases hP : P c with
    | false => exact Or.inr ⟨[], c, x, rfl, fun d hd => (List.not_mem_nil d hd).elim, hP⟩
    | true =>
      rcases ih with h | ⟨u, d, v, hx, hu, hd⟩
      · left
        intro e he
        rcases List.mem_cons.mp he with rfl | h1
        · exact hP
        · exact h e h1
      · right
        refine ⟨c :: u, d, v, by rw [hx]; rfl, ?_, hd⟩
        intro e he
        rcases List.mem_cons.mp he with rfl | h1
        · exact hP
        · exact hu e h1

theorem marker_match_subset {line r : Str}
    (heq : (match line.drop (line.takeWhile isJsWs).length with
      | '-' :: r => some r
      | '*' :: r => some r
      | _ =>
        match (line.drop (line.takeWhile isJsWs).length).takeWhile
            (fun c => c.isDigit),
          (line.drop (line.takeWhile isJsWs).length).drop
            ((line.drop (line.takeWhile isJsWs).length).takeWhile
              (fun c => c.isDigit)).length with
        | _ :: _, '.' :: r => some r
        | _, _ => none) = some r) :
    ∀ y ∈ r, y ∈ line := by
  intro y hy
  split at heq
  · rename_i r1 heq1
    injection heq with hr
    subst hr
    exact (List.drop_sublist _ _).subset (heq1 ▸ List.mem_cons_of_mem '-' hy)
  · rename_i r1 heq1
    injection heq with hr
    subst hr
    exact (List.drop_sublist _ _).subset (heq1 ▸ List.mem_cons_of_mem '*' hy)
  · split at heq
    · rename_i heq1
      injection heq with hr
      subst hr
      have h1 : y ∈ (line.drop (line.takeWhile isJsWs).length).drop
          ((line.drop (line.takeWhile isJsWs).length).takeWhile
            (fun c => c.isDigit)).length :=
        heq1 ▸ List.mem_cons_of_mem '.' hy
      exact (List.drop_sublist _ _).subset ((List.drop_sublist _ _).subset h1)
    · exact Option.noConfusion heq

theorem listItemMatch_subset {line : Str} {n : Nat} {content : Str}
    (h : listItemMatch line = some (n, content)) : ∀ x ∈ content, x ∈ line := by
  simp only [listItemMatch] at h
  repeat' split at h
  all_goals try exact Option.noConfusion h
  all_goals injection h with h1
  all_goals injection h1 with h2 h3
  all_goals subst h3
  all_goals intro x hx
  · exact marker_match_subset (by assumption) x
      ((List.takeWhile_sublist _).subset ((List.drop_sublist _ _).subset hx))
  · exact marker_match_subset (by assumption) x
      ((List.drop_sublist _ _).subset hx)

theorem ul_no_nul : '\x00' ∉ cs "</ul>" := by decide

theorem processListsGo_no_nul (lines : List Str) (hl : ∀ l ∈ lines, '\x00' ∉ l) :
    ∀ stack, ∀ e ∈ processListsGo lines stack [], '\x00' ∉ e := by
  induction lines with
  | nil =>
    intro st e he
    simp only [processListsGo, List.nil_append] at he
    obtain ⟨_, _, rfl⟩ := List.mem_map.mp he
    exact ul_no_nul
  | cons line rest ih =>
    have hline : '\x00' ∉ line := hl line (List.mem_cons_self line rest)
    have hrest : ∀ l ∈ rest, '\x00' ∉ l := fun l h => hl l (List.mem_cons_of_mem line h)
    intro st e he
    rw [processListsGo_cons] at he
    cases hm : listItemMatch line with
    | none =>
      rw [hm] at he
      dsimp only at he
      rw [processListsGo_append] at he
      simp only [List.nil_append, List.mem_append] at he
      rcases he with (h1 | h1) | h1
      · obtain ⟨_, _, rfl⟩ := List.mem_map.mp h1
        exact ul_no_nul
      · rw [List.mem_singleton.mp h1]
        exact hline
      · exact ih hrest [] e h1
    | some p =>
      obtain ⟨n, content⟩ := p
      rw [hm] at he
      dsimp only at he
      rw [processListsGo_append] at he
      simp only [List.nil_append, List.mem_append] at he
      rcases he with ((h1 | h1) | h1) | h1
      · rw [closeDeeper_closes (n / 2) st e h1]
        exact ul_no_nul
      · revert h1
        split
        · intro h1
          rw [List.mem_singleton.mp h1]
          decide
        · split
          · intro h1
            rw [List.mem_singleton.mp h1]
            decide
          · intro h1
            exact (List.not_mem_nil e h1).elim
      · rw [List.mem_singleton.mp h1]
        intro hmem
        simp only [List.mem_append] at hmem
        rcases hmem with (h2 | h2) | h2
        · exact absurd h2 (by decide)
        · exact hline (listItemMatch_subset hm '\x00' h2)
        · exact absurd h2 (by decide)
      · exact ih hrest _ e h1

theorem processListsGo_skip (rest : List Str) :
    ∀ (L₁ : List Str), (∀ l ∈ L₁, '\x00' ∉ l) → ∀ st : List Nat,
    ∃ R₁ st₁, processListsGo (L₁ ++ rest) st [] = R₁ ++ processListsGo rest st₁ [] ∧
      ∀ e ∈ R₁, '\x00' ∉ e := by
  intro L₁
  induction L₁ with
  | nil =>
    intro _ st
    exact ⟨[], st, by simp, fun e he => (List.not_mem_nil e he).elim⟩
  | cons line L₁' ih =>
    intro hL st
    have hline : '\x00' ∉ line := hL line (List.mem_cons_self line L₁')
    have hL' : ∀ l ∈ L₁', '\x00' ∉ l := fun l h => hL l (List.mem_cons_of_mem line h)
    rw [List.cons_append, processListsGo_cons]
    cases hm : listItemMatch line with
    | none =>
      obtain ⟨R₁, st₁, heq, hR₁⟩ := ih hL' []
      dsimp only
      rw [processListsGo_append, heq]
      refine ⟨([] ++ List.map (fun _ => cs "</ul>") st ++ [line]) ++ R₁, st₁,
        by simp, ?_⟩
      intro e he
      simp only [List.nil_append, List.mem_append] at he
      rcases he with (h1 | h1) | h1
      · obtain ⟨_, _, rfl⟩ := List.mem_map.mp h1
        exact ul_no_nul
      · rw [List.mem_singleton.mp h1]
        exact hline
      · exact hR₁ e h1
    | some p =>
      obtain ⟨n, content⟩ := p
      dsimp only
      obtain ⟨R₁, st₁, heq, hR₁⟩ := ih hL' _
      rw [processListsGo_append, heq]
      refine ⟨_ ++ R₁, st₁, (List.append_assoc _ R₁ _).symm, ?_⟩
      intro e he
      simp only [List.nil_append, List.mem_append] at he
      rcases he with ((h1 | h1) | h1) | h1
      · rw [closeDeeper_closes (n / 2) st e h1]
        exact ul_no_nul
      · revert h1
        split
        · intro h1
          rw [List.mem_singleton.mp h1]
          decide
        · split
          · intro h1
            rw [List.mem_singleton.mp h1]
            decide
          · intro h1
            exact (List.not_mem_nil e h1).elim
      · rw [List.mem_singleton.mp h1]
        intro hmem
        simp only [List.mem_append] at hmem
        rcases hmem with (h2 | h2) | h2
        · exact absurd h2 (by decide)
        · exact hline (listItemMatch_subset hm '\x00' h2)
        · exact absurd h2 (by decide)
      · exact hR₁ e h1

theorem takeWhile_nul_length_le {P : Char → Bool} (hP : P '\x00' = false)
    (x y : Str) : ((x ++ '\x00' :: y).takeWhile P).length ≤ x.length := by
  rcases all_or_first_fail P x with hall | ⟨u, c, v, hx, hu, hc⟩
  · rw [takeWhile_all_stop _ hall hP]
  · rw [hx, List.append_assoc, List.cons_append,
      takeWhile_all_stop _ hu hc]
    simp only [List.length_append, List.length_cons]
    omega

theorem drop_mid_le {x : Str} (y : Str) {k : Nat} (hk : k ≤ x.length) :
    (x ++ cbPh ++ y).drop k = x.drop k ++ cbPh ++ y := by
  rw [List.append_assoc, drop_append_le _ hk, List.append_assoc]

theorem cbPh_shape (y : Str) :
    cbPh ++ y = '\x00' :: ('C' :: 'B' :: '0' :: '\x00' :: y) := by
  rw [cbPh_eq]; rfl

theorem mid_shape (x y : Str) :
    x ++ cbPh ++ y = x ++ '\x00' :: ('C' :: 'B' :: '0' :: '\x00' :: y) := by
  rw [List.append_assoc, cbPh_shape]

theorem marker_match_mid {c : Char} {v lb : Str} {r : Str}
    (hc : c ≠ '\x00') (hv : '\x00' ∉ v) (hlb : '\x00' ∉ lb)
    (h : (match (c :: (v ++ cbPh ++ lb) : Str) with
      | '-' :: r => some r
      | '*' :: r => some r
      | _ =>
        match (c :: (v ++ cbPh ++ lb) : Str).takeWhile (fun ch => ch.isDigit),
          (c :: (v ++ cbPh ++ lb) : Str).drop
            ((c :: (v ++ cbPh ++ lb) : Str).takeWhile
              (fun ch => ch.isDigit)).length with
        | _ :: _, '.' :: r => some r
        | _, _ => none) = some r) :
    ∃ w, '\x00' ∉ w ∧ r = w ++ cbPh ++ lb := by
  split at h
  · rename_i r1 heq1
    injection heq1 with hch htl
    injection h with hr
    exact ⟨v, hv, by rw [← hr, ← htl]⟩
  · rename_i r1 heq1
    injection heq1 with hch htl
    injection h with hr
    exact ⟨v, hv, by rw [← hr, ← htl]⟩
  · split at h
    · rename_i hd tl r2 hdig heq2
      injection h with hr
      subst hr
      have hk : ((c :: (v ++ cbPh ++ lb) : Str).takeWhile
          (fun ch => ch.isDigit)).length ≤ (c :: v).length := by
        have hsh : (c :: (v ++ cbPh ++ lb) : Str)
            = (c :: v) ++ '\x00' :: ('C' :: 'B' :: '0' :: '\x00' :: lb) := by
          rw [← mid_shape]; rfl
        rw [hsh]
        exact takeWhile_nul_length_le (by decide) (c :: v) _
      have hdropeq : (c :: (v ++ cbPh ++ lb) : Str).drop
          ((c :: (v ++ cbPh ++ lb) : Str).takeWhile (fun ch => ch.isDigit)).length
          = (c :: v).drop ((c :: (v ++ cbPh ++ lb) : Str).takeWhile
              (fun ch => ch.isDigit)).length ++ cbPh ++ lb := by
        rw [show (c :: (v ++ cbPh ++ lb) : Str) = (c :: v) ++ cbPh ++ lb from by simp]
        exact drop_mid_le lb hk
      rw [hdropeq] at heq2
      cases hdk : ((c :: v : Str)).drop ((c :: (v ++ cbPh ++ lb) : Str).takeWhile
          (fun ch => ch.isDigit)).length with
      | nil =>
        rw [hdk, List.nil_append, cbPh_shape] at heq2
        injection heq2 with hch _
        exact absurd hch (by decide)
      | cons d w' =>
        rw [hdk, List.cons_append] at heq2
        injection heq2 with hch htl
        refine ⟨w', ?_, htl.symm⟩
        intro hmem
        have : '\x00' ∈ (c :: v : Str) := by
          have hsub := List.drop_sublist ((c :: (v ++ cbPh ++ lb) : Str).takeWhile
            (fun ch => ch.isDigit)).length (c :: v : Str)
          rw [hdk] at hsub
          exact hsub.subset (List.mem_cons_of_mem d hmem)
        rcases List.mem_cons.mp this with h1 | h1
        · exact hc h1.symm
        · exact hv h1
    · exact Option.noConfusion h

theorem listItemMatch_mid (la lb : Str) (hla : '\x00' ∉ la) (hlb : '\x00' ∉ lb) :
    listItemMatch (la ++ cbPh ++ lb) = none ∨
      ∃ n la', '\x00' ∉ la' ∧
        listItemMatch (la ++ cbPh ++ lb) = some (n, la' ++ cbPh ++ lb) := by
  rcases all_or_first_fail isJsWs la with hall | ⟨u, c, v, huv, hu, hc⟩
  · left
    have htw : (la ++ cbPh ++ lb).takeWhile isJsWs = la := by
      rw [mid_shape, takeWhile_all_stop _ hall (by decide)]
    have hdrop : (la ++ cbPh ++ lb).drop la.length
        = '\x00' :: ('C' :: 'B' :: '0' :: '\x00' :: lb) := by
      rw [mid_shape, List.drop_left]
    simp only [listItemMatch]
    rw [htw, hdrop]
    rfl
  · have hcnul : c ≠ '\x00' := fun h => hla (huv ▸ (h ▸
      List.mem_append.mpr (Or.inr (List.mem_cons_self c v))))
    have hvnul : '\x00' ∉ v := fun h => hla (huv ▸
      List.mem_append.mpr (Or.inr (List.mem_cons_of_mem c h)))
    have htw : (la ++ cbPh ++ lb).takeWhile isJsWs = u := by
      rw [huv, show (u ++ c :: v) ++ cbPh ++ lb = u ++ c :: (v ++ cbPh ++ lb)
        from by simp, takeWhile_all_stop _ hu hc]
    have hdrop : (la ++ cbPh ++ lb).drop u.length = c :: (v ++ cbPh ++ lb) := by
      rw [huv, show (u ++ c :: v) ++ cbPh ++ lb = u ++ c :: (v ++ cbPh ++ lb)
        from by simp, List.drop_left]
    simp only [listItemMatch]
    rw [htw, hdrop]
    split
    · exact Or.inl rfl
    · rename_i r hAM
      obtain ⟨w, hw, rfl⟩ := marker_match_mid hcnul hvnul hlb hAM
      cases w with
      | nil =>
        have htw2 : ((([] : Str) ++ cbPh ++ lb)).takeWhile isJsWs = [] := by
          rw [List.nil_append, cbPh_shape]
          simp [List.takeWhile_cons, show isJsWs '\x00' = false from by decide]
        rw [htw2]
        exact Or.inl rfl
      | cons w0 w1 =>
        rcases all_or_first_fail isJsWs (w0 :: w1) with hwall | ⟨u₃, c₃, v₃, hwv, hu₃, hc₃⟩
        · have htw2 : ((w0 :: w1 : Str) ++ cbPh ++ lb).takeWhile isJsWs = w0 :: w1 := by
            rw [mid_shape, takeWhile_all_stop _ hwall (by decide)]
          have hdrop2 : ((w0 :: w1 : Str) ++ cbPh ++ lb).drop (w0 :: w1 : Str).length
              = '\x00' :: ('C' :: 'B' :: '0' :: '\x00' :: lb) := by
            rw [mid_shape, List.drop_left]
          rw [htw2, hdrop2]
          exact Or.inr ⟨u.length, [], List.not_mem_nil _,
            by rw [List.nil_append, cbPh_shape]⟩
        · have htw2 : ((w0 :: w1 : Str) ++ cbPh ++ lb).takeWhile isJsWs = u₃ := by
            rw [hwv, show (u₃ ++ c₃ :: v₃) ++ cbPh ++ lb
              = u₃ ++ c₃ :: (v₃ ++ cbPh ++ lb) from by simp,
              takeWhile_all_stop _ hu₃ hc₃]
          have hdrop2 : ((w0 :: w1 : Str) ++ cbPh ++ lb).drop u₃.length
              = c₃ :: (v₃ ++ cbPh ++ lb) := by
            rw [hwv, show (u₃ ++ c₃ :: v₃) ++ cbPh ++ lb
              = u₃ ++ c₃ :: (v₃ ++ cbPh ++ lb) from by simp, List.drop_left]
          rw [htw2, hdrop2]
          cases u₃ with
          | nil => exact Or.inl rfl
          | cons x xs =>
            refine Or.inr ⟨u.length, c₃ :: v₃, ?_, rfl⟩
            intro hmem
            have hcw : '\x00' ∈ (w0 :: w1 : Str) := by
              rw [hwv]
              rcases List.mem_cons.mp hmem with h1 | h1
              · exact List.mem_append.mpr (Or.inr (h1 ▸ List.mem_cons_self c₃ v₃))
              · exact List.mem_append.mpr (Or.inr (List.mem_cons_of_mem c₃ h1))
            exact hw hcw

theorem intercalate_nl_mid' {L : List Str} (R : List Str) (la lb : Str)
    (G : List Str)
    (hR : ∀ e ∈ R, '\x00' ∉ e) (hla : '\x00' ∉ la) (hlb : '\x00' ∉ lb)
    (hG : ∀ e ∈ G, '\x00' ∉ e)
    (hL : L = R ++ (la ++ cbPh ++ lb) :: G) :
    ∃ a' b', List.intercalate ['\n'] L = a' ++ cbPh ++ b' ∧
      '\x00' ∉ a' ∧ '\x00' ∉ b' := by
  subst hL
  exact intercalate_nl_mid la lb G hla hlb hG R hR

theorem opens_no_nul (k : Nat) (st : List Nat) :
    ∀ e ∈ (match (closeDeeper k st).1 with
      | [] => [cs "<ul>"]
      | t :: _ => if t < k then [cs "<ul>"] else []), '\x00' ∉ e := by
  intro e he
  revert he
  split
  · intro he
    rw [List.mem_singleton.mp he]
    decide
  · split
    · intro he
      rw [List.mem_singleton.mp he]
      decide
    · intro he
      exact (List.not_mem_nil e he).elim

theorem processLists_mid (a b : Str) (ha : '\x00' ∉ a) (hb : '\x00' ∉ b) :
    ∃ a' b', processLists (a ++ cbPh ++ b) = a' ++ cbPh ++ b' ∧
      '\x00' ∉ a' ∧ '\x00' ∉ b' := by
  obtain ⟨L₁, la, lb, L₂, heq, hL₁, hla, hlb, hL₂⟩ := splitNl_mid a b ha hb
  unfold processLists
  rw [heq]
  obtain ⟨R₁, st₁, hskip, hR₁⟩ :=
    processListsGo_skip ((la ++ cbPh ++ lb) :: L₂) L₁ hL₁ []
  rw [hskip, processListsGo_cons]
  rcases listItemMatch_mid la lb hla hlb with hnone | ⟨n, la', hla', hsome⟩
  · rw [hnone]
    dsimp only
    rw [processListsGo_append]
    refine intercalate_nl_mid'
      (R₁ ++ List.map (fun _ => cs "</ul>") st₁) la lb
      (processListsGo L₂ [] []) ?_ hla hlb
      (processListsGo_no_nul L₂ hL₂ []) (by simp)
    intro e he
    rcases List.mem_append.mp he with h1 | h1
    · exact hR₁ e h1
    · obtain ⟨_, _, rfl⟩ := List.mem_map.mp h1
      exact ul_no_nul
  · rw [hsome]
    dsimp only
    rw [processListsGo_append]
    refine intercalate_nl_mid'
      (R₁ ++ ((closeDeeper (n / 2) st₁).2 ++
        (match (closeDeeper (n / 2) st₁).1 with
          | [] => [cs "<ul>"]
          | t :: _ => if t < n / 2 then [cs "<ul>"] else [])))
      (cs "<li>" ++ la') (lb ++ cs "</li>")
      (processListsGo L₂
        (match (closeDeeper (n / 2) st₁).1 with
          | [] => n / 2 :: (closeDeeper (n / 2) st₁).1
          | t :: _ =>
            if t < n / 2 then n / 2 :: (closeDeeper (n / 2) st₁).1
            else (closeDeeper (n / 2) st₁).1) []) ?_ ?_ ?_
      (processListsGo_no_nul L₂ hL₂ _) (by simp)
    · intro e he
      rcases List.mem_append.mp he with h1 | h1
      · exact hR₁ e h1
      · rcases List.mem_append.mp h1 with h2 | h2
        · rw [closeDeeper_closes (n / 2) st₁ e h2]
          exact ul_no_nul
        · exact opens_no_nul (n / 2) st₁ e h2
    · intro hmem
      rcases List.mem_append.mp hmem with h1 | h1
      · exact absurd h1 (by decide)
      · exact hla' h1
    · intro hmem
      rcases List.mem_append.mp hmem with h1 | h1
      · exact hlb h1
      · exact absurd h1 (by decide)

theorem linksGo_no_nul :
    ∀ fuel s, '\x00' ∉ s → '\x00' ∉ linksGo fuel s := by
  intro fuel
  induction fuel with
  | zero => intro s hs; cases s with
    | nil => simp [linksGo]
    | cons c rest => exact hs
  | succ fuel ih =>
    intro s hs
    cases s with
    | nil => simp [linksGo]
    | cons c rest =>
      have hrest : '\x00' ∉ rest := fun h => hs (List.mem_cons_of_mem c h)
      have hc : c ≠ '\x00' := fun h => hs (h ▸ List.mem_cons_self c rest)
      have hstep : '\x00' ∉ c :: linksGo fuel rest := by
        intro hmem
        rcases List.mem_cons.mp hmem with h2 | h2
        · exact hc h2.symm
        · exact ih rest hrest h2
      simp only [linksGo]
      split
      · split
        · rename_i label rst lr r₂ hlabel hdrop
          split
          · rename_i url rst2 after hurl hdrop2
            intro hmem
            have hr₂ : '\x00' ∉ r₂ := by
              intro hx
              have hsub := List.drop_sublist (rest.takeWhile
                  (fun ch => ch ≠ ']')).length rest
              rw [hdrop] at hsub
              exact hrest (hsub.subset (List.mem_cons_of_mem ']'
                (List.mem_cons_of_mem '(' hx)))
            have hafter : '\x00' ∉ after := by
              intro hx
              have hsub := List.drop_sublist (r₂.takeWhile
                  (fun ch => ch ≠ ')')).length r₂
              rw [hdrop2] at hsub
              exact hr₂ (hsub.subset (List.mem_cons_of_mem ')' hx))
            simp only [List.mem_append] at hmem
            rcases hmem with ((((h1 | h1) | h1) | h1) | h1) | h1
            · exact absurd h1 (by decide)
            · exact hr₂ ((List.takeWhile_sublist
                (p := fun ch => decide (ch ≠ ')'))).subset h1)
            · exact absurd h1 (by decide)
            · exact hrest ((List.takeWhile_sublist
                (p := fun ch => decide (ch ≠ ']'))).subset h1)
            · exact absurd h1 (by decide)
            · exact ih after hafter h1
          · exact hstep
        · exact hstep
      · exact hstep

theorem linksGo_cbPh :
    ∀ fuel b, linksGo (fuel + 5) (cbPh ++ b) = cbPh ++ linksGo fuel b := by
  intro fuel b
  show linksGo (fuel + 5) ('\x00' :: 'C' :: 'B' :: '0' :: '\x00' :: b)
    = cbPh ++ linksGo fuel b
  simp only [show fuel + 5 = (((fuel + 1) + 1) + 1) + 2 from rfl]
  simp only [linksGo, show ('\x00' = '[') = False from by decide,
    show ('C' = '[') = False from by decide,
    show ('B' = '[') = False from by decide,
    show ('0' = '[') = False from by decide, if_false]
  rfl

theorem linksGo_mid :
    ∀ fuel a b, '\x00' ∉ a → '\x00' ∉ b → (a ++ cbPh ++ b).length ≤ fuel →
      ∃ a' b', linksGo fuel (a ++ cbPh ++ b) = a' ++ cbPh ++ b' ∧
        '\x00' ∉ a' ∧ '\x00' ∉ b' := by
  intro fuel
  induction fuel with
  | zero =>
    intro a b _ _ hf
    exfalso
    simp only [List.length_append, cbPh_length, Nat.le_zero] at hf
    omega
  | succ fuel ih =>
    intro a b ha hb hf
    cases a with
    | nil =>
      have hlen : b.length + 5 ≤ fuel + 1 := by
        simp only [List.length_append, cbPh_length, List.nil_append,
          List.length_nil] at hf
        omega
      obtain ⟨g, hg, hgb⟩ : ∃ g, fuel + 1 = g + 5 ∧ b.length ≤ g :=
        ⟨fuel - 4, by omega, by omega⟩
      rw [List.nil_append, hg, linksGo_cbPh g b]
      exact ⟨[], linksGo g b, rfl, List.not_mem_nil _, linksGo_no_nul g b hb⟩
    | cons c a =>
      have hc : c ≠ '\x00' := fun h => ha (h ▸ List.mem_cons_self c a)
      have ha' : '\x00' ∉ a := fun h => ha (List.mem_cons_of_mem c h)
      have hihab : (a ++ cbPh ++ b).length ≤ fuel := by
        simp only [List.length_append, cbPh_length, List.length_cons] at hf ⊢
        omega
      have hconscl : ∃ a' b', c :: linksGo fuel (a ++ cbPh ++ b)
          = a' ++ cbPh ++ b' ∧ '\x00' ∉ a' ∧ '\x00' ∉ b' := by
        obtain ⟨a₂, b₂, heq, ha₂, hb₂⟩ := ih a b ha' hb hihab
        rw [heq]
        exact ⟨c :: a₂, b₂, rfl,
          fun h => (List.mem_cons.mp h).elim (fun h' => hc h'.symm) ha₂, hb₂⟩
      by_cases hcd : c = '['
      · have hdd : (c = '[') = True := eq_true hcd
        by_cases hda : ']' ∈ a
        · obtain ⟨u, v, huv, hu⟩ := mem_split_first hda
          have hav : a.length = u.length + 1 + v.length := by
            rw [huv]; simp only [List.length_append, List.length_cons]; omega
          have hassoc : a ++ cbPh ++ b = u ++ ']' :: (v ++ cbPh ++ b) := by
            rw [huv]; simp
          have htw : (a ++ cbPh ++ b).takeWhile (fun ch => ch ≠ ']') = u := by
            rw [hassoc, takeWhile_ne_stop _ hu]
          have hdrop : (a ++ cbPh ++ b).drop u.length
              = ']' :: (v ++ cbPh ++ b) := by
            rw [hassoc, List.drop_left]
          simp only [List.cons_append, linksGo, hdd, if_true, List.append_eq]
          rw [htw, hdrop]
          cases u with
          | nil => exact hconscl
          | cons u0 u1 =>
            have hunul : '\x00' ∉ (u0 :: u1 : Str) := fun h => ha' (by
              rw [huv]; exact List.mem_append.mpr (Or.inl h))
            split
            · rename_i harm1 harm2
              injection harm2 with hx1 harm3
              cases v with
              | nil =>
                rw [List.nil_append, cbPh_shape] at harm3
                injection harm3 with hbad
                exact absurd hbad (by decide)
              | cons v0 v1 =>
                simp only [List.cons_append] at harm3
                injection harm3 with hv0 hr₂
                rw [← hr₂]
                have hv1nul : '\x00' ∉ v1 := fun h => ha' (by
                  rw [huv]
                  exact List.mem_append.mpr (Or.inr (List.mem_cons_of_mem ']'
                    (List.mem_cons_of_mem v0 h))))
                by_cases hdp : ')' ∈ v1
                · obtain ⟨p, q, hpq, hp⟩ := mem_split_first hdp
                  have hassoc2 : v1 ++ cbPh ++ b = p ++ ')' :: (q ++ cbPh ++ b) := by
                    rw [hpq]; simp
                  have htw2 : (v1 ++ cbPh ++ b).takeWhile (fun ch => ch ≠ ')')
                      = p := by
                    rw [hassoc2, takeWhile_ne_stop _ hp]
                  have hdrop2 : (v1 ++ cbPh ++ b).drop p.length
                      = ')' :: (q ++ cbPh ++ b) := by
                    rw [hassoc2, List.drop_left]
                  rw [htw2, hdrop2]
                  cases p with
                  | nil => exact hconscl
                  | cons p0 p1 =>
                    have hpnul : '\x00' ∉ (p0 :: p1 : Str) := fun h => hv1nul (by
                      rw [hpq]; exact List.mem_append.mpr (Or.inl h))
                    have hqnul : '\x00' ∉ q := fun h => hv1nul (by
                      rw [hpq]
                      exact List.mem_append.mpr (Or.inr (List.mem_cons_of_mem ')' h)))
                    obtain ⟨a₂, b₂, heq, ha₂, hb₂⟩ := ih q b hqnul hb (by
                      have hv1 : v1.length = p1.length + 2 + q.length := by
                        rw [hpq]
                        simp only [List.length_append, List.length_cons]
                        omega
                      simp only [List.length_append, cbPh_length,
                        List.length_cons] at hf hav ⊢
                      omega)
                    split
                    · rename_i harm5 harm6
                      injection harm6 with hx hafter
                      rw [← hafter, heq]
                      refine ⟨cs "<a href=\"" ++ (p0 :: p1) ++
                        cs "\" target=\"_blank\" rel=\"noopener\">" ++
                        (u0 :: u1) ++ cs "</a>" ++ a₂, b₂, by simp, ?_, hb₂⟩
                      intro h
                      simp only [List.mem_append, List.mem_cons] at h
                      rcases h with ((((h1 | h1) | h1) | h1) | h1) | h1
                      · exact absurd h1 (by decide)
                      · exact hpnul (by simpa using h1)
                      · exact absurd h1 (by decide)
                      · exact hunul (by simpa using h1)
                      · exact absurd h1 (by decide)
                      · exact ha₂ h1
                    · exact hconscl
                · by_cases hdb : ')' ∈ b
                  · obtain ⟨p, q, hpq, hp⟩ := mem_split_first hdb
                    have hnotin : ')' ∉ v1 ++ cbPh ++ p := by
                      intro h
                      rcases List.mem_append.mp h with h1 | h1
                      · rcases List.mem_append.mp h1 with h2 | h2
                        · exact hdp h2
                        · exact absurd h2 (by decide)
                      · exact hp h1
                    have hassoc2 : v1 ++ cbPh ++ b
                        = (v1 ++ cbPh ++ p) ++ ')' :: q := by
                      rw [hpq]; simp
                    have htw2 : (v1 ++ cbPh ++ b).takeWhile (fun ch => ch ≠ ')')
                        = v1 ++ cbPh ++ p := by
                      rw [hassoc2, takeWhile_ne_stop _ hnotin]
                    have hdrop2 : (v1 ++ cbPh ++ b).drop (v1 ++ cbPh ++ p).length
                        = ')' :: q := by
                      rw [hassoc2, List.drop_left]
                    have hpnul : '\x00' ∉ p := fun h => hb (by
                      rw [hpq]; exact List.mem_append.mpr (Or.inl h))
                    have hqnul : '\x00' ∉ q := fun h => hb (by
                      rw [hpq]
                      exact List.mem_append.mpr (Or.inr (List.mem_cons_of_mem ')' h)))
                    obtain ⟨bh, bt, hbt⟩ : ∃ bh bt, v1 ++ cbPh ++ p = bh :: bt := by
                      cases hcase : v1 ++ cbPh ++ p with
                      | nil =>
                        exfalso
                        have := congrArg List.length hcase
                        simp only [List.length_append, cbPh_length,
                          List.length_nil] at this
                        omega
                      | cons x xs => exact ⟨x, xs, rfl⟩
                    rw [htw2, hdrop2, hbt, ← hbt]
                    split
                    · rename_i harm5 harm6
                      injection harm6 with hx hafter
                      rw [← hafter]
                      refine ⟨cs "<a href=\"" ++ v1,
                        p ++ cs "\" target=\"_blank\" rel=\"noopener\">" ++
                          (u0 :: u1) ++ cs "</a>" ++ linksGo fuel q, by simp, ?_, ?_⟩
                      · intro h
                        rcases List.mem_append.mp h with h1 | h1
                        · exact absurd h1 (by decide)
                        · exact hv1nul h1
                      · intro h
                        simp only [List.mem_append, List.mem_cons] at h
                        rcases h with ((((h1 | h1) | h1) | h1)) | h1
                        · exact hpnul h1
                        · exact absurd h1 (by decide)
                        · exact hunul (by simpa using h1)
                        · exact absurd h1 (by decide)
                        · exact linksGo_no_nul fuel q hqnul h1
                    · exact hconscl
                  · have hnotin : ')' ∉ v1 ++ cbPh ++ b := by
                      intro h
                      rcases List.mem_append.mp h with h1 | h1
                      · rcases List.mem_append.mp h1 with h2 | h2
                        · exact hdp h2
                        · exact absurd h2 (by decide)
                      · exact hdb h1
                    have htw2 : (v1 ++ cbPh ++ b).takeWhile (fun ch => ch ≠ ')')
                        = v1 ++ cbPh ++ b := takeWhile_ne_all hnotin
                    obtain ⟨bh, bt, hbt⟩ : ∃ bh bt, v1 ++ cbPh ++ b = bh :: bt := by
                      cases hcase : v1 ++ cbPh ++ b with
                      | nil =>
                        exfalso
                        have := congrArg List.length hcase
                        simp only [List.length_append, cbPh_length,
                          List.length_nil] at this
                        omega
                      | cons x xs => exact ⟨x, xs, rfl⟩
                    rw [htw2, List.drop_length, hbt]
                    exact hconscl
            · exact hconscl
        · by_cases hdb : ']' ∈ b
          · obtain ⟨u, v, huv, hu⟩ := mem_split_first hdb
            have hnotin : ']' ∉ a ++ cbPh ++ u := by
              intro h
              rcases List.mem_append.mp h with h1 | h1
              · rcases List.mem_append.mp h1 with h2 | h2
                · exact hda h2
                · exact absurd h2 (by decide)
              · exact hu h1
            have hassoc : a ++ cbPh ++ b = (a ++ cbPh ++ u) ++ ']' :: v := by
              rw [huv]; simp
            have htw : (a ++ cbPh ++ b).takeWhile (fun ch => ch ≠ ']')
                = a ++ cbPh ++ u := by
              rw [hassoc, takeWhile_ne_stop _ hnotin]
            have hdrop : (a ++ cbPh ++ b).drop (a ++ cbPh ++ u).length
                = ']' :: v := by
              rw [hassoc, List.drop_left]
            have hunul : '\x00' ∉ u := fun h => hb (by
              rw [huv]; exact List.mem_append.mpr (Or.inl h))
            have hvnul : '\x00' ∉ v := fun h => hb (by
              rw [huv]
              exact List.mem_append.mpr (Or.inr (List.mem_cons_of_mem ']' h)))
            obtain ⟨bh, bt, hbt⟩ : ∃ bh bt, a ++ cbPh ++ u = bh :: bt := by
              cases hcase : a ++ cbPh ++ u with
              | nil =>
                exfalso
                have := congrArg List.length hcase
                simp only [List.length_append, cbPh_length, List.length_nil] at this
                omega
              | cons x xs => exact ⟨x, xs, rfl⟩
            simp only [List.cons_append, linksGo, hdd, if_true, List.append_eq]
            rw [htw, hdrop, hbt]
            split
            · rename_i harm1 harm2
              injection harm2 with hx1 harm3
              cases v with
              | nil => exact absurd harm3 (by simp)
              | cons v0 v1 =>
                injection harm3 with hv0 hr₂
                rw [← hr₂, ← hbt]
                have hv1nul : '\x00' ∉ v1 := fun h =>
                  hvnul (List.mem_cons_of_mem v0 h)
                by_cases hdp : ')' ∈ v1
                · obtain ⟨p, q, hpq, hp⟩ := mem_split_first hdp
                  have htw2 : (v1 : Str).takeWhile (fun ch => ch ≠ ')') = p := by
                    rw [hpq, takeWhile_ne_stop _ hp]
                  have hdrop2 : (v1 : Str).drop p.length = ')' :: q := by
                    rw [hpq, List.drop_left]
                  rw [htw2, hdrop2]
                  cases p with
                  | nil => exact hconscl
                  | cons p0 p1 =>
                    have hpnul : '\x00' ∉ (p0 :: p1 : Str) := fun h => hv1nul (by
                      rw [hpq]; exact List.mem_append.mpr (Or.inl h))
                    have hqnul : '\x00' ∉ q := fun h => hv1nul (by
                      rw [hpq]
                      exact List.mem_append.mpr (Or.inr (List.mem_cons_of_mem ')' h)))
                    split
                    · rename_i harm5 harm6
                      injection harm6 with hx hafter
                      rw [← hafter]
                      refine ⟨cs "<a href=\"" ++ (p0 :: p1) ++
                        cs "\" target=\"_blank\" rel=\"noopener\">" ++ a,
                        u ++ cs "</a>" ++ linksGo fuel q, by simp, ?_, ?_⟩
                      · intro h
                        simp only [List.mem_append, List.mem_cons] at h
                        rcases h with ((h1 | h1) | h1) | h1
                        · exact absurd h1 (by decide)
                        · exact hpnul (by simpa using h1)
                        · exact absurd h1 (by decide)
                        · exact ha' h1
                      · intro h
                        simp only [List.mem_append] at h
                        rcases h with (h1 | h1) | h1
                        · exact hunul h1
                        · exact absurd h1 (by decide)
                        · exact linksGo_no_nul fuel q hqnul h1
                    · exact hconscl
                · have htw2 : (v1 : Str).takeWhile (fun ch => ch ≠ ')') = v1 :=
                    takeWhile_ne_all hdp
                  rw [htw2, List.drop_length]
                  cases v1 with
                  | nil => exact hconscl
                  | cons w0 w1 => exact hconscl
            · exact hconscl
          · have hnotin : ']' ∉ a ++ cbPh ++ b := by
              intro h
              rcases List.mem_append.mp h with h1 | h1
              · rcases List.mem_append.mp h1 with h2 | h2
                · exact hda h2
                · exact absurd h2 (by decide)
              · exact hdb h1
            have htw : (a ++ cbPh ++ b).takeWhile (fun ch => ch ≠ ']')
                = a ++ cbPh ++ b := takeWhile_ne_all hnotin
            obtain ⟨bh, bt, hbt⟩ : ∃ bh bt, a ++ cbPh ++ b = bh :: bt := by
              cases hcase : a ++ cbPh ++ b with
              | nil =>
                exfalso
                have := congrArg List.length hcase
                simp only [List.length_append, cbPh_length, List.length_nil] at this
                omega
              | cons x xs => exact ⟨x, xs, rfl⟩
            simp only [List.cons_append, linksGo, hdd, if_true, List.append_eq]
            rw [htw, List.drop_length, hbt]
            rw [hbt] at hconscl
            exact hconscl
      · have hdd : (c = '[') = False := eq_false hcd
        simp only [List.cons_append, linksGo, hdd, if_false, List.append_eq]
        exact hconscl

theorem paragraphGo_no_nul :
    ∀ fuel s, '\x00' ∉ s → '\x00' ∉ paragraphGo fuel s := by
  intro fuel
  induction fuel with
  | zero => intro s hs; cases s with
    | nil => simp [paragraphGo]
    | cons c rest => exact hs
  | succ fuel ih =>
    intro s hs
    cases s with
    | nil => simp [paragraphGo]
    | cons c rest =>
      have hrest : '\x00' ∉ rest := fun h => hs (List.mem_cons_of_mem c h)
      have hc : c ≠ '\x00' := fun h => hs (h ▸ List.mem_cons_self c rest)
      have hstep : '\x00' ∉ c :: paragraphGo fuel rest := by
        intro hmem
        rcases List.mem_cons.mp hmem with h2 | h2
        · exact hc h2.symm
        · exact ih rest hrest h2
      simp only [paragraphGo]
      split
      · split
        · intro hmem
          simp only [List.mem_append] at hmem
          rcases hmem with h1 | h1
          · exact absurd h1 (by decide)
          · refine ih _ ?_ h1
            intro hx
            exact hrest ((List.drop_sublist _ _).subset hx)
        · exact hstep
      · exact hstep

theorem paragraphGo_cbPh :
    ∀ fuel b, paragraphGo (fuel + 5) (cbPh ++ b) = cbPh ++ paragraphGo fuel b := by
  intro fuel b
  show paragraphGo (fuel + 5) ('\x00' :: 'C' :: 'B' :: '0' :: '\x00' :: b)
    = cbPh ++ paragraphGo fuel b
  simp only [show fuel + 5 = (((fuel + 1) + 1) + 1) + 2 from rfl]
  simp only [paragraphGo, show ('\x00' = '\n') = False from by decide,
    show ('C' = '\n') = False from by decide,
    show ('B' = '\n') = False from by decide,
    show ('0' = '\n') = False from by decide, if_false]
  rfl

theorem paragraphGo_mid :
    ∀ fuel a b, '\x00' ∉ a → '\x00' ∉ b → (a ++ cbPh ++ b).length ≤ fuel →
      ∃ a' b', paragraphGo fuel (a ++ cbPh ++ b) = a' ++ cbPh ++ b' ∧
        '\x00' ∉ a' ∧ '\x00' ∉ b' := by
  intro fuel
  induction fuel with
  | zero =>
    intro a b _ _ hf
    exfalso
    simp only [List.length_append, cbPh_length, Nat.le_zero] at hf
    omega
  | succ fuel ih =>
    intro a b ha hb hf
    cases a with
    | nil =>
      have hlen : b.length + 5 ≤ fuel + 1 := by
        simp only [List.length_append, cbPh_length, List.nil_append,
          List.length_nil] at hf
        omega
      obtain ⟨g, hg, hgb⟩ : ∃ g, fuel + 1 = g + 5 ∧ b.length ≤ g :=
        ⟨fuel - 4, by omega, by omega⟩
      rw [List.nil_append, hg, paragraphGo_cbPh g b]
      exact ⟨[], paragraphGo g b, rfl, List.not_mem_nil _, paragraphGo_no_nul g b hb⟩
    | cons c a =>
      have hc : c ≠ '\x00' := fun h => ha (h ▸ List.mem_cons_self c a)
      have ha' : '\x00' ∉ a := fun h => ha (List.mem_cons_of_mem c h)
      have hihab : (a ++ cbPh ++ b).length ≤ fuel := by
        simp only [List.length_append, cbPh_length, List.length_cons] at hf ⊢
        omega
      by_cases hcd : c = '\n'
      · have hdd : (c = '\n') = True := eq_true hcd
        cases a with
        | nil =>
          rw [mid_shape]
          simp only [List.cons_append, List.nil_append, paragraphGo, hdd,
            if_true, List.append_eq]
          obtain ⟨a₂, b₂, heq, ha₂, hb₂⟩ := ih [] b (List.not_mem_nil _) hb (by
            simp only [List.length_append, cbPh_length, List.nil_append,
              List.length_nil]
            simp only [List.length_cons, List.nil_append, List.length_append,
              cbPh_length, List.length_nil] at hf
            omega)
          rw [List.nil_append, cbPh_shape] at heq
          rw [heq]
          exact ⟨c :: a₂, b₂, rfl,
            fun h => (List.mem_cons.mp h).elim (fun h' => hc h'.symm) ha₂, hb₂⟩
        | cons c₂ a₂ =>
          have hc₂ : c₂ ≠ '\x00' := fun h => ha' (h ▸ List.mem_cons_self c₂ a₂)
          have ha₂' : '\x00' ∉ a₂ := fun h => ha' (List.mem_cons_of_mem c₂ h)
          have hcons2 : ∃ a' b', c :: paragraphGo fuel (c₂ :: (a₂ ++ cbPh ++ b))
              = a' ++ cbPh ++ b' ∧ '\x00' ∉ a' ∧ '\x00' ∉ b' := by
            obtain ⟨a₃, b₃, heq, ha₃, hb₃⟩ := ih (c₂ :: a₂) b ha' hb hihab
            simp only [List.cons_append] at heq
            rw [heq]
            exact ⟨c :: a₃, b₃, rfl,
              fun h => (List.mem_cons.mp h).elim (fun h' => hc h'.symm) ha₃, hb₃⟩
          simp only [List.cons_append, paragraphGo, hdd, if_true, List.append_eq]
          by_cases hc2 : c₂ = '\n'
          · subst hc2
            rcases all_or_first_fail (fun ch => ch = '\n') ('\n' :: a₂)
              with hall | ⟨u, d, v, huv, hu, hd⟩
            · have htw : (('\n' :: (a₂ ++ cbPh ++ b) : Str)).takeWhile
                  (fun ch => ch = '\n') = '\n' :: a₂ := by
                rw [show ('\n' :: (a₂ ++ cbPh ++ b) : Str)
                    = ('\n' :: a₂ : Str) ++ cbPh ++ b from by simp,
                  mid_shape, takeWhile_all_stop _ hall (by decide)]
              have hdrop : (('\n' :: (a₂ ++ cbPh ++ b) : Str)).drop
                  ('\n' :: a₂ : Str).length
                  = '\x00' :: ('C' :: 'B' :: '0' :: '\x00' :: b) := by
                rw [show ('\n' :: (a₂ ++ cbPh ++ b) : Str)
                    = ('\n' :: a₂ : Str) ++ cbPh ++ b from by simp,
                  mid_shape, List.drop_left]
              rw [htw, hdrop]
              obtain ⟨a₃, b₃, heq, ha₃, hb₃⟩ := ih [] b (List.not_mem_nil _) hb (by
                simp only [List.length_append, cbPh_length, List.nil_append,
                  List.length_nil]
                simp only [List.length_cons, List.length_append, cbPh_length] at hf
                omega)
              rw [List.nil_append, cbPh_shape] at heq
              rw [heq]
              refine ⟨cs "</p><p>" ++ a₃, b₃, by simp, ?_, hb₃⟩
              intro h
              rcases List.mem_append.mp h with h1 | h1
              · exact absurd h1 (by decide)
              · exact ha₃ h1
            · have htw : (('\n' :: (a₂ ++ cbPh ++ b) : Str)).takeWhile
                  (fun ch => ch = '\n') = u := by
                rw [show ('\n' :: (a₂ ++ cbPh ++ b) : Str)
                    = ('\n' :: a₂ : Str) ++ cbPh ++ b from by simp, huv,
                  show (u ++ d :: v : Str) ++ cbPh ++ b
                    = u ++ d :: (v ++ cbPh ++ b) from by simp,
                  takeWhile_all_stop _ hu hd]
              have hdrop : (('\n' :: (a₂ ++ cbPh ++ b) : Str)).drop u.length
                  = d :: (v ++ cbPh ++ b) := by
                rw [show ('\n' :: (a₂ ++ cbPh ++ b) : Str)
                    = ('\n' :: a₂ : Str) ++ cbPh ++ b from by simp, huv,
                  show (u ++ d :: v : Str) ++ cbPh ++ b
                    = u ++ d :: (v ++ cbPh ++ b) from by simp,
                  List.drop_left]
              rw [htw, hdrop]
              have hdnul : d ≠ '\x00' := by
                intro h
                have hmem : d ∈ ('\n' :: a₂ : Str) := by
                  rw [huv]
                  exact List.mem_append.mpr (Or.inr (List.mem_cons_self d v))
                rcases List.mem_cons.mp hmem with h1 | h1
                · exact absurd (h ▸ h1) (by decide)
                · exact ha₂' (h ▸ h1)
              have hvnul : '\x00' ∉ v := by
                intro h
                have hmem : '\x00' ∈ ('\n' :: a₂ : Str) := by
                  rw [huv]
                  exact List.mem_append.mpr (Or.inr (List.mem_cons_of_mem d h))
                rcases List.mem_cons.mp hmem with h1 | h1
                · exact absurd h1 (by decide)
                · exact ha₂' h1
              obtain ⟨a₃, b₃, heq, ha₃, hb₃⟩ := ih (d :: v) b (fun h =>
                (List.mem_cons.mp h).elim (fun h' => hdnul h'.symm) hvnul) hb (by
                  have hlen2 : ('\n' :: a₂ : Str).length
                      = u.length + 1 + v.length := by
                    rw [huv]
                    simp only [List.length_append, List.length_cons]
                    omega
                  simp only [List.length_cons] at hlen2
                  simp only [List.length_append, cbPh_length,
                    List.length_cons] at hf ⊢
                  omega)
              simp only [List.cons_append] at heq
              rw [heq]
              refine ⟨cs "</p><p>" ++ a₃, b₃, by simp, ?_, hb₃⟩
              intro h
              rcases List.mem_append.mp h with h1 | h1
              · exact absurd h1 (by decide)
              · exact ha₃ h1
          · split
            · rename_i harm
              injection harm with hbad
              exact absurd hbad.symm (fun h => hc2 h.symm)
            · exact hcons2
      · have hdd : (c = '\n') = False := eq_false hcd
        simp only [List.cons_append, paragraphGo, hdd, if_false, List.append_eq]
        obtain ⟨a₂, b₂, heq, ha₂, hb₂⟩ := ih a b ha' hb hihab
        rw [heq]
        exact ⟨c :: a₂, b₂, rfl,
          fun h => (List.mem_cons.mp h).elim (fun h' => hc h'.symm) ha₂, hb₂⟩

theorem replaceAllGo_no_nul {pat repl : Str} (hrepl : '\x00' ∉ repl) :
    ∀ fuel s, '\x00' ∉ s → '\x00' ∉ replaceAllGo pat repl fuel s := by
  intro fuel
  induction fuel with
  | zero => intro s hs; cases s with
    | nil => simp [replaceAllGo]
    | cons c rest => exact hs
  | succ fuel ih =>
    intro s hs
    cases s with
    | nil => simp [replaceAllGo]
    | cons c rest =>
      have hrest : '\x00' ∉ rest := fun h => hs (List.mem_cons_of_mem c h)
      have hc : c ≠ '\x00' := fun h => hs (h ▸ List.mem_cons_self c rest)
      simp only [replaceAllGo]
      split
      · intro hmem
        rcases List.mem_append.mp hmem with h1 | h1
        · exact hrepl h1
        · refine ih _ ?_ h1
          intro hx
          exact hs ((List.drop_sublist _ _).subset hx)
      · intro hmem
        rcases List.mem_cons.mp hmem with h1 | h1
        · exact hc h1.symm
        · exact ih rest hrest h1

theorem replaceAllGo_cbPh {pat repl : Str} {pc : Char} {pr : Str}
    (hpat : pat = pc :: pr) (hpc0 : pc ≠ '\x00') (hpcC : pc ≠ 'C')
    (hpcB : pc ≠ 'B') (hpcz : pc ≠ '0') :
    ∀ fuel b, replaceAllGo pat repl (fuel + 5) (cbPh ++ b)
      = cbPh ++ replaceAllGo pat repl fuel b := by
  intro fuel b
  have h1 : pat.isPrefixOf ('\x00' :: 'C' :: 'B' :: '0' :: '\x00' :: b) = false := by
    rw [hpat]; exact isPrefixOf_eq_false_of_head_ne (fun h => hpc0 h.symm)
  have h2 : pat.isPrefixOf ('C' :: 'B' :: '0' :: '\x00' :: b) = false := by
    rw [hpat]; exact isPrefixOf_eq_false_of_head_ne (fun h => hpcC h.symm)
  have h3 : pat.isPrefixOf ('B' :: '0' :: '\x00' :: b) = false := by
    rw [hpat]; exact isPrefixOf_eq_false_of_head_ne (fun h => hpcB h.symm)
  have h4 : pat.isPrefixOf ('0' :: '\x00' :: b) = false := by
    rw [hpat]; exact isPrefixOf_eq_false_of_head_ne (fun h => hpcz h.symm)
  have h5 : pat.isPrefixOf ('\x00' :: b) = false := by
    rw [hpat]; exact isPrefixOf_eq_false_of_head_ne (fun h => hpc0 h.symm)
  show replaceAllGo pat repl (fuel + 5) ('\x00' :: 'C' :: 'B' :: '0' :: '\x00' :: b)
    = cbPh ++ replaceAllGo pat repl fuel b
  simp only [show fuel + 5 = (((fuel + 1) + 1) + 1) + 2 from rfl]
  simp only [replaceAllGo, h1, h2, h3, h4, h5, Bool.false_eq_true, if_false]
  rfl

theorem replaceAllGo_mid {pat repl : Str} {pc : Char} {pr : Str}
    (hpat : pat = pc :: pr) (hpatnul : '\x00' ∉ pat) (hrepl : '\x00' ∉ repl)
    (hpcC : pc ≠ 'C') (hpcB : pc ≠ 'B') (hpcz : pc ≠ '0') :
    ∀ fuel a b, '\x00' ∉ a → '\x00' ∉ b → (a ++ cbPh ++ b).length ≤ fuel →
      ∃ a' b', replaceAllGo pat repl fuel (a ++ cbPh ++ b) = a' ++ cbPh ++ b' ∧
        '\x00' ∉ a' ∧ '\x00' ∉ b' := by
  have hpc0 : pc ≠ '\x00' := fun h => hpatnul (hpat ▸ (h ▸ List.mem_cons_self pc pr))
  intro fuel
  induction fuel with
  | zero =>
    intro a b _ _ hf
    exfalso
    simp only [List.length_append, cbPh_length, Nat.le_zero] at hf
    omega
  | succ fuel ih =>
    intro a b ha hb hf
    cases a with
    | nil =>
      have hlen : b.length + 5 ≤ fuel + 1 := by
        simp only [List.length_append, cbPh_length, List.nil_append,
          List.length_nil] at hf
        omega
      obtain ⟨g, hg, hgb⟩ : ∃ g, fuel + 1 = g + 5 ∧ b.length ≤ g :=
        ⟨fuel - 4, by omega, by omega⟩
      rw [List.nil_append, hg, replaceAllGo_cbPh hpat hpc0 hpcC hpcB hpcz g b]
      exact ⟨[], replaceAllGo pat repl g b, rfl, List.not_mem_nil _,
        replaceAllGo_no_nul hrepl g b hb⟩
    | cons c a =>
      have hc : c ≠ '\x00' := fun h => ha (h ▸ List.mem_cons_self c a)
      have ha' : '\x00' ∉ a := fun h => ha (List.mem_cons_of_mem c h)
      have hihab : (a ++ cbPh ++ b).length ≤ fuel := by
        simp only [List.length_append, cbPh_length, List.length_cons] at hf ⊢
        omega
      simp only [List.cons_append, replaceAllGo, List.append_eq]
      split
      · rename_i hm
        have hle : pat.length ≤ (c :: a : Str).length := by
          have hsh : (c :: (a ++ cbPh ++ b) : Str)
              = (c :: a) ++ '\x00' :: ('C' :: 'B' :: '0' :: '\x00' :: b) := by
            rw [← mid_shape]; rfl
          exact isPrefixOf_nul_le hpatnul (by rw [← hsh]; exact hm)
        have hdropeq : (c :: (a ++ cbPh ++ b) : Str).drop pat.length
            = (c :: a : Str).drop pat.length ++ cbPh ++ b := by
          rw [show (c :: (a ++ cbPh ++ b) : Str) = (c :: a) ++ cbPh ++ b from by simp]
          exact drop_mid_le b hle
        rw [hdropeq]
        have hdnul : '\x00' ∉ (c :: a : Str).drop pat.length := by
          intro h
          have := (List.drop_sublist pat.length (c :: a : Str)).subset h
          rcases List.mem_cons.mp this with h1 | h1
          · exact hc h1.symm
          · exact ha' h1
        obtain ⟨a₂, b₂, heq, ha₂, hb₂⟩ := ih ((c :: a : Str).drop pat.length) b
          hdnul hb (by
            have hld := List.length_drop pat.length (c :: a : Str)
            have hplen : 1 ≤ pat.length := by rw [hpat]; simp
            simp only [List.length_cons] at hld
            simp only [List.length_append, cbPh_length, List.length_cons,
              hld] at hf ⊢
            omega)
        rw [heq]
        exact ⟨repl ++ a₂, b₂, by simp, nul_not_mem_append hrepl ha₂, hb₂⟩
      · obtain ⟨a₂, b₂, heq, ha₂, hb₂⟩ := ih a b ha' hb hihab
        rw [heq]
        exact ⟨c :: a₂, b₂, rfl,
          fun h => (List.mem_cons.mp h).elim (fun h' => hc h'.symm) ha₂, hb₂⟩

theorem emptyParaGo_no_nul :
    ∀ fuel s, '\x00' ∉ s → '\x00' ∉ emptyParaGo fuel s := by
  intro fuel
  induction fuel with
  | zero => intro s hs; cases s with
    | nil => simp [emptyParaGo]
    | cons c rest => exact hs
  | succ fuel ih =>
    intro s hs
    cases s with
    | nil => simp [emptyParaGo]
    | cons c rest =>
      have hrest : '\x00' ∉ rest := fun h => hs (List.mem_cons_of_mem c h)
      have hc : c ≠ '\x00' := fun h => hs (h ▸ List.mem_cons_self c rest)
      have hstep : '\x00' ∉ c :: emptyParaGo fuel rest := by
        intro hmem
        rcases List.mem_cons.mp hmem with h2 | h2
        · exact hc h2.symm
        · exact ih rest hrest h2
      simp only [emptyParaGo]
      split
      · split
        · refine ih _ ?_
          intro hx
          exact hs ((List.drop_sublist _ _).subset
            ((List.drop_sublist _ _).subset ((List.drop_sublist _ _).subset hx)))
        · exact hstep
      · exact hstep

theorem emptyParaGo_cbPh :
    ∀ fuel b, emptyParaGo (fuel + 5) (cbPh ++ b) = cbPh ++ emptyParaGo fuel b := by
  intro fuel b
  have h1 : (cs "<p>").isPrefixOf ('\x00' :: 'C' :: 'B' :: '0' :: '\x00' :: b)
      = false := isPrefixOf_eq_false_of_head_ne (by decide)
  have h2 : (cs "<p>").isPrefixOf ('C' :: 'B' :: '0' :: '\x00' :: b) = false :=
    isPrefixOf_eq_false_of_head_ne (by decide)
  have h3 : (cs "<p>").isPrefixOf ('B' :: '0' :: '\x00' :: b) = false :=
    isPrefixOf_eq_false_of_head_ne (by decide)
  have h4 : (cs "<p>").isPrefixOf ('0' :: '\x00' :: b) = false :=
    isPrefixOf_eq_false_of_head_ne (by decide)
  have h5 : (cs "<p>").isPrefixOf ('\x00' :: b) = false :=
    isPrefixOf_eq_false_of_head_ne (by decide)
  show emptyParaGo (fuel + 5) ('\x00' :: 'C' :: 'B' :: '0' :: '\x00' :: b)
    = cbPh ++ emptyParaGo fuel b
  simp only [show fuel + 5 = (((fuel + 1) + 1) + 1) + 2 from rfl]
  simp only [emptyParaGo, h1, h2, h3, h4, h5, Bool.false_eq_true, if_false]
  rfl

theorem emptyParaGo_mid :
    ∀ fuel a b, '\x00' ∉ a → '\x00' ∉ b → (a ++ cbPh ++ b).length ≤ fuel →
      ∃ a' b', emptyParaGo fuel (a ++ cbPh ++ b) = a' ++ cbPh ++ b' ∧
        '\x00' ∉ a' ∧ '\x00' ∉ b' := by
  intro fuel
  induction fuel with
  | zero =>
    intro a b _ _ hf
    exfalso
    simp only [List.length_append, cbPh_length, Nat.le_zero] at hf
    omega
  | succ fuel ih =>
    intro a b ha hb hf
    cases a with
    | nil =>
      have hlen : b.length + 5 ≤ fuel + 1 := by
        simp only [List.length_append, cbPh_length, List.nil_append,
          List.length_nil] at hf
        omega
      obtain ⟨g, hg, hgb⟩ : ∃ g, fuel + 1 = g + 5 ∧ b.length ≤ g :=
        ⟨fuel - 4, by omega, by omega⟩
      rw [List.nil_append, hg, emptyParaGo_cbPh g b]
      exact ⟨[], emptyParaGo g b, rfl, List.not_mem_nil _, emptyParaGo_no_nul g b hb⟩
    | cons c a =>
      have hc : c ≠ '\x00' := fun h => ha (h ▸ List.mem_cons_self c a)
      have ha' : '\x00' ∉ a := fun h => ha (List.mem_cons_of_mem c h)
      have hihab : (a ++ cbPh ++ b).length ≤ fuel := by
        simp only [List.length_append, cbPh_length, List.length_cons] at hf ⊢
        omega
      have hconscl : ∃ a' b', c :: emptyParaGo fuel (a ++ cbPh ++ b)
          = a' ++ cbPh ++ b' ∧ '\x00' ∉ a' ∧ '\x00' ∉ b' := by
        obtain ⟨a₂, b₂, heq, ha₂, hb₂⟩ := ih a b ha' hb hihab
        rw [heq]
        exact ⟨c :: a₂, b₂, rfl,
          fun h => (List.mem_cons.mp h).elim (fun h' => hc h'.symm) ha₂, hb₂⟩
      simp only [List.cons_append, emptyParaGo, List.append_eq]
      split
      · rename_i hm
        have hle3 : (cs "<p>").length ≤ (c :: a : Str).length := by
          have hsh : (c :: (a ++ cbPh ++ b) : Str)
              = (c :: a) ++ '\x00' :: ('C' :: 'B' :: '0' :: '\x00' :: b) := by
            rw [← mid_shape]; rfl
          exact isPrefixOf_nul_le (by decide) (by rw [← hsh]; exact hm)
        have hdropeq : (c :: (a ++ cbPh ++ b) : Str).drop 3
            = (c :: a : Str).drop 3 ++ cbPh ++ b := by
          rw [show (c :: (a ++ cbPh ++ b) : Str) = (c :: a) ++ cbPh ++ b from by simp]
          exact drop_mid_le b hle3
        rw [hdropeq]
        have hxnul : '\x00' ∉ (c :: a : Str).drop 3 := by
          intro h
          have := (List.drop_sublist 3 (c :: a : Str)).subset h
          rcases List.mem_cons.mp this with h1 | h1
          · exact hc h1.symm
          · exact ha' h1
        rcases all_or_first_fail isJsWs ((c :: a : Str).drop 3)
          with hall | ⟨u, d, v, hxv, hu, hd⟩
        · have htw : ((c :: a : Str).drop 3 ++ cbPh ++ b).takeWhile isJsWs
              = (c :: a : Str).drop 3 := by
            rw [mid_shape, takeWhile_all_stop _ hall (by decide)]
          have hdrop2 : ((c :: a : Str).drop 3 ++ cbPh ++ b).drop
              ((c :: a : Str).drop 3).length
              = '\x00' :: ('C' :: 'B' :: '0' :: '\x00' :: b) := by
            rw [mid_shape, List.drop_left]
          rw [htw, hdrop2]
          rw [show (cs "</p>").isPrefixOf
              ('\x00' :: ('C' :: 'B' :: '0' :: '\x00' :: b)) = false from
            isPrefixOf_eq_false_of_head_ne (by decide)]
          simp only [Bool.false_eq_true, if_false]
          exact hconscl
        · have htw : ((c :: a : Str).drop 3 ++ cbPh ++ b).takeWhile isJsWs
              = u := by
            rw [hxv, show (u ++ d :: v : Str) ++ cbPh ++ b
              = u ++ d :: (v ++ cbPh ++ b) from by simp,
              takeWhile_all_stop _ hu hd]
          have hdrop2 : ((c :: a : Str).drop 3 ++ cbPh ++ b).drop u.length
              = d :: (v ++ cbPh ++ b) := by
            rw [hxv, show (u ++ d :: v : Str) ++ cbPh ++ b
              = u ++ d :: (v ++ cbPh ++ b) from by simp, List.drop_left]
          rw [htw, hdrop2]
          have hdvnul : '\x00' ∉ (d :: v : Str) := by
            intro h
            apply hxnul
            rw [hxv]
            rcases List.mem_cons.mp h with h1 | h1
            · exact List.mem_append.mpr (Or.inr (h1 ▸ List.mem_cons_self d v))
            · exact List.mem_append.mpr (Or.inr (List.mem_cons_of_mem d h1))
          split
          · rename_i hm2
            have hle4 : (cs "</p>").length ≤ (d :: v : Str).length := by
              have hsh : (d :: (v ++ cbPh ++ b) : Str)
                  = (d :: v) ++ '\x00' :: ('C' :: 'B' :: '0' :: '\x00' :: b) := by
                rw [← mid_shape]; rfl
              exact isPrefixOf_nul_le (by decide) (by rw [← hsh]; exact hm2)
            have hdropeq2 : (d :: (v ++ cbPh ++ b) : Str).drop 4
                = (d :: v : Str).drop 4 ++ cbPh ++ b := by
              rw [show (d :: (v ++ cbPh ++ b) : Str)
                = (d :: v) ++ cbPh ++ b from by simp]
              exact drop_mid_le b hle4
            rw [hdropeq2]
            have hynul : '\x00' ∉ (d :: v : Str).drop 4 :=
              fun h => hdvnul ((List.drop_sublist 4 (d :: v : Str)).subset h)
            refine ih ((d :: v : Str).drop 4) b hynul hb (by
              have hld := List.length_drop 4 (d :: v : Str)
              have hxl : ((c :: a : Str).drop 3).length = a.length - 2 := by
                rw [List.length_drop]
                simp only [List.length_cons]
                omega
              have hdl : (d :: v : Str).length ≤ ((c :: a : Str).drop 3).length := by
                rw [hxv]
                simp only [List.length_append, List.length_cons]
                omega
              simp only [List.length_cons] at hld hdl
              simp only [List.length_append, cbPh_length, List.length_cons,
                hxl] at hf hdl ⊢
              omega)
          · exact hconscl
      · exact hconscl

theorem restore_ic_nil (s : Str) : restorePlaceholders (cs "IC") [] s = s := rfl

theorem restore_cb_single (B s : Str) :
    restorePlaceholders (cs "CB") [B] s = replaceFirst cbPh B s := rfl

theorem findSub_cbPh (b : Str) :
    ∀ a, '\x00' ∉ a → findSub cbPh (a ++ cbPh ++ b) = some (a, b) := by
  intro a
  induction a with
  | nil =>
    intro _
    rw [List.nil_append, cbPh_shape]
    have hpfx : cbPh.isPrefixOf
        ('\x00' :: ('C' :: 'B' :: '0' :: '\x00' :: b)) = true := by
      rw [← cbPh_shape]
      exact isPrefixOf_append_self cbPh b
    simp only [findSub, hpfx, if_true, cbPh_length]
    rfl
  | cons c a ih =>
    intro ha
    have hc : c ≠ '\x00' := fun h => ha (h ▸ List.mem_cons_self c a)
    have ha' : '\x00' ∉ a := fun h => ha (List.mem_cons_of_mem c h)
    have hpfx : cbPh.isPrefixOf (c :: (a ++ cbPh ++ b)) = false := by
      rw [cbPh_eq]
      exact isPrefixOf_eq_false_of_head_ne hc
    simp only [List.cons_append, findSub, List.append_eq, hpfx,
      Bool.false_eq_true, if_false]
    rw [ih ha']
    rfl

theorem getSubst_no_dollar (matched before after : Str) {repl : Str}
    (h : '$' ∉ repl) :
    ∀ fuel, repl.length ≤ fuel → getSubstGo matched before after fuel repl = repl := by
  induction repl with
  | nil => intro fuel _; cases fuel <;> rfl
  | cons c rest ih =>
    intro fuel hf
    cases fuel with
    | zero => simp at hf
    | succ fuel =>
      have hc : ¬ (c = '$') := fun he => h (he ▸ List.mem_cons_self c rest)
      have hrest : '$' ∉ rest := fun hm => h (List.mem_cons_of_mem c hm)
      simp only [getSubstGo, hc, if_false]
      rw [ih hrest fuel (by simpa using Nat.le_of_succ_le_succ hf)]

theorem mem_jsTrim {c : Char} {s : Str} (h : c ∈ jsTrim s) : c ∈ s := by
  unfold jsTrim at h
  rw [List.mem_reverse] at h
  have h2 := (List.dropWhile_sublist _).subset h
  rw [List.mem_reverse] at h2
  exact (List.dropWhile_sublist _).subset h2

theorem escapeHtml_no_dollar {s : Str} (hs : '$' ∉ s) : '$' ∉ escapeHtml s := by
  intro h
  obtain ⟨d, hd, hmem⟩ := List.mem_flatMap.mp h
  revert hmem
  split_ifs <;> intro hmem <;>
    first
      | exact absurd hmem (by decide)
      | exact hs (List.mem_singleton.mp hmem ▸ hd)

theorem replaceFirst_cbPh (B a b : Str) (ha : '\x00' ∉ a) (hB : '$' ∉ B) :
    replaceFirst cbPh B (a ++ cbPh ++ b) = a ++ B ++ b := by
  unfold replaceFirst
  rw [findSub_cbPh b a ha]
  dsimp only
  rw [getSubst_no_dollar cbPh a b hB B.length (Nat.le_refl _)]

theorem isPrefixOf_long (p w : Str) (z : Str) (h : p.length ≤ w.length) :
    p.isPrefixOf (w ++ z) = p.isPrefixOf w := by
  induction p generalizing w with
  | nil => simp [List.isPrefixOf]
  | cons pc pt ih =>
    cases w with
    | nil => simp at h
    | cons wc wt =>
      show List.isPrefixOf (pc :: pt) (wc :: (wt ++ z))
        = List.isPrefixOf (pc :: pt) (wc :: wt)
      simp only [List.isPrefixOf]
      rw [ih wt (by simpa using Nat.le_of_succ_le_succ h)]

theorem isPrefixOf_append_cancel (a p w : Str) :
    (a ++ p).isPrefixOf (a ++ w) = p.isPrefixOf w := by
  induction a with
  | nil => rfl
  | cons c a ih =>
    show List.isPrefixOf (c :: (a ++ p)) (c :: (a ++ w)) = p.isPrefixOf w
    simp only [List.isPrefixOf, beq_self_eq_true, Bool.true_and]
    exact ih

theorem isPrefixOf_append_split {p x t : Str} (h : p.isPrefixOf (x ++ t) = true)
    (hlt : x.length < p.length) :
    p = x ++ p.drop x.length ∧ (p.drop x.length).isPrefixOf t = true := by
  obtain ⟨r, hr⟩ := List.isPrefixOf_iff_prefix.mp h
  have htake : p.take x.length = x := by
    have h1 := congrArg (List.take x.length) hr
    rw [List.take_append_of_le_length (Nat.le_of_lt hlt), List.take_left] at h1
    exact h1
  have hdrop : p.drop x.length ++ r = t := by
    have h1 := congrArg (List.drop x.length) hr
    rw [drop_append_le r (Nat.le_of_lt hlt), List.drop_left] at h1
    exact h1
  constructor
  · conv_lhs => rw [← List.take_append_drop x.length p]
    rw [htake]
  · rw [← hdrop]
    exact isPrefixOf_append_self _ r

theorem pat_head_cons {pat : Str} (h : pat.take 1 = ['<']) :
    pat = '<' :: pat.drop 1 := by
  conv_lhs => rw [← List.take_append_drop 1 pat]
  rw [h]
  rfl

theorem raGo_step {pat repl : Str} {c : Char} {t : Str}
    (h : pat.isPrefixOf (c :: t) = false) (fuel : Nat) :
    replaceAllGo pat repl (fuel + 1) (c :: t) = c :: replaceAllGo pat repl fuel t := by
  simp only [replaceAllGo, h, Bool.false_eq_true, if_false]

theorem raGo_skip {pat repl : Str} {pr : Str} (hpat : pat = '<' :: pr) :
    ∀ w, '<' ∉ w → ∀ fuel z, w.length ≤ fuel →
      replaceAllGo pat repl fuel (w ++ z)
        = w ++ replaceAllGo pat repl (fuel - w.length) z := by
  intro w
  induction w with
  | nil => intro _ fuel z _; simp
  | cons c w ih =>
    intro hw fuel z hf
    have hc : c ≠ '<' := fun h => hw (h ▸ List.mem_cons_self c w)
    have hw' : '<' ∉ w := fun h => hw (List.mem_cons_of_mem c h)
    cases fuel with
    | zero => simp at hf
    | succ fuel =>
      have hpf : pat.isPrefixOf (c :: (w ++ z)) = false := by
        rw [hpat]
        exact isPrefixOf_eq_false_of_head_ne hc
      show replaceAllGo pat repl (fuel + 1) (c :: (w ++ z)) = _
      rw [raGo_step hpf, ih hw' fuel z (by
        simp only [List.length_cons] at hf; omega)]
      simp only [List.length_cons, Nat.succ_sub_succ, List.cons_append]

theorem drop_append_add {x : Str} (S : Str) (n : Nat) :
    (x ++ S).drop (x.length + n) = S.drop n := by
  induction x with
  | nil => simp
  | cons c x ih =>
    show ((c :: x : Str) ++ S).drop (x.length + 1 + n) = S.drop n
    rw [show x.length + 1 + n = (x.length + n) + 1 from by omega]
    simp only [List.cons_append, List.drop_succ_cons]
    exact ih

theorem mkCleanupPat (pat repl : Str)
    (h : pat.take 1 = ['<'] ∧ '\x00' ∉ pat ∧ '\x00' ∉ repl ∧
      5 ≤ pat.length ∧ pat.length ≤ 22 ∧
      pat.take 5 ≠ cs "<pre " ∧ pat.take 2 ≠ cs "<c" ∧ pat.take 3 ≠ cs "</c" ∧
      (pat.take 4 ≠ cs "</pr" ∨ (pat.take 6 = cs "</pre>" ∧ repl = cs "</pre>")) ∧
      (∀ j : Fin pat.length,
        (pat.drop j.val).isPrefixOf (cs "<pre class=\"code-block") = true →
        pat.drop j.val = cs "<pre" ∧ repl = cs "<pre")) :
    CleanupPat pat repl := by
  obtain ⟨h1, h2, h3, h4, h22, hb1, hb2, hb3, hb4, hin⟩ := h
  refine ⟨h1, h2, h3, h4, ?_, ?_, ?_, ?_, ?_⟩
  · intro z
    show pat.isPrefixOf (['<', 'p', 'r', 'e', ' '] ++ z) = false
    exact isPrefixOf_eq_false_of_take_ne z 5 h4 (by decide)
      (fun he => hb1 (he.trans (by decide)))
  · intro z
    show pat.isPrefixOf (['<', 'c'] ++ z) = false
    exact isPrefixOf_eq_false_of_take_ne z 2 (le_trans (by decide) h4) (by decide)
      (fun he => hb2 (he.trans (by decide)))
  · intro z
    show pat.isPrefixOf (['<', '/', 'c'] ++ z) = false
    exact isPrefixOf_eq_false_of_take_ne z 3 (le_trans (by decide) h4) (by decide)
      (fun he => hb3 (he.trans (by decide)))
  · rcases hb4 with hb4 | ⟨ht6, hr⟩
    · refine Or.inl (fun z => ?_)
      show pat.isPrefixOf (['<', '/', 'p', 'r'] ++ z) = false
      exact isPrefixOf_eq_false_of_take_ne z 4 (le_trans (by decide) h4) (by decide)
        (fun he => hb4 (he.trans (by decide)))
    · refine Or.inr ⟨pat.drop 6, ?_, hr⟩
      rw [← ht6]
      exact (List.take_append_drop 6 pat).symm
  · intro j hj0 hjl z hpf
    have hlen : (pat.drop j).length ≤ (cs "<pre class=\"code-block").length := by
      rw [List.length_drop]
      have h22' : (cs "<pre class=\"code-block").length = 22 := by decide
      omega
    rw [isPrefixOf_long _ _ z hlen] at hpf
    exact hin ⟨j, hjl⟩ hpf

theorem cleanupPat01 : CleanupPat (cs "</pre><br>") (cs "</pre>") :=
  mkCleanupPat _ _ (by decide)

theorem cleanupPat02 : CleanupPat (cs "<br><pre") (cs "<pre") :=
  mkCleanupPat _ _ (by decide)

theorem cleanupPat03 : CleanupPat (cs "</h1><br>") (cs "</h1>") :=
  mkCleanupPat _ _ (by decide)

theorem cleanupPat04 : CleanupPat (cs "</h2><br>") (cs "</h2>") :=
  mkCleanupPat _ _ (by decide)

theorem cleanupPat05 : CleanupPat (cs "</h3><br>") (cs "</h3>") :=
  mkCleanupPat _ _ (by decide)

theorem cleanupPat06 : CleanupPat (cs "</li><br>") (cs "</li>") :=
  mkCleanupPat _ _ (by decide)

theorem cleanupPat07 : CleanupPat (cs "</ul><br>") (cs "</ul>") :=
  mkCleanupPat _ _ (by decide)

theorem cleanupPat08 : CleanupPat (cs "<br><ul>") (cs "<ul>") :=
  mkCleanupPat _ _ (by decide)

theorem cleanupPat09 : CleanupPat (cs "</blockquote><br>") (cs "</blockquote>") :=
  mkCleanupPat _ _ (by decide)

theorem cleanupPat10 : CleanupPat (cs "<ul><br>") (cs "<ul>") :=
  mkCleanupPat _ _ (by decide)

theorem cleanupPat11 : CleanupPat (cs "<br><li>") (cs "<li>") :=
  mkCleanupPat _ _ (by decide)

theorem cleanupPat12 : CleanupPat (cs "<p><ul>") (cs "<ul>") :=
  mkCleanupPat _ _ (by decide)

theorem cleanupPat13 : CleanupPat (cs "</ul></p>") (cs "</ul>") :=
  mkCleanupPat _ _ (by decide)

theorem cleanupPat14 : CleanupPat (cs "<p><pre") (cs "<pre") :=
  mkCleanupPat _ _ (by decide)

theorem cleanupPat15 : CleanupPat (cs "</pre></p>") (cs "</pre>") :=
  mkCleanupPat _ _ (by decide)

theorem cleanupPat16 : CleanupPat (cs "<p><h1>") (cs "<h1>") :=
  mkCleanupPat _ _ (by decide)

theorem cleanupPat17 : CleanupPat (cs "<p><h2>") (cs "<h2>") :=
  mkCleanupPat _ _ (by decide)

theorem cleanupPat18 : CleanupPat (cs "<p><h3>") (cs "<h3>") :=
  mkCleanupPat _ _ (by decide)

theorem cleanupPat19 : CleanupPat (cs "</h1></p>") (cs "</h1>") :=
  mkCleanupPat _ _ (by decide)

theorem cleanupPat20 : CleanupPat (cs "</h2></p>") (cs "</h2>") :=
  mkCleanupPat _ _ (by decide)

theorem cleanupPat21 : CleanupPat (cs "</h3></p>") (cs "</h3>") :=
  mkCleanupPat _ _ (by decide)

theorem cleanupPat22 : CleanupPat (cs "</p><br><p>") (cs "</p><p>") :=
  mkCleanupPat _ _ (by decide)

theorem cleanupPat23 : CleanupPat (cs "<br></p>") (cs "</p>") :=
  mkCleanupPat _ _ (by decide)

theorem cleanupPat24 : CleanupPat (cs "<p><br>") (cs "<p>") :=
  mkCleanupPat _ _ (by decide)

theorem cleanup_tail {pat repl : Str} (cp : CleanupPat pat repl) :
    ∀ fuel y, '\x00' ∉ y →
      ('<' :: '/' :: 'p' :: 'r' :: 'e' :: '>' :: y).length ≤ fuel →
      ∃ y', replaceAllGo pat repl fuel ('<' :: '/' :: 'p' :: 'r' :: 'e' :: '>' :: y)
          = '<' :: '/' :: 'p' :: 'r' :: 'e' :: '>' :: y' ∧ '\x00' ∉ y' := by
  intro fuel y hy hf
  obtain ⟨g, rfl, hyg⟩ : ∃ g, fuel = g + 6 ∧ y.length ≤ g :=
    ⟨fuel - 6, by simp only [List.length_cons] at hf; omega,
      by simp only [List.length_cons] at hf; omega⟩
  have hnomatch : pat.isPrefixOf ('<' :: '/' :: 'p' :: 'r' :: 'e' :: '>' :: y) = false →
      ∃ y', replaceAllGo pat repl (g + 6) ('<' :: '/' :: 'p' :: 'r' :: 'e' :: '>' :: y)
        = '<' :: '/' :: 'p' :: 'r' :: 'e' :: '>' :: y' ∧ '\x00' ∉ y' := by
    intro hpf
    rw [show g + 6 = (g + 5) + 1 from rfl, raGo_step hpf]
    have hskip := @raGo_skip pat repl _ (pat_head_cons cp.hhead) ['/', 'p', 'r', 'e', '>']
      (by decide) (g + 5) y (by simp only [List.length_cons, List.length_nil]; omega)
    rw [show ('/' :: 'p' :: 'r' :: 'e' :: '>' :: y : Str)
      = (['/', 'p', 'r', 'e', '>'] : Str) ++ y from rfl, hskip]
    exact ⟨replaceAllGo pat repl (g + 5 - (['/', 'p', 'r', 'e', '>'] : Str).length) y,
      rfl, replaceAllGo_no_nul cp.hrnul _ y hy⟩
  rcases cp.hcpre with hno | ⟨pt, hpp, hrepl6⟩
  · exact hnomatch (hno _)
  · cases hm : pt.isPrefixOf y with
    | false =>
      refine hnomatch ?_
      rw [show ('<' :: '/' :: 'p' :: 'r' :: 'e' :: '>' :: y : Str)
        = cs "</pre>" ++ y from rfl, hpp, isPrefixOf_append_cancel]
      exact hm
    | true =>
      have hpf : pat.isPrefixOf ('<' :: '/' :: 'p' :: 'r' :: 'e' :: '>' :: y) = true := by
        rw [show ('<' :: '/' :: 'p' :: 'r' :: 'e' :: '>' :: y : Str)
          = cs "</pre>" ++ y from rfl, hpp, isPrefixOf_append_cancel]
        exact hm
      rw [show g + 6 = (g + 5) + 1 from rfl]
      simp only [replaceAllGo, hpf, if_true]
      have hplen : pat.length = pt.length + 6 := by
        rw [hpp, List.length_append]
        have h6 : (cs "</pre>").length = 6 := by decide
        omega
      have hdrop : ('<' :: '/' :: 'p' :: 'r' :: 'e' :: '>' :: y : Str).drop pat.length
          = y.drop pt.length := by
        rw [hplen, Nat.add_comm pt.length 6]
        exact @drop_append_add ['<', '/', 'p', 'r', 'e', '>'] y pt.length
      rw [hdrop, hrepl6]
      exact ⟨replaceAllGo pat (cs "</pre>") (g + 5) (y.drop pt.length), rfl,
        replaceAllGo_no_nul (hrepl6 ▸ cp.hrnul) _ _
          (fun h => hy ((List.drop_sublist _ _).subset h))⟩

theorem not_mem_append' {c : Char} {a b : Str} (ha : c ∉ a) (hb : c ∉ b) :
    c ∉ a ++ b :=
  fun h => (List.mem_append.mp h).elim ha hb

theorem cleanup_from_code {pat repl : Str} (cp : CleanupPat pat repl) (E : Str)
    (hE : '<' ∉ E) :
    ∀ fuel y, '\x00' ∉ y →
      ('<' :: 'c' :: 'o' :: 'd' :: 'e' :: '>' ::
        (E ++ '<' :: '/' :: 'c' :: 'o' :: 'd' :: 'e' :: '>' ::
          '<' :: '/' :: 'p' :: 'r' :: 'e' :: '>' :: y)).length ≤ fuel →
      ∃ y', replaceAllGo pat repl fuel
          ('<' :: 'c' :: 'o' :: 'd' :: 'e' :: '>' ::
            (E ++ '<' :: '/' :: 'c' :: 'o' :: 'd' :: 'e' :: '>' ::
              '<' :: '/' :: 'p' :: 'r' :: 'e' :: '>' :: y))
        = '<' :: 'c' :: 'o' :: 'd' :: 'e' :: '>' ::
            (E ++ '<' :: '/' :: 'c' :: 'o' :: 'd' :: 'e' :: '>' ::
              '<' :: '/' :: 'p' :: 'r' :: 'e' :: '>' :: y') ∧ '\x00' ∉ y' := by
  intro fuel y hy hf
  have hflen : E.length + y.length + 19 ≤ fuel := by
    simp only [List.length_cons, List.length_append] at hf
    omega
  obtain ⟨g, rfl⟩ : ∃ g, fuel = g + 1 := ⟨fuel - 1, by omega⟩
  rw [raGo_step (cp.hncode _)]
  have hsh : ('c' :: 'o' :: 'd' :: 'e' :: '>' ::
      (E ++ '<' :: '/' :: 'c' :: 'o' :: 'd' :: 'e' :: '>' ::
        '<' :: '/' :: 'p' :: 'r' :: 'e' :: '>' :: y) : Str)
      = ('c' :: 'o' :: 'd' :: 'e' :: '>' :: E : Str) ++
        ('<' :: '/' :: 'c' :: 'o' :: 'd' :: 'e' :: '>' ::
          '<' :: '/' :: 'p' :: 'r' :: 'e' :: '>' :: y) := by
    simp
  have hwfree : '<' ∉ ('c' :: 'o' :: 'd' :: 'e' :: '>' :: E : Str) := by
    intro h
    simp only [List.mem_cons] at h
    rcases h with h | h | h | h | h | h
    · exact absurd h (by decide)
    · exact absurd h (by decide)
    · exact absurd h (by decide)
    · exact absurd h (by decide)
    · exact absurd h (by decide)
    · exact hE h
  have hwlen : ('c' :: 'o' :: 'd' :: 'e' :: '>' :: E : Str).length = E.length + 5 := by
    simp only [List.length_cons]
  rw [hsh, @raGo_skip pat repl _ (pat_head_cons cp.hhead) _ hwfree g _
    (by rw [hwlen]; omega), hwlen]
  obtain ⟨g₂, hg₂, hg₂b⟩ : ∃ g₂, g - (E.length + 5) = g₂ + 1 ∧ y.length + 13 ≤ g₂ + 1 :=
    ⟨g - (E.length + 5) - 1, by omega, by omega⟩
  rw [hg₂, raGo_step (cp.hnccode _)]
  rw [show ('/' :: 'c' :: 'o' :: 'd' :: 'e' :: '>' ::
      '<' :: '/' :: 'p' :: 'r' :: 'e' :: '>' :: y : Str)
    = (['/', 'c', 'o', 'd', 'e', '>'] : Str) ++
      ('<' :: '/' :: 'p' :: 'r' :: 'e' :: '>' :: y) from rfl,
    @raGo_skip pat repl _ (pat_head_cons cp.hhead) ['/', 'c', 'o', 'd', 'e', '>']
      (by decide) g₂ _ (by simp only [List.length_cons, List.length_nil]; omega),
    show ((['/', 'c', 'o', 'd', 'e', '>'] : Str)).length = 6 from rfl]
  obtain ⟨y', hty, hy'⟩ := cleanup_tail cp (g₂ - 6) y hy
    (by simp only [List.length_cons]; omega)
  rw [hty]
  refine ⟨y', ?_, hy'⟩
  simp

theorem cleanup_from4 {pat repl : Str} (cp : CleanupPat pat repl) (L E : Str)
    (hL : '<' ∉ L) (hE : '<' ∉ E) :
    ∀ fuel y, '\x00' ∉ y →
      (' ' :: 'c' :: 'l' :: 'a' :: 's' :: 's' :: '=' :: '"' ::
        'c' :: 'o' :: 'd' :: 'e' :: '-' :: 'b' :: 'l' :: 'o' :: 'c' :: 'k' ::
        (L ++ '"' :: '>' :: '<' :: 'c' :: 'o' :: 'd' :: 'e' :: '>' ::
          (E ++ '<' :: '/' :: 'c' :: 'o' :: 'd' :: 'e' :: '>' ::
            '<' :: '/' :: 'p' :: 'r' :: 'e' :: '>' :: y))).length ≤ fuel →
      ∃ y', replaceAllGo pat repl fuel
          (' ' :: 'c' :: 'l' :: 'a' :: 's' :: 's' :: '=' :: '"' ::
            'c' :: 'o' :: 'd' :: 'e' :: '-' :: 'b' :: 'l' :: 'o' :: 'c' :: 'k' ::
            (L ++ '"' :: '>' :: '<' :: 'c' :: 'o' :: 'd' :: 'e' :: '>' ::
              (E ++ '<' :: '/' :: 'c' :: 'o' :: 'd' :: 'e' :: '>' ::
                '<' :: '/' :: 'p' :: 'r' :: 'e' :: '>' :: y)))
        = ' ' :: 'c' :: 'l' :: 'a' :: 's' :: 's' :: '=' :: '"' ::
            'c' :: 'o' :: 'd' :: 'e' :: '-' :: 'b' :: 'l' :: 'o' :: 'c' :: 'k' ::
            (L ++ '"' :: '>' :: '<' :: 'c' :: 'o' :: 'd' :: 'e' :: '>' ::
              (E ++ '<' :: '/' :: 'c' :: 'o' :: 'd' :: 'e' :: '>' ::
                '<' :: '/' :: 'p' :: 'r' :: 'e' :: '>' :: y')) ∧ '\x00' ∉ y' := by
  intro fuel y hy hf
  have hflen : L.length + E.length + y.length + 39 ≤ fuel := by
    simp only [List.length_cons, List.length_append] at hf
    omega
  rw [show (' ' :: 'c' :: 'l' :: 'a' :: 's' :: 's' :: '=' :: '"' ::
      'c' :: 'o' :: 'd' :: 'e' :: '-' :: 'b' :: 'l' :: 'o' :: 'c' :: 'k' ::
      (L ++ '"' :: '>' :: '<' :: 'c' :: 'o' :: 'd' :: 'e' :: '>' ::
        (E ++ '<' :: '/' :: 'c' :: 'o' :: 'd' :: 'e' :: '>' ::
          '<' :: '/' :: 'p' :: 'r' :: 'e' :: '>' :: y)) : Str)
    = ([' ', 'c', 'l', 'a', 's', 's', '=', '"',
        'c', 'o', 'd', 'e', '-', 'b', 'l', 'o', 'c', 'k'] : Str) ++
      (L ++ '"' :: '>' :: '<' :: 'c' :: 'o' :: 'd' :: 'e' :: '>' ::
        (E ++ '<' :: '/' :: 'c' :: 'o' :: 'd' :: 'e' :: '>' ::
          '<' :: '/' :: 'p' :: 'r' :: 'e' :: '>' :: y)) from rfl,
    @raGo_skip pat repl _ (pat_head_cons cp.hhead)
      [' ', 'c', 'l', 'a', 's', 's', '=', '"',
        'c', 'o', 'd', 'e', '-', 'b', 'l', 'o', 'c', 'k'] (by decide) fuel _
      (by simp only [List.length_cons, List.length_nil]; omega),
    show (([' ', 'c', 'l', 'a', 's', 's', '=', '"',
      'c', 'o', 'd', 'e', '-', 'b', 'l', 'o', 'c', 'k'] : Str)).length = 18 from rfl,
    @raGo_skip pat repl _ (pat_head_cons cp.hhead) L hL (fuel - 18) _ (by omega)]
  rw [show ('"' :: '>' :: '<' :: 'c' :: 'o' :: 'd' :: 'e' :: '>' ::
      (E ++ '<' :: '/' :: 'c' :: 'o' :: 'd' :: 'e' :: '>' ::
        '<' :: '/' :: 'p' :: 'r' :: 'e' :: '>' :: y) : Str)
    = (['"', '>'] : Str) ++
      ('<' :: 'c' :: 'o' :: 'd' :: 'e' :: '>' ::
        (E ++ '<' :: '/' :: 'c' :: 'o' :: 'd' :: 'e' :: '>' ::
          '<' :: '/' :: 'p' :: 'r' :: 'e' :: '>' :: y)) from rfl,
    @raGo_skip pat repl _ (pat_head_cons cp.hhead) ['"', '>'] (by decide)
      (fuel - 18 - L.length) _
      (by simp only [List.length_cons, List.length_nil]; omega),
    show ((['"', '>'] : Str)).length = 2 from rfl]
  obtain ⟨y', heq, hy'⟩ := cleanup_from_code cp E hE (fuel - 18 - L.length - 2) y hy
    (by simp only [List.length_cons, List.length_append]; omega)
  rw [heq]
  exact ⟨y', rfl, hy'⟩

theorem cleanup_block {pat repl : Str} (cp : CleanupPat pat repl) (L E : Str)
    (hL : '<' ∉ L) (hE : '<' ∉ E) :
    ∀ fuel y, '\x00' ∉ y →
      ('<' :: 'p' :: 'r' :: 'e' :: ' ' :: 'c' :: 'l' :: 'a' :: 's' :: 's' ::
        '=' :: '"' :: 'c' :: 'o' :: 'd' :: 'e' :: '-' :: 'b' :: 'l' :: 'o' :: 'c' :: 'k' ::
        (L ++ '"' :: '>' :: '<' :: 'c' :: 'o' :: 'd' :: 'e' :: '>' ::
          (E ++ '<' :: '/' :: 'c' :: 'o' :: 'd' :: 'e' :: '>' ::
            '<' :: '/' :: 'p' :: 'r' :: 'e' :: '>' :: y))).length ≤ fuel →
      ∃ y', replaceAllGo pat repl fuel
          ('<' :: 'p' :: 'r' :: 'e' :: ' ' :: 'c' :: 'l' :: 'a' :: 's' :: 's' ::
            '=' :: '"' :: 'c' :: 'o' :: 'd' :: 'e' :: '-' :: 'b' :: 'l' :: 'o' :: 'c' :: 'k' ::
            (L ++ '"' :: '>' :: '<' :: 'c' :: 'o' :: 'd' :: 'e' :: '>' ::
              (E ++ '<' :: '/' :: 'c' :: 'o' :: 'd' :: 'e' :: '>' ::
                '<' :: '/' :: 'p' :: 'r' :: 'e' :: '>' :: y)))
        = '<' :: 'p' :: 'r' :: 'e' :: ' ' :: 'c' :: 'l' :: 'a' :: 's' :: 's' ::
            '=' :: '"' :: 'c' :: 'o' :: 'd' :: 'e' :: '-' :: 'b' :: 'l' :: 'o' :: 'c' :: 'k' ::
            (L ++ '"' :: '>' :: '<' :: 'c' :: 'o' :: 'd' :: 'e' :: '>' ::
              (E ++ '<' :: '/' :: 'c' :: 'o' :: 'd' :: 'e' :: '>' ::
                '<' :: '/' :: 'p' :: 'r' :: 'e' :: '>' :: y')) ∧ '\x00' ∉ y' := by
  intro fuel y hy hf
  have hflen : L.length + E.length + y.length + 43 ≤ fuel := by
    simp only [List.length_cons, List.length_append] at hf
    omega
  obtain ⟨g, rfl⟩ : ∃ g, fuel = g + 1 := ⟨fuel - 1, by omega⟩
  rw [raGo_step (cp.hnpre _)]
  rw [show ('p' :: 'r' :: 'e' :: ' ' :: 'c' :: 'l' :: 'a' :: 's' :: 's' ::
      '=' :: '"' :: 'c' :: 'o' :: 'd' :: 'e' :: '-' :: 'b' :: 'l' :: 'o' :: 'c' :: 'k' ::
      (L ++ '"' :: '>' :: '<' :: 'c' :: 'o' :: 'd' :: 'e' :: '>' ::
        (E ++ '<' :: '/' :: 'c' :: 'o' :: 'd' :: 'e' :: '>' ::
          '<' :: '/' :: 'p' :: 'r' :: 'e' :: '>' :: y)) : Str)
    = (['p', 'r', 'e'] : Str) ++
      (' ' :: 'c' :: 'l' :: 'a' :: 's' :: 's' :: '=' :: '"' ::
        'c' :: 'o' :: 'd' :: 'e' :: '-' :: 'b' :: 'l' :: 'o' :: 'c' :: 'k' ::
        (L ++ '"' :: '>' :: '<' :: 'c' :: 'o' :: 'd' :: 'e' :: '>' ::
          (E ++ '<' :: '/' :: 'c' :: 'o' :: 'd' :: 'e' :: '>' ::
            '<' :: '/' :: 'p' :: 'r' :: 'e' :: '>' :: y))) from rfl,
    @raGo_skip pat repl _ (pat_head_cons cp.hhead) ['p', 'r', 'e'] (by decide) g _
      (by simp only [List.length_cons, List.length_nil]; omega),
    show ((['p', 'r', 'e'] : Str)).length = 3 from rfl]
  obtain ⟨y', heq, hy'⟩ := cleanup_from4 cp L E hL hE (g - 3) y hy
    (by simp only [List.length_cons, List.length_append]; omega)
  rw [heq]
  exact ⟨y', rfl, hy'⟩

theorem cleanup_mid {pat repl : Str} (cp : CleanupPat pat repl) (L E : Str)
    (hL : '<' ∉ L) (hE : '<' ∉ E) :
    ∀ fuel x y, '\x00' ∉ x → '\x00' ∉ y →
      (x ++ ('<' :: 'p' :: 'r' :: 'e' :: ' ' :: 'c' :: 'l' :: 'a' :: 's' :: 's' ::
        '=' :: '"' :: 'c' :: 'o' :: 'd' :: 'e' :: '-' :: 'b' :: 'l' :: 'o' :: 'c' :: 'k' ::
        (L ++ '"' :: '>' :: '<' :: 'c' :: 'o' :: 'd' :: 'e' :: '>' ::
          (E ++ '<' :: '/' :: 'c' :: 'o' :: 'd' :: 'e' :: '>' ::
            '<' :: '/' :: 'p' :: 'r' :: 'e' :: '>' :: y)))).length ≤ fuel →
      ∃ x' y', replaceAllGo pat repl fuel
          (x ++ ('<' :: 'p' :: 'r' :: 'e' :: ' ' :: 'c' :: 'l' :: 'a' :: 's' :: 's' ::
            '=' :: '"' :: 'c' :: 'o' :: 'd' :: 'e' :: '-' :: 'b' :: 'l' :: 'o' :: 'c' :: 'k' ::
            (L ++ '"' :: '>' :: '<' :: 'c' :: 'o' :: 'd' :: 'e' :: '>' ::
              (E ++ '<' :: '/' :: 'c' :: 'o' :: 'd' :: 'e' :: '>' ::
                '<' :: '/' :: 'p' :: 'r' :: 'e' :: '>' :: y))))
        = x' ++ ('<' :: 'p' :: 'r' :: 'e' :: ' ' :: 'c' :: 'l' :: 'a' :: 's' :: 's' ::
            '=' :: '"' :: 'c' :: 'o' :: 'd' :: 'e' :: '-' :: 'b' :: 'l' :: 'o' :: 'c' :: 'k' ::
            (L ++ '"' :: '>' :: '<' :: 'c' :: 'o' :: 'd' :: 'e' :: '>' ::
              (E ++ '<' :: '/' :: 'c' :: 'o' :: 'd' :: 'e' :: '>' ::
                '<' :: '/' :: 'p' :: 'r' :: 'e' :: '>' :: y'))) ∧
          '\x00' ∉ x' ∧ '\x00' ∉ y' := by
  intro fuel
  induction fuel with
  | zero =>
    intro x y _ _ hf
    exfalso
    simp only [List.length_append, List.length_cons, Nat.le_zero] at hf
    omega
  | succ fuel ih =>
    intro x y hx hy hf
    cases x with
    | nil =>
      rw [List.nil_append]
      obtain ⟨y', heq, hy'⟩ := cleanup_block cp L E hL hE (fuel + 1) y hy
        (by rw [List.nil_append] at hf; exact hf)
      exact ⟨[], y', by rw [heq, List.nil_append], List.not_mem_nil _, hy'⟩
    | cons c x =>
      have hc : c ≠ '\x00' := fun h => hx (h ▸ List.mem_cons_self c x)
      have hx' : '\x00' ∉ x := fun h => hx (List.mem_cons_of_mem c h)
      simp only [List.cons_append]
      cases hm : pat.isPrefixOf (c :: (x ++
          ('<' :: 'p' :: 'r' :: 'e' :: ' ' :: 'c' :: 'l' :: 'a' :: 's' :: 's' ::
            '=' :: '"' :: 'c' :: 'o' :: 'd' :: 'e' :: '-' :: 'b' :: 'l' :: 'o' :: 'c' :: 'k' ::
            (L ++ '"' :: '>' :: '<' :: 'c' :: 'o' :: 'd' :: 'e' :: '>' ::
              (E ++ '<' :: '/' :: 'c' :: 'o' :: 'd' :: 'e' :: '>' ::
                '<' :: '/' :: 'p' :: 'r' :: 'e' :: '>' :: y))))) with
      | false =>
        rw [raGo_step hm]
        obtain ⟨x₂, y₂, heq, hx₂, hy₂⟩ := ih x y hx' hy (by
          simp only [List.length_append, List.length_cons] at hf ⊢
          omega)
        rw [heq]
        exact ⟨c :: x₂, y₂, rfl,
          fun h => (List.mem_cons.mp h).elim (fun h' => hc h'.symm) hx₂, hy₂⟩
      | true =>
        have hp1 : 1 ≤ pat.length := le_trans (by decide) cp.hlen5
        by_cases hxl : pat.length ≤ (c :: x : Str).length
        · simp only [replaceAllGo, hm, if_true]
          have hdrop : (c :: (x ++
              ('<' :: 'p' :: 'r' :: 'e' :: ' ' :: 'c' :: 'l' :: 'a' :: 's' :: 's' ::
                '=' :: '"' :: 'c' :: 'o' :: 'd' :: 'e' :: '-' :: 'b' :: 'l' :: 'o' :: 'c' :: 'k' ::
                (L ++ '"' :: '>' :: '<' :: 'c' :: 'o' :: 'd' :: 'e' :: '>' ::
                  (E ++ '<' :: '/' :: 'c' :: 'o' :: 'd' :: 'e' :: '>' ::
                    '<' :: '/' :: 'p' :: 'r' :: 'e' :: '>' :: y)))) : Str).drop pat.length
              = (c :: x : Str).drop pat.length ++
              ('<' :: 'p' :: 'r' :: 'e' :: ' ' :: 'c' :: 'l' :: 'a' :: 's' :: 's' ::
                '=' :: '"' :: 'c' :: 'o' :: 'd' :: 'e' :: '-' :: 'b' :: 'l' :: 'o' :: 'c' :: 'k' ::
                (L ++ '"' :: '>' :: '<' :: 'c' :: 'o' :: 'd' :: 'e' :: '>' ::
                  (E ++ '<' :: '/' :: 'c' :: 'o' :: 'd' :: 'e' :: '>' ::
                    '<' :: '/' :: 'p' :: 'r' :: 'e' :: '>' :: y))) :=
            drop_append_le _ hxl
          rw [hdrop]
          have hnul2 : '\x00' ∉ (c :: x : Str).drop pat.length :=
            fun h => hx ((List.drop_sublist _ _).subset h)
          obtain ⟨x₂, y₂, heq, hx₂, hy₂⟩ := ih ((c :: x : Str).drop pat.length) y hnul2 hy (by
            have hld := List.length_drop pat.length (c :: x : Str)
            simp only [List.length_cons] at hld
            simp only [List.length_append, List.length_cons, hld] at hf ⊢
            omega)
          rw [heq]
          exact ⟨repl ++ x₂, y₂, by simp, nul_not_mem_append cp.hrnul hx₂, hy₂⟩
        · have hlt : (c :: x : Str).length < pat.length := Nat.lt_of_not_le hxl
          obtain ⟨hsp1, hsp2⟩ := @isPrefixOf_append_split pat (c :: x) _ hm hlt
          obtain ⟨hd4, hr4⟩ := cp.hinpre (c :: x : Str).length (by
              simp only [List.length_cons]; omega) hlt
            (L ++ '"' :: '>' :: '<' :: 'c' :: 'o' :: 'd' :: 'e' :: '>' ::
              (E ++ '<' :: '/' :: 'c' :: 'o' :: 'd' :: 'e' :: '>' ::
                '<' :: '/' :: 'p' :: 'r' :: 'e' :: '>' :: y)) hsp2
          have hj4 : pat.length = (c :: x : Str).length + 4 := by
            have h1 : (pat.drop (c :: x : Str).length).length = 4 := by
              rw [hd4]
              decide
            rw [List.length_drop] at h1
            omega
          simp only [replaceAllGo, hm, if_true]
          have hdrop : (c :: (x ++
              ('<' :: 'p' :: 'r' :: 'e' :: ' ' :: 'c' :: 'l' :: 'a' :: 's' :: 's' ::
                '=' :: '"' :: 'c' :: 'o' :: 'd' :: 'e' :: '-' :: 'b' :: 'l' :: 'o' :: 'c' :: 'k' ::
                (L ++ '"' :: '>' :: '<' :: 'c' :: 'o' :: 'd' :: 'e' :: '>' ::
                  (E ++ '<' :: '/' :: 'c' :: 'o' :: 'd' :: 'e' :: '>' ::
                    '<' :: '/' :: 'p' :: 'r' :: 'e' :: '>' :: y)))) : Str).drop pat.length
              = ' ' :: 'c' :: 'l' :: 'a' :: 's' :: 's' ::
                '=' :: '"' :: 'c' :: 'o' :: 'd' :: 'e' :: '-' :: 'b' :: 'l' :: 'o' :: 'c' :: 'k' ::
                (L ++ '"' :: '>' :: '<' :: 'c' :: 'o' :: 'd' :: 'e' :: '>' ::
                  (E ++ '<' :: '/' :: 'c' :: 'o' :: 'd' :: 'e' :: '>' ::
                    '<' :: '/' :: 'p' :: 'r' :: 'e' :: '>' :: y)) := by
            rw [hj4]
            exact @drop_append_add (c :: x) _ 4
          rw [hdrop]
          obtain ⟨y₂, heq, hy₂⟩ := cleanup_from4 cp L E hL hE fuel y hy (by
            simp only [List.length_append, List.length_cons] at hf ⊢
            omega)
          rw [heq, hr4]
          exact ⟨[], y₂, rfl, List.not_mem_nil _, hy₂⟩

theorem cleanup_pass {pat repl : Str} (cp : CleanupPat pat repl) (L E : Str)
    (hL : '<' ∉ L) (hE : '<' ∉ E) (x y : Str) (hx : '\x00' ∉ x) (hy : '\x00' ∉ y) :
    ∃ x' y', replaceAll pat repl
        (x ++ ('<' :: 'p' :: 'r' :: 'e' :: ' ' :: 'c' :: 'l' :: 'a' :: 's' :: 's' ::
          '=' :: '"' :: 'c' :: 'o' :: 'd' :: 'e' :: '-' :: 'b' :: 'l' :: 'o' :: 'c' :: 'k' ::
          (L ++ '"' :: '>' :: '<' :: 'c' :: 'o' :: 'd' :: 'e' :: '>' ::
            (E ++ '<' :: '/' :: 'c' :: 'o' :: 'd' :: 'e' :: '>' ::
              '<' :: '/' :: 'p' :: 'r' :: 'e' :: '>' :: y))))
      = x' ++ ('<' :: 'p' :: 'r' :: 'e' :: ' ' :: 'c' :: 'l' :: 'a' :: 's' :: 's' ::
          '=' :: '"' :: 'c' :: 'o' :: 'd' :: 'e' :: '-' :: 'b' :: 'l' :: 'o' :: 'c' :: 'k' ::
          (L ++ '"' :: '>' :: '<' :: 'c' :: 'o' :: 'd' :: 'e' :: '>' ::
            (E ++ '<' :: '/' :: 'c' :: 'o' :: 'd' :: 'e' :: '>' ::
              '<' :: '/' :: 'p' :: 'r' :: 'e' :: '>' :: y'))) ∧
        '\x00' ∉ x' ∧ '\x00' ∉ y' :=
  cleanup_mid cp L E hL hE _ x y hx hy (Nat.le_refl _)

theorem escapeHtml_mid (a b : Str) :
    escapeHtml (a ++ cbPh ++ b) = escapeHtml a ++ cbPh ++ escapeHtml b := by
  rw [escapeHtml_append, escapeHtml_append, escapeHtml_cbPh]

theorem emphDouble_mid (d : Char) (ot ct : Str) (hd : d ∉ cbPh)
    (hot : '\x00' ∉ ot) (hct : '\x00' ∉ ct) (a b : Str)
    (ha : '\x00' ∉ a) (hb : '\x00' ∉ b) :
    ∃ a' b', emphDouble d ot ct (a ++ cbPh ++ b) = a' ++ cbPh ++ b' ∧
      '\x00' ∉ a' ∧ '\x00' ∉ b' :=
  emphDoubleGo_mid ot ct hd hot hct _ a b ha hb (Nat.le_refl _)

theorem emphSingle_mid (d : Char) (ot ct : Str) (hd : d ∉ cbPh)
    (hot : '\x00' ∉ ot) (hct : '\x00' ∉ ct) (a b : Str)
    (ha : '\x00' ∉ a) (hb : '\x00' ∉ b) :
    ∃ a' b', emphSingle d ot ct (a ++ cbPh ++ b) = a' ++ cbPh ++ b' ∧
      '\x00' ∉ a' ∧ '\x00' ∉ b' :=
  emphSingleGo_mid ot ct hd hot hct _ a b ha hb (Nat.le_refl _)

theorem headerPass_mid (marker ot ct : Str) (hm : '\x00' ∉ marker)
    (hot : '\x00' ∉ ot) (hct : '\x00' ∉ ct) (a b : Str)
    (ha : '\x00' ∉ a) (hb : '\x00' ∉ b) :
    ∃ a' b', mapLines (headerLine marker ot ct) (a ++ cbPh ++ b)
        = a' ++ cbPh ++ b' ∧ '\x00' ∉ a' ∧ '\x00' ∉ b' :=
  mapLines_mid _
    (fun la lb hla hlb => headerLine_mid marker ot ct la lb hm hot hct hla hlb)
    (fun _ hl => headerLine_no_nul marker ot ct hot hct hl) a b ha hb

theorem quotePass_mid (a b : Str) (ha : '\x00' ∉ a) (hb : '\x00' ∉ b) :
    ∃ a' b', mapLines quoteLine (a ++ cbPh ++ b)
        = a' ++ cbPh ++ b' ∧ '\x00' ∉ a' ∧ '\x00' ∉ b' :=
  mapLines_mid _
    (fun la lb hla hlb => headerLine_mid (cs "&gt; ") (cs "<blockquote>")
      (cs "</blockquote>") la lb (by decide) (by decide) (by decide) hla hlb)
    (fun _ hl => headerLine_no_nul (cs "&gt; ") (cs "<blockquote>")
      (cs "</blockquote>") (by decide) (by decide) hl) a b ha hb

theorem linksPass_mid (a b : Str) (ha : '\x00' ∉ a) (hb : '\x00' ∉ b) :
    ∃ a' b', linksPass (a ++ cbPh ++ b) = a' ++ cbPh ++ b' ∧
      '\x00' ∉ a' ∧ '\x00' ∉ b' :=
  linksGo_mid _ a b ha hb (Nat.le_refl _)

theorem paragraphPass_mid (a b : Str) (ha : '\x00' ∉ a) (hb : '\x00' ∉ b) :
    ∃ a' b', paragraphPass (a ++ cbPh ++ b) = a' ++ cbPh ++ b' ∧
      '\x00' ∉ a' ∧ '\x00' ∉ b' :=
  paragraphGo_mid _ a b ha hb (Nat.le_refl _)

theorem emptyParaPass_mid (a b : Str) (ha : '\x00' ∉ a) (hb : '\x00' ∉ b) :
    ∃ a' b', emptyParaPass (a ++ cbPh ++ b) = a' ++ cbPh ++ b' ∧
      '\x00' ∉ a' ∧ '\x00' ∉ b' :=
  emptyParaGo_mid _ a b ha hb (Nat.le_refl _)

theorem replaceAll_mid (repl : Str) {pat : Str} {pc : Char} {pr : Str}
    (hpat : pat = pc :: pr) (hpatnul : '\x00' ∉ pat) (hrepl : '\x00' ∉ repl)
    (hpcC : pc ≠ 'C') (hpcB : pc ≠ 'B') (hpcz : pc ≠ '0')
    (a b : Str) (ha : '\x00' ∉ a) (hb : '\x00' ∉ b) :
    ∃ a' b', replaceAll pat repl (a ++ cbPh ++ b) = a' ++ cbPh ++ b' ∧
      '\x00' ∉ a' ∧ '\x00' ∉ b' :=
  replaceAllGo_mid hpat hpatnul hrepl hpcC hpcB hpcz _ a b ha hb (Nat.le_refl _)

theorem codeBlockHtml_shape (lang body y : Str) :
    codeBlockHtml lang body ++ y
      = '<' :: 'p' :: 'r' :: 'e' :: ' ' :: 'c' :: 'l' :: 'a' :: 's' :: 's' ::
        '=' :: '"' :: 'c' :: 'o' :: 'd' :: 'e' :: '-' :: 'b' :: 'l' :: 'o' :: 'c' :: 'k' ::
        ((if lang ≠ [] then cs " language-" ++ lang else []) ++
          '"' :: '>' :: '<' :: 'c' :: 'o' :: 'd' :: 'e' :: '>' ::
          (escapeHtml (jsTrim body) ++ '<' :: '/' :: 'c' :: 'o' :: 'd' :: 'e' :: '>' ::
            '<' :: '/' :: 'p' :: 'r' :: 'e' :: '>' :: y)) := by
  show (cs "<pre class=\"code-block" ++
      (if lang ≠ [] then cs " language-" ++ lang else []) ++
      cs "\"><code>" ++ escapeHtml (jsTrim body) ++ cs "</code></pre>") ++ y = _
  simp only [List.append_assoc]
  rfl

/-- C4: (amended) for every narrative text holding a fenced code block —
written `pre ++ cs "```" ++ lang ++ newline ++ body ++ cs "```" ++ post`
with no backtick in `pre`, `body` or `post`, no placeholder byte in `pre`
or `post`, no dollar sign in `body` (so the JS replacement-string
substitution rules cannot fire during restoration), and a word-character
language tag — the markup renderer
extracts the block to a placeholder before any other rule runs and
restores it last: the rendered output embeds the block's stored rendering
`codeBlockHtml lang body` intact (its content trimmed and then
HTML-escaped, with no emphasis, header or list substitution applied
inside it), and no placeholder byte is left anywhere else in the output.
The original claim's stronger wording — the raw content HTML-escaped
exactly once — is refuted by `C4_counterexample`: the body is trimmed
before escaping, and placeholder restoration is not collision-proof. -/
theorem C4_code_block_protected (pre lang body post : Str)
    (hpre_t : '`' ∉ pre) (hbody_t : '`' ∉ body) (hpost_t : '`' ∉ post)
    (hpre_n : '\x00' ∉ pre) (hpost_n : '\x00' ∉ post)
    (hbody_d : '$' ∉ body)
    (hlang : ∀ c ∈ lang, isWordChar c = true) :
    ∃ c₀ c₁,
      parseMarkdown (pre ++ cs "```" ++ lang ++ '\n' :: body ++ cs "```" ++ post)
        = c₀ ++ codeBlockHtml lang body ++ c₁ ∧ '\x00' ∉ c₀ ∧ '\x00' ∉ c₁ := by
  have hL : '<' ∉ (if lang ≠ [] then cs " language-" ++ lang else []) := by
    split
    · exact not_mem_append' (by decide)
        (fun hm => absurd (hlang '<' hm) (by decide))
    · exact List.not_mem_nil _
  have hE : '<' ∉ escapeHtml (jsTrim body) := escapeHtml_no_lt _
  have hBd : '$' ∉ codeBlockHtml lang body := by
    have hEd : '$' ∉ escapeHtml (jsTrim body) :=
      escapeHtml_no_dollar (fun hm => hbody_d (mem_jsTrim hm))
    have hLd : '$' ∉ (if lang ≠ [] then cs " language-" ++ lang else []) := by
      split
      · exact not_mem_append' (by decide)
          (fun hm => absurd (hlang '$' hm) (by decide))
      · exact List.not_mem_nil _
    exact not_mem_append' (not_mem_append' (not_mem_append'
      (not_mem_append' (by decide) hLd) (by decide)) hEd) (by decide)
  have hnotick : '`' ∉ pre ++ cbPh ++ post :=
    tick_not_mem_append (tick_not_mem_append hpre_t tick_not_mem_cbPh) hpost_t
  obtain ⟨a3, b3, e3, ha3, hb3⟩ := emphDouble_mid '*' (cs "<strong>") (cs "</strong>")
    (by decide) (by decide) (by decide) (escapeHtml pre) (escapeHtml post)
    (escapeHtml_no_nul hpre_n) (escapeHtml_no_nul hpost_n)
  obtain ⟨a4, b4, e4, ha4, hb4⟩ := emphDouble_mid '_' (cs "<strong>") (cs "</strong>")
    (by decide) (by decide) (by decide) a3 b3 ha3 hb3
  obtain ⟨a5, b5, e5, ha5, hb5⟩ := emphSingle_mid '*' (cs "<em>") (cs "</em>")
    (by decide) (by decide) (by decide) a4 b4 ha4 hb4
  obtain ⟨a6, b6, e6, ha6, hb6⟩ := emphSingle_mid '_' (cs "<em>") (cs "</em>")
    (by decide) (by decide) (by decide) a5 b5 ha5 hb5
  obtain ⟨a7, b7, e7, ha7, hb7⟩ := headerPass_mid (cs "### ") (cs "<h3>") (cs "</h3>")
    (by decide) (by decide) (by decide) a6 b6 ha6 hb6
  obtain ⟨a8, b8, e8, ha8, hb8⟩ := headerPass_mid (cs "## ") (cs "<h2>") (cs "</h2>")
    (by decide) (by decide) (by decide) a7 b7 ha7 hb7
  obtain ⟨a9, b9, e9, ha9, hb9⟩ := headerPass_mid (cs "# ") (cs "<h1>") (cs "</h1>")
    (by decide) (by decide) (by decide) a8 b8 ha8 hb8
  obtain ⟨a10, b10, e10, ha10, hb10⟩ := processLists_mid a9 b9 ha9 hb9
  obtain ⟨a11, b11, e11, ha11, hb11⟩ := quotePass_mid a10 b10 ha10 hb10
  obtain ⟨a12, b12, e12, ha12, hb12⟩ := linksPass_mid a11 b11 ha11 hb11
  obtain ⟨a13, b13, e13, ha13, hb13⟩ := paragraphPass_mid a12 b12 ha12 hb12
  obtain ⟨a14, b14, e14, ha14, hb14⟩ := replaceAll_mid (cs "<br>")
    (show cs "\n" = '\n' :: ([] : Str) from rfl) (by decide) (by decide)
    (by decide) (by decide) (by decide) a13 b13 ha13 hb13
  have ha15 : '\x00' ∉ cs "<p>" ++ a14 := not_mem_append' (by decide) ha14
  have hb15 : '\x00' ∉ b14 ++ cs "</p>" := not_mem_append' hb14 (by decide)
  obtain ⟨a16, b16, e16, ha16, hb16⟩ := replaceAll_mid []
    (show cs "<p></p>" = '<' :: cs "p></p>" from rfl) (by decide) (by decide)
    (by decide) (by decide) (by decide) (cs "<p>" ++ a14) (b14 ++ cs "</p>") ha15 hb15
  obtain ⟨a17, b17, e17, ha17, hb17⟩ := emptyParaPass_mid a16 b16 ha16 hb16
  obtain ⟨x1, y1, f1, hx1, hy1⟩ := cleanup_pass cleanupPat01 _ _ hL hE a17 b17 ha17 hb17
  obtain ⟨x2, y2, f2, hx2, hy2⟩ := cleanup_pass cleanupPat02 _ _ hL hE x1 y1 hx1 hy1
  obtain ⟨x3, y3, f3, hx3, hy3⟩ := cleanup_pass cleanupPat03 _ _ hL hE x2 y2 hx2 hy2
  obtain ⟨x4, y4, f4, hx4, hy4⟩ := cleanup_pass cleanupPat04 _ _ hL hE x3 y3 hx3 hy3
  obtain ⟨x5, y5, f5, hx5, hy5⟩ := cleanup_pass cleanupPat05 _ _ hL hE x4 y4 hx4 hy4
  obtain ⟨x6, y6, f6, hx6, hy6⟩ := cleanup_pass cleanupPat06 _ _ hL hE x5 y5 hx5 hy5
  obtain ⟨x7, y7, f7, hx7, hy7⟩ := cleanup_pass cleanupPat07 _ _ hL hE x6 y6 hx6 hy6
  obtain ⟨x8, y8, f8, hx8, hy8⟩ := cleanup_pass cleanupPat08 _ _ hL hE x7 y7 hx7 hy7
  obtain ⟨x9, y9, f9, hx9, hy9⟩ := cleanup_pass cleanupPat09 _ _ hL hE x8 y8 hx8 hy8
  obtain ⟨x10, y10, f10, hx10, hy10⟩ := cleanup_pass cleanupPat10 _ _ hL hE x9 y9 hx9 hy9
  obtain ⟨x11, y11, f11, hx11, hy11⟩ := cleanup_pass cleanupPat11 _ _ hL hE x10 y10 hx10 hy10
  obtain ⟨x12, y12, f12, hx12, hy12⟩ := cleanup_pass cleanupPat12 _ _ hL hE x11 y11 hx11 hy11
  obtain ⟨x13, y13, f13, hx13, hy13⟩ := cleanup_pass cleanupPat13 _ _ hL hE x12 y12 hx12 hy12
  obtain ⟨x14, y14, f14, hx14, hy14⟩ := cleanup_pass cleanupPat14 _ _ hL hE x13 y13 hx13 hy13
  obtain ⟨x15, y15, f15, hx15, hy15⟩ := cleanup_pass cleanupPat15 _ _ hL hE x14 y14 hx14 hy14
  obtain ⟨x16, y16, f16, hx16, hy16⟩ := cleanup_pass cleanupPat16 _ _ hL hE x15 y15 hx15 hy15
  obtain ⟨x17, y17, f17, hx17, hy17⟩ := cleanup_pass cleanupPat17 _ _ hL hE x16 y16 hx16 hy16
  obtain ⟨x18, y18, f18, hx18, hy18⟩ := cleanup_pass cleanupPat18 _ _ hL hE x17 y17 hx17 hy17
  obtain ⟨x19, y19, f19, hx19, hy19⟩ := cleanup_pass cleanupPat19 _ _ hL hE x18 y18 hx18 hy18
  obtain ⟨x20, y20, f20, hx20, hy20⟩ := cleanup_pass cleanupPat20 _ _ hL hE x19 y19 hx19 hy19
  obtain ⟨x21, y21, f21, hx21, hy21⟩ := cleanup_pass cleanupPat21 _ _ hL hE x20 y20 hx20 hy20
  obtain ⟨x22, y22, f22, hx22, hy22⟩ := cleanup_pass cleanupPat22 _ _ hL hE x21 y21 hx21 hy21
  obtain ⟨x23, y23, f23, hx23, hy23⟩ := cleanup_pass cleanupPat23 _ _ hL hE x22 y22 hx22 hy22
  obtain ⟨x24, y24, f24, hx24, hy24⟩ := cleanup_pass cleanupPat24 _ _ hL hE x23 y23 hx23 hy23
  refine ⟨x24, y24, ?_, hx24, hy24⟩
  simp only [parseMarkdown]
  rw [extractCodeBlocks_single pre lang body post hpre_t hbody_t hpost_t hlang]
  dsimp only
  rw [extractInlineCode_no_ticks hnotick]
  dsimp only
  rw [escapeHtml_mid, e3, e4, e5, e6, e7, e8, e9, e10, e11, e12, e13, e14]
  rw [show cs "<p>" ++ (a14 ++ cbPh ++ b14) ++ cs "</p>"
    = (cs "<p>" ++ a14) ++ cbPh ++ (b14 ++ cs "</p>") from by simp]
  rw [e16, e17]
  rw [restore_ic_nil, restore_cb_single,
    replaceFirst_cbPh (codeBlockHtml lang body) a17 b17 ha17 hBd]
  rw [List.append_assoc a17 _ b17, codeBlockHtml_shape]
  rw [f1, f2, f3, f4, f5, f6, f7, f8, f9, f10, f11, f12, f13, f14, f15, f16,
    f17, f18, f19, f20, f21, f22, f23, f24]
  rw [← codeBlockHtml_shape, ← List.append_assoc]

theorem C4_counterexample :
    parseMarkdown (cs "```\nx \n```")
        = cs "<pre class=\"code-block\"><code>x</code></pre>" ∧
    countSub (escapeHtml (cs "x \n")) (parseMarkdown (cs "```\nx \n```")) = 0 ∧
    '\x00' ∈ parseMarkdown (cs "```\nA\n```IC0```\nB\n``` `x`") ∧
    countSub (escapeHtml (cs "A"))
      (parseMarkdown (cs "```\nA\n```IC0```\nB\n``` `x`")) = 0 ∧
    parseMarkdown (cs "```\na$$b\n```")
        = cs "<pre class=\"code-block\"><code>a$b</code></pre>" ∧
    '\x00' ∈ parseMarkdown (cs "```\n$<\n```") :=
  ⟨by decide, by decide, by decide, by decide, by decide, by decide⟩

theorem C4_witness :
    ∃ c₀ c₁,
      parseMarkdown ([] ++ cs "```" ++ [] ++ '\n' :: cs "x" ++ cs "```" ++ [])
        = c₀ ++ codeBlockHtml [] (cs "x") ++ c₁ ∧ '\x00' ∉ c₀ ∧ '\x00' ∉ c₁ :=
  C4_code_block_protected [] [] (cs "x") [] (by decide) (by decide) (by decide)
    (by decide) (by decide) (by decide) (by decide)
